import Mathlib

/-! Order-statistic red-black tree (`sal::Order_tree`) and breadth-first search.

A shallow embedding of `order_tree.h`, followed by one of `bfs` in `graph/search.h`.
The C++ tree is a pointer graph with a shared sentinel `nil`; it is modelled as a store `mem : Nat → Order_node` in which address `0`
is the sentinel, together with the `root` pointer and an allocation counter.  Every
member function is translated statement by statement into a function on that state.
Loops carry a fuel argument and return `none` when it runs out.
-/

namespace sal

/-- Node colours (`enum class Color`). -/
inductive Color where
  | RED
  | BLACK
  deriving DecidableEq, Repr

/-- The node record `Order_node`: pointers are addresses into the store. -/
structure Order_node where
  key : Int
  parent : Nat
  left : Nat
  right : Nat
  size : Nat
  color : Color
  deriving DecidableEq, Repr

/-- The sentinel pointer `nil`. -/
abbrev nil : Nat := 0

/-- The tree object together with the store its pointers live in. `next` is the first
address that `new` has not handed out yet. -/
structure Order_tree where
  root : Nat
  mem : Nat → Order_node
  next : Nat

/-- Store update at one address. -/
def upd (m : Nat → Order_node) (a : Nat) (v : Order_node) : Nat → Order_node :=
  fun j => if j = a then v else m j

namespace Order_tree

/-- The assignment `a->parent = p`. -/
def setParent (t : Order_tree) (a p : Nat) : Order_tree :=
  { t with mem := upd t.mem a { t.mem a with parent := p } }

/-- The assignment `a->left = p`. -/
def setLeft (t : Order_tree) (a p : Nat) : Order_tree :=
  { t with mem := upd t.mem a { t.mem a with left := p } }

/-- The assignment `a->right = p`. -/
def setRight (t : Order_tree) (a p : Nat) : Order_tree :=
  { t with mem := upd t.mem a { t.mem a with right := p } }

/-- The assignment `a->size = n`. -/
def setSize (t : Order_tree) (a n : Nat) : Order_tree :=
  { t with mem := upd t.mem a { t.mem a with size := n } }

/-- The assignment `a->color = c`. -/
def setColor (t : Order_tree) (a : Nat) (c : Color) : Order_tree :=
  { t with mem := upd t.mem a { t.mem a with color := c } }

/-- The assignment `root = p`. -/
def setRoot (t : Order_tree) (p : Nat) : Order_tree :=
  { t with root := p }

/-- A default-constructed tree: `root {nil}`, and the sentinel built by `Order_node()`,
which sets `size{0}` and `color{BLACK}` only. The remaining sentinel fields and the
unallocated store keep whatever `init` holds. -/
def empty (init : Nat → Order_node) : Order_tree :=
  { root := nil
    mem := upd init nil { init nil with size := 0, color := Color.BLACK }
    next := 1 }

end Order_tree

open Order_tree

/-- `os_select(start, rank)`. -/
def os_select (t : Order_tree) : Nat → Nat → Nat → Option Nat
  | 0, _, _ => none
  | fuel + 1, start, rank =>
    if rank > 0 then
      let cur_rank := (t.mem (t.mem start).left).size + 1
      if cur_rank = rank then some start
      else if rank < cur_rank then os_select t fuel (t.mem start).left rank
      else os_select t fuel (t.mem start).right (rank - cur_rank)
    else some nil

/-- The loop of `os_rank`: walk up to the root, adding the left part of every parent
the walk leaves from the right. -/
def os_rank_loop (t : Order_tree) : Nat → Nat → Nat → Option Nat
  | 0, _, _ => none
  | fuel + 1, node, rank =>
    if node ≠ t.root then
      let rank := if node = (t.mem (t.mem node).parent).right
        then rank + ((t.mem (t.mem (t.mem node).parent).left).size + 1) else rank
      os_rank_loop t fuel (t.mem node).parent rank
    else some rank

/-- `os_rank(node)`. -/
def os_rank (t : Order_tree) (fuel node : Nat) : Option Nat :=
  os_rank_loop t fuel node ((t.mem (t.mem node).left).size + 1)

/-- `tree_find(start, key)`. -/
def tree_find (t : Order_tree) : Nat → Nat → Int → Option Nat
  | 0, _, _ => none
  | fuel + 1, start, key =>
    if start ≠ nil ∧ (t.mem start).key ≠ key then
      if key < (t.mem start).key then tree_find t fuel (t.mem start).left key
      else tree_find t fuel (t.mem start).right key
    else some start

/-- `tree_min(start)`. -/
def tree_min (t : Order_tree) : Nat → Nat → Option Nat
  | 0, _ => none
  | fuel + 1, start =>
    if (t.mem start).left ≠ nil then tree_min t fuel (t.mem start).left
    else some start

/-- `rotate_left(node)`. -/
def rotate_left (t : Order_tree) (node : Nat) : Order_tree :=
  let child := (t.mem node).right
  let t := t.setRight node (t.mem child).left
  let t := if (t.mem child).left ≠ nil then t.setParent (t.mem child).left node else t
  let t := t.setParent child (t.mem node).parent
  let t :=
    if (t.mem node).parent = nil then t.setRoot child
    else if node = (t.mem (t.mem node).parent).left then t.setLeft (t.mem node).parent child
    else t.setRight (t.mem node).parent child
  let t := t.setLeft child node
  let t := t.setParent node child
  let t := t.setSize child (t.mem node).size
  t.setSize node ((t.mem (t.mem node).left).size + (t.mem (t.mem node).right).size + 1)

/-- `rotate_right(node)`. -/
def rotate_right (t : Order_tree) (node : Nat) : Order_tree :=
  let child := (t.mem node).left
  let t := t.setLeft node (t.mem child).right
  let t := if (t.mem child).right ≠ nil then t.setParent (t.mem child).right node else t
  let t := t.setParent child (t.mem node).parent
  let t :=
    if (t.mem node).parent = nil then t.setRoot child
    else if node = (t.mem (t.mem node).parent).left then t.setLeft (t.mem node).parent child
    else t.setRight (t.mem node).parent child
  let t := t.setRight child node
  let t := t.setParent node child
  let t := t.setSize child (t.mem node).size
  t.setSize node ((t.mem (t.mem node).left).size + (t.mem (t.mem node).right).size + 1)

/-- The descent loop of `tree_insert`: returns the store with the sizes on the search
path incremented, and the last node visited (`parent`). -/
def tree_insert_loop (key : Int) : Nat → Order_tree → Nat → Nat → Option (Order_tree × Nat)
  | 0, _, _, _ => none
  | fuel + 1, t, start, parent =>
    if start ≠ nil then
      let t := t.setSize start ((t.mem start).size + 1)
      let parent := start
      if key < (t.mem start).key then tree_insert_loop key fuel t (t.mem start).left parent
      else tree_insert_loop key fuel t (t.mem start).right parent
    else some (t, parent)

/-- `tree_insert(start, node)`. -/
def tree_insert (fuel : Nat) (t : Order_tree) (start node : Nat) : Option Order_tree :=
  match tree_insert_loop (t.mem node).key fuel t start nil with
  | none => none
  | some (t, parent) =>
    let t := t.setParent node parent
    if parent = nil then some (t.setRoot node)
    else if (t.mem node).key < (t.mem parent).key then some (t.setLeft parent node)
    else some (t.setRight parent node)

/-- `rb_insert_fixup(node)`. The local `parent` is read once at the top of each
iteration, as in the source. -/
def rb_insert_fixup : Nat → Order_tree → Nat → Option Order_tree
  | 0, _, _ => none
  | fuel + 1, t, node =>
    if (t.mem (t.mem node).parent).color = Color.RED then
      let parent := (t.mem node).parent
      if parent = (t.mem (t.mem parent).parent).left then
        let uncle := (t.mem (t.mem parent).parent).right
        if (t.mem uncle).color = Color.RED then
          let t := t.setColor parent Color.BLACK
          let t := t.setColor uncle Color.BLACK
          let t := t.setColor (t.mem parent).parent Color.RED
          rb_insert_fixup fuel t (t.mem parent).parent
        else
          let (t, node) :=
            if node = (t.mem parent).right then (rotate_left t parent, parent) else (t, node)
          let t := t.setColor parent Color.BLACK
          let t := t.setColor (t.mem parent).parent Color.RED
          let t := rotate_right t (t.mem parent).parent
          rb_insert_fixup fuel t node
      else
        let uncle := (t.mem (t.mem parent).parent).left
        if (t.mem uncle).color = Color.RED then
          let t := t.setColor parent Color.BLACK
          let t := t.setColor uncle Color.BLACK
          let t := t.setColor (t.mem parent).parent Color.RED
          rb_insert_fixup fuel t (t.mem parent).parent
        else
          let (t, node) :=
            if node = (t.mem parent).left then (rotate_right t parent, parent) else (t, node)
          let t := t.setColor parent Color.BLACK
          let t := t.setColor (t.mem parent).parent Color.RED
          let t := rotate_left t (t.mem parent).parent
          rb_insert_fixup fuel t node
    else some (t.setColor t.root Color.BLACK)

/-- `rb_insert(node)`. -/
def rb_insert (fuel : Nat) (t : Order_tree) (node : Nat) : Option Order_tree :=
  match tree_insert fuel t t.root node with
  | none => none
  | some t => rb_insert_fixup fuel t node

/-- `transplant(old, moved)`. -/
def transplant (t : Order_tree) (old moved : Nat) : Order_tree :=
  let t :=
    if (t.mem old).parent = nil then t.setRoot moved
    else if old = (t.mem (t.mem old).parent).left then t.setLeft (t.mem old).parent moved
    else t.setRight (t.mem old).parent moved
  t.setParent moved (t.mem old).parent

/-- `rb_delete_fixup(successor)`. -/
def rb_delete_fixup : Nat → Order_tree → Nat → Option Order_tree
  | 0, _, _ => none
  | fuel + 1, t, successor =>
    if successor ≠ t.root ∧ (t.mem successor).color = Color.BLACK then
      let parent := (t.mem successor).parent
      if successor = (t.mem parent).left then
        let sibling := (t.mem parent).right
        let (t, sibling) :=
          if (t.mem sibling).color = Color.RED then
            let t := t.setColor sibling Color.BLACK
            let t := t.setColor parent Color.RED
            let t := rotate_left t parent
            (t, (t.mem parent).right)
          else (t, sibling)
        if (t.mem (t.mem sibling).left).color = Color.BLACK
            ∧ (t.mem (t.mem sibling).right).color = Color.BLACK then
          let t := t.setColor sibling Color.RED
          rb_delete_fixup fuel t parent
        else
          let (t, sibling) :=
            if (t.mem (t.mem sibling).right).color = Color.BLACK then
              let t := t.setColor (t.mem sibling).left Color.BLACK
              let t := t.setColor sibling Color.RED
              let t := rotate_right t sibling
              (t, (t.mem parent).right)
            else (t, sibling)
          let t := t.setColor sibling (t.mem parent).color
          let t := t.setColor parent Color.BLACK
          let t := t.setColor (t.mem sibling).right Color.BLACK
          let t := rotate_left t parent
          rb_delete_fixup fuel t t.root
      else
        let sibling := (t.mem parent).left
        let (t, sibling) :=
          if (t.mem sibling).color = Color.RED then
            let t := t.setColor sibling Color.BLACK
            let t := t.setColor parent Color.RED
            let t := rotate_right t parent
            (t, (t.mem parent).left)
          else (t, sibling)
        if (t.mem (t.mem sibling).right).color = Color.BLACK
            ∧ (t.mem (t.mem sibling).left).color = Color.BLACK then
          let t := t.setColor sibling Color.RED
          rb_delete_fixup fuel t parent
        else
          let (t, sibling) :=
            if (t.mem (t.mem sibling).left).color = Color.BLACK then
              let t := t.setColor (t.mem sibling).right Color.BLACK
              let t := t.setColor sibling Color.RED
              let t := rotate_left t sibling
              (t, (t.mem parent).left)
            else (t, sibling)
          let t := t.setColor sibling (t.mem parent).color
          let t := t.setColor parent Color.BLACK
          let t := t.setColor (t.mem sibling).left Color.BLACK
          let t := rotate_right t parent
          rb_delete_fixup fuel t t.root
    else some (t.setColor successor Color.BLACK)

/-- The size loop of `rb_delete`: `while (moved != nil) { --moved->size; ... }`. -/
def rb_delete_size_loop : Nat → Order_tree → Nat → Option Order_tree
  | 0, _, _ => none
  | fuel + 1, t, moved =>
    if moved ≠ nil then
      let t := t.setSize moved ((t.mem moved).size - 1)
      rb_delete_size_loop fuel t (t.mem moved).parent
    else some t

/-- `rb_delete(node)`. The final `delete old` releases the node's storage and leaves
the tree's own fields alone; the store keeps the stale record. -/
def rb_delete (fuel : Nat) (t : Order_tree) (node : Nat) : Option Order_tree :=
  let moved := node
  let moved_original_color := (t.mem moved).color
  let r : Option (Order_tree × Nat × Nat × Color) :=
    if (t.mem node).left = nil then
      let successor := (t.mem node).right
      some (transplant t node (t.mem node).right, moved, successor, moved_original_color)
    else if (t.mem node).right = nil then
      let successor := (t.mem node).left
      some (transplant t node (t.mem node).left, moved, successor, moved_original_color)
    else
      match tree_min t fuel (t.mem node).right with
      | none => none
      | some moved =>
        let moved_original_color := (t.mem moved).color
        let successor := (t.mem moved).right
        let t :=
          if (t.mem moved).parent = node then t.setParent successor moved
          else
            let t := transplant t moved (t.mem moved).right
            let t := t.setRight moved (t.mem node).right
            t.setParent (t.mem moved).right moved
        let t := transplant t node moved
        let t := t.setLeft moved (t.mem node).left
        let t := t.setParent (t.mem moved).left moved
        let t := t.setColor moved (t.mem node).color
        some (t, moved, successor, moved_original_color)
  match r with
  | none => none
  | some (t, moved, successor, moved_original_color) =>
    match rb_delete_size_loop fuel t (t.mem moved).parent with
    | none => none
    | some t =>
      if moved_original_color = Color.BLACK then rb_delete_fixup fuel t successor
      else some t

/-- `insert(data)`: `new Order_node(data)` takes the next free address and builds a
RED node of size 1 whose three pointers are `nil`. -/
def insert (t : Order_tree) (data : Int) : Option Order_tree :=
  let node := t.next
  let t : Order_tree :=
    { t with
      mem := upd t.mem node
        { key := data, parent := nil, left := nil, right := nil, size := 1, color := Color.RED }
      next := t.next + 1 }
  rb_insert t.next t node

/-- `find(key)`. -/
def find (t : Order_tree) (key : Int) : Option Nat :=
  tree_find t t.next t.root key

/-- `erase(data)`. -/
def erase (t : Order_tree) (data : Int) : Option Order_tree :=
  match tree_find t t.next t.root data with
  | none => none
  | some node => if node ≠ nil then rb_delete t.next t node else some t

/-- `select(rank)`. -/
def select (t : Order_tree) (rank : Nat) : Option Nat :=
  os_select t t.next t.root rank

/-- `rank(node)`. -/
def rank (t : Order_tree) (node : Nat) : Option Nat :=
  os_rank t t.next node

/-- `inorder_walk(start, op)`: the sequence of nodes `op` is applied to. -/
def inorder_walk (t : Order_tree) : Nat → Nat → Option (List Nat)
  | 0, _ => none
  | fuel + 1, start =>
    if start ≠ nil then
      match inorder_walk t fuel (t.mem start).left, inorder_walk t fuel (t.mem start).right with
      | some l, some r => some (l ++ start :: r)
      | _, _ => none
    else some []

/-- Modelled from the spec: `size()` is not a member of `Order_tree` in the source; the
specification defines it as the root's size field, which is the sentinel's size for the
empty tree. -/
def size (t : Order_tree) : Nat :=
  (t.mem t.root).size

/-- Insert a list of keys one after the other. -/
def insertAll : Order_tree → List Int → Option Order_tree
  | t, [] => some t
  | t, k :: ks =>
    match insert t k with
    | none => none
    | some t => insertAll t ks

/-! ## Abstract trees and their representation in the store -/

/-- A binary tree of node records: address, key, size field and colour. -/
inductive Tree where
  | leaf : Tree
  | node (l : Tree) (a : Nat) (k : Int) (sz : Nat) (c : Color) (r : Tree) : Tree

namespace Tree

/-- The pointer to the tree: the address of its root node, `nil` for the empty tree. -/
def ptr : Tree → Nat
  | leaf => nil
  | node _ a _ _ _ _ => a

/-- The size field found through the pointer to the tree (the sentinel holds 0). -/
def sz : Tree → Nat
  | leaf => 0
  | node _ _ _ n _ _ => n

/-- The colour found through the pointer to the tree (the sentinel is BLACK). -/
def col : Tree → Color
  | leaf => Color.BLACK
  | node _ _ _ _ c _ => c

/-- Addresses of the nodes, in in-order. -/
def addrs : Tree → List Nat
  | leaf => []
  | node l a _ _ _ r => l.addrs ++ a :: r.addrs

/-- Keys of the nodes, in in-order. -/
def keys : Tree → List Int
  | leaf => []
  | node l _ k _ _ r => l.keys ++ k :: r.keys

/-- Number of nodes. -/
def count : Tree → Nat
  | leaf => 0
  | node l _ _ _ _ r => l.count + r.count + 1

/-- Every size field equals the sum of the children's size fields plus one. -/
def SizeOK : Tree → Prop
  | leaf => True
  | node l _ _ n _ r => n = l.sz + r.sz + 1 ∧ l.SizeOK ∧ r.SizeOK

/-- No RED node has a RED child. -/
def NoRedRed : Tree → Prop
  | leaf => True
  | node l _ _ _ c r =>
    (c = Color.RED → l.col = Color.BLACK ∧ r.col = Color.BLACK) ∧ l.NoRedRed ∧ r.NoRedRed

/-- The tree with its root recoloured BLACK. -/
def blacken : Tree → Tree
  | leaf => leaf
  | node l a k n _ r => node l a k n Color.BLACK r

end Tree

/-- The store `m` holds the tree `s` below a node whose address is `par`: every node's
record carries the key, size and colour of `s` and its three pointers agree with the
shape of `s`. -/
def Rep (m : Nat → Order_node) : Tree → Nat → Prop
  | Tree.leaf, _ => True
  | Tree.node l a k n c r, par =>
    a ≠ nil ∧ m a = ⟨k, par, l.ptr, r.ptr, n, c⟩ ∧ Rep m l a ∧ Rep m r a

/-- The way from a subtree up to the root: at every step the parent's record and the
sibling subtree. -/
inductive Path where
  | top : Path
  | inL (a : Nat) (k : Int) (sz : Nat) (c : Color) (r : Tree) (up : Path) : Path
  | inR (l : Tree) (a : Nat) (k : Int) (sz : Nat) (c : Color) (up : Path) : Path

namespace Path

/-- The whole tree obtained by putting `s` at the position the path leads to. -/
def plug : Path → Tree → Tree
  | top, s => s
  | inL a k n c r up, s => up.plug (Tree.node s a k n c r)
  | inR l a k n c up, s => up.plug (Tree.node l a k n c s)

/-- Address of the parent of the position (`nil` at the root). -/
def par : Path → Nat
  | top => nil
  | inL a _ _ _ _ _ => a
  | inR _ a _ _ _ _ => a

/-- Number of ancestors of the position. -/
def depth : Path → Nat
  | top => 0
  | inL _ _ _ _ _ up => up.depth + 1
  | inR _ _ _ _ _ up => up.depth + 1

/-- Addresses that come before the position in in-order. -/
def before : Path → List Nat
  | top => []
  | inL _ _ _ _ _ up => up.before
  | inR l a _ _ _ up => up.before ++ (l.addrs ++ [a])

/-- Addresses that come after the position in in-order. -/
def after : Path → List Nat
  | top => []
  | inL a _ _ _ r up => (a :: r.addrs) ++ up.after
  | inR _ _ _ _ _ up => up.after

/-- Keys that come before the position in in-order. -/
def keysBefore : Path → List Int
  | top => []
  | inL _ _ _ _ _ up => up.keysBefore
  | inR l _ k _ _ up => up.keysBefore ++ (l.keys ++ [k])

/-- Keys that come after the position in in-order. -/
def keysAfter : Path → List Int
  | top => []
  | inL _ k _ _ r up => (k :: r.keys) ++ up.keysAfter
  | inR _ _ _ _ _ up => up.keysAfter

/-- The root pointer of the whole tree when the subtree pointer at the position is `p`. -/
def rootPtr : Path → Nat → Nat
  | top, p => p
  | inL a _ _ _ _ up, _ => up.rootPtr a
  | inR _ a _ _ _ up, _ => up.rootPtr a

end Path

/-- The store holds the path `c` around a subtree whose pointer is `p`. -/
def RepPath (m : Nat → Order_node) : Path → Nat → Prop
  | Path.top, _ => True
  | Path.inL a k n c r up, p =>
    a ≠ nil ∧ m a = ⟨k, up.par, p, r.ptr, n, c⟩ ∧ Rep m r a ∧ RepPath m up a
  | Path.inR l a k n c up, p =>
    a ≠ nil ∧ m a = ⟨k, up.par, l.ptr, p, n, c⟩ ∧ Rep m l a ∧ RepPath m up a

/-- The tree object `t` is a well-formed pointer tree with contents `s`: the nodes
reachable from `root` are exactly those of `s`, linked as in `s`, pairwise distinct,
allocated, and the sentinel is BLACK with size 0. -/
structure Wf (t : Order_tree) (s : Tree) : Prop where
  root : t.root = s.ptr
  rep : Rep t.mem s nil
  nodup : s.addrs.Nodup
  bound : ∀ a ∈ s.addrs, a < t.next
  pos : 0 < t.next
  nil_color : (t.mem nil).color = Color.BLACK
  nil_size : (t.mem nil).size = 0

/-! ## Insertion on abstract trees -/

/-- The search path `tree_insert` walks from the subtree `s` at position `c`, with the
size field of every visited node incremented. -/
def descend (key : Int) : Tree → Path → Path
  | Tree.leaf, c => c
  | Tree.node l a k n col r, c =>
    if key < k then descend key l (Path.inL a k (n + 1) col r c)
    else descend key r (Path.inR l a k (n + 1) col c)

/-- The effect of `rb_insert_fixup` started at the subtree `s` at position `c`, case by
case as in the source: RED uncle (recolour and continue two levels up), node on the
inner side of a RED parent (the two rotations with the colours written through the
stale `parent`), node on the outer side (recolour and rotate the grandparent). -/
def ins_fix : Path → Tree → Tree
  | Path.top, s => s.blacken
  | Path.inL p kp np Color.BLACK r up, s =>
    ((Path.inL p kp np Color.BLACK r up).plug s).blacken
  | Path.inR l p kp np Color.BLACK up, s =>
    ((Path.inR l p kp np Color.BLACK up).plug s).blacken
  | Path.inL p kp np Color.RED r Path.top, s =>
    ((Path.inL p kp np Color.RED r Path.top).plug s).blacken
  | Path.inR l p kp np Color.RED Path.top, s =>
    ((Path.inR l p kp np Color.RED Path.top).plug s).blacken
  | Path.inL p kp np Color.RED r (Path.inL g kg ng cg u up), s =>
    if u.col = Color.RED then
      ins_fix up (Tree.node (Tree.node s p kp np Color.BLACK r) g kg ng Color.RED u.blacken)
    else
      ((Path.inL p kp ng Color.BLACK (Tree.node r g kg (r.sz + u.sz + 1) Color.RED u) up).plug
        s).blacken
  | Path.inR l p kp np Color.RED (Path.inL g kg ng cg u up), s =>
    if u.col = Color.RED then
      ins_fix up (Tree.node (Tree.node l p kp np Color.BLACK s) g kg ng Color.RED u.blacken)
    else
      match s with
      | Tree.leaf => ((Path.inR l p kp np Color.RED (Path.inL g kg ng cg u up)).plug s).blacken
      | Tree.node sl x kx _ _ sr =>
        ins_fix (Path.inL g kg ng cg u up)
          (Tree.node l p kp np Color.BLACK (Tree.node sl x kx (sl.sz + sr.sz + 1) Color.RED sr))
  | Path.inL p kp np Color.RED r (Path.inR u g kg ng cg up), s =>
    if u.col = Color.RED then
      ins_fix up (Tree.node u.blacken g kg ng Color.RED (Tree.node s p kp np Color.BLACK r))
    else
      match s with
      | Tree.leaf => ((Path.inL p kp np Color.RED r (Path.inR u g kg ng cg up)).plug s).blacken
      | Tree.node sl x kx _ _ sr =>
        ins_fix (Path.inR u g kg ng cg up)
          (Tree.node (Tree.node sl x kx (sl.sz + sr.sz + 1) Color.RED sr) p kp np Color.BLACK r)
  | Path.inR l p kp np Color.RED (Path.inR u g kg ng cg up), s =>
    if u.col = Color.RED then
      ins_fix up (Tree.node u.blacken g kg ng Color.RED (Tree.node l p kp np Color.BLACK s))
    else
      ((Path.inR (Tree.node u g kg (u.sz + l.sz + 1) Color.RED l) p kp ng Color.BLACK up).plug
        s).blacken
termination_by c => c.depth
decreasing_by
  all_goals simp_wf
  all_goals simp only [Path.depth]
  all_goals omega

/-- The abstract result of `insert(key)` on the tree `s`, the new node getting address
`x`. -/
def ins (key : Int) (x : Nat) (s : Tree) : Tree :=
  ins_fix (descend key s Path.top) (Tree.node Tree.leaf x key 1 Color.RED Tree.leaf)

/-- Colour of the parent of the position (BLACK at the root, where the parent is the
sentinel). -/
def Path.parCol : Path → Color
  | Path.top => Color.BLACK
  | Path.inL _ _ _ c _ _ => c
  | Path.inR _ _ _ _ c _ => c

/-- The root of the whole tree, when it is not the position itself, is BLACK. -/
def Path.RootBlack : Path → Prop
  | Path.top => True
  | Path.inL _ _ _ c _ Path.top => c = Color.BLACK
  | Path.inR _ _ _ _ c Path.top => c = Color.BLACK
  | Path.inL _ _ _ _ _ up => up.RootBlack
  | Path.inR _ _ _ _ _ up => up.RootBlack

/-- Height of a tree. -/
def Tree.height : Tree → Nat
  | Tree.leaf => 0
  | Tree.node l _ _ _ _ r => max l.height r.height + 1

/-- The last comparison `tree_insert` made on the way to the position agrees with the
side the position is on. -/
def Path.LastStep (key : Int) : Path → Prop
  | Path.top => True
  | Path.inL _ k _ _ _ _ => key < k
  | Path.inR _ _ k _ _ _ => ¬ key < k

/-- The size fields on the path are consistent when the subtree at the position has
size field `n`. -/
def Path.SizeOK : Path → Nat → Prop
  | Path.top, _ => True
  | Path.inL _ _ m _ r up, n => m = n + r.sz + 1 ∧ r.SizeOK ∧ up.SizeOK m
  | Path.inR l _ _ m _ up, n => m = l.sz + n + 1 ∧ l.SizeOK ∧ up.SizeOK m

/-- No RED node on the path or in a sibling subtree has a RED parent or a RED child,
the subtree at the position left aside. -/
def Path.NoRedRed : Path → Prop
  | Path.top => True
  | Path.inL _ _ _ c r up =>
    (c = Color.RED → r.col = Color.BLACK ∧ up.parCol = Color.BLACK) ∧ r.NoRedRed ∧ up.NoRedRed
  | Path.inR l _ _ _ c up =>
    (c = Color.RED → l.col = Color.BLACK ∧ up.parCol = Color.BLACK) ∧ l.NoRedRed ∧ up.NoRedRed

/-- The node `a` belongs to the tree: it is reached from `root` along `left` and `right`
pointers without passing through the sentinel. -/
inductive IsNode (t : Order_tree) : Nat → Prop where
  | root : t.root ≠ nil → IsNode t t.root
  | left {a : Nat} : IsNode t a → (t.mem a).left ≠ nil → IsNode t (t.mem a).left
  | right {a : Nat} : IsNode t a → (t.mem a).right ≠ nil → IsNode t (t.mem a).right

/-- The path `c` continued by the path `d`. -/
def Path.comp : Path → Path → Path
  | Path.top, d => d
  | Path.inL a k n col r up, d => Path.inL a k n col r (up.comp d)
  | Path.inR l a k n col up, d => Path.inR l a k n col (up.comp d)

/-- A store in which every cell is zero-filled: the initial memory of the concrete runs. -/
def zeroStore : Nat → Order_node :=
  fun _ => { key := 0, parent := 0, left := 0, right := 0, size := 0, color := Color.BLACK }

/-- A public mutating operation. -/
inductive Op where
  | ins (k : Int)
  | del (k : Int)

/-- Run a sequence of `insert` and `erase` calls. -/
def run : Order_tree → List Op → Option Order_tree
  | t, [] => some t
  | t, Op.ins k :: ops =>
    match insert t k with
    | none => none
    | some t => run t ops
  | t, Op.del k :: ops =>
    match erase t k with
    | none => none
    | some t => run t ops

/-- The number of BLACK nodes on every path from `start` down to the sentinel (the
sentinel itself not counted), listed from the leftmost path to the rightmost. -/
def black_counts (t : Order_tree) : Nat → Nat → Option (List Nat)
  | 0, _ => none
  | fuel + 1, start =>
    if start ≠ nil then
      match black_counts t fuel (t.mem start).left, black_counts t fuel (t.mem start).right with
      | some l, some r =>
        some ((l ++ r).map fun n => if (t.mem start).color = Color.BLACK then n + 1 else n)
      | _, _ => none
    else some [0]

/-- The object is a well-formed pointer tree: `root`, `left`, `right` and `parent` links
describe a finite binary tree of distinct allocated nodes, and the sentinel is BLACK with
size 0. -/
def WellFormed (t : Order_tree) : Prop :=
  ∃ s, Wf t s

/-- The size invariant of the data model, on the pointer structure. -/
def SizeInvariant (t : Order_tree) : Prop :=
  ∀ a, IsNode t a →
    (t.mem a).size = (t.mem (t.mem a).left).size + (t.mem (t.mem a).right).size + 1

/-- A one-node tree: the node at address 1 holds key 7, is BLACK and has size 1. -/
def singleton_tree : Order_tree :=
  { root := 1
    mem := upd zeroStore 1
      { key := 7, parent := nil, left := nil, right := nil, size := 1, color := Color.BLACK }
    next := 2 }

/-! ## Deletion on abstract trees -/

/-- Black height along the leftmost path (the sentinel not counted). -/
def Tree.bh : Tree → Nat
  | Tree.leaf => 0
  | Tree.node l _ _ _ c _ => l.bh + (if c = Color.BLACK then 1 else 0)

/-- Every path from a node down to the sentinel passes through the same number of BLACK
nodes. -/
def Tree.Balanced : Tree → Prop
  | Tree.leaf => True
  | Tree.node l _ _ _ _ r => l.bh = r.bh ∧ l.Balanced ∧ r.Balanced

/-- The path and the sibling subtrees along it are balanced when the subtree at the
position has black height `n`. -/
def Path.Balanced : Path → Nat → Prop
  | Path.top, _ => True
  | Path.inL _ _ _ c r up, n =>
    r.bh = n ∧ r.Balanced ∧ up.Balanced (n + (if c = Color.BLACK then 1 else 0))
  | Path.inR l _ _ _ c up, n =>
    l.bh = n ∧ l.Balanced ∧ up.Balanced (n + (if c = Color.BLACK then 1 else 0))

/-- The path with every size field decremented, as the size loop of `rb_delete` leaves
it. -/
def Path.decr : Path → Path
  | Path.top => Path.top
  | Path.inL a k n c r up => Path.inL a k (n - 1) c r up.decr
  | Path.inR l a k n c up => Path.inR l a k (n - 1) c up.decr

/-- Number of nodes outside the subtree at the position. -/
def Path.weight (c : Path) : Nat :=
  c.before.length + c.after.length

/-- The path from the minimum of a non-empty tree up to the position `d` of the tree. -/
def min_path : Tree → Path → Path
  | Tree.leaf, d => d
  | Tree.node Tree.leaf _ _ _ _ _, d => d
  | Tree.node (Tree.node ll la lk ln lc lr) a k n c r, d =>
    min_path (Tree.node ll la lk ln lc lr) (Path.inL a k n c r d)

/-- The subtree rooted at the minimum of a tree. -/
def min_node : Tree → Tree
  | Tree.leaf => Tree.leaf
  | Tree.node Tree.leaf a k n c r => Tree.node Tree.leaf a k n c r
  | Tree.node (Tree.node ll la lk ln lc lr) _ _ _ _ _ => min_node (Tree.node ll la lk ln lc lr)

/-- Cases 2 to 4 of `rb_delete_fixup` when the deficient subtree `s` is the left child
of `p` and `w` is the sibling: the subtree that replaces the one rooted at `p`, and
whether the loop goes on at `p` (case 2) or is over (case 4). `none` when the sibling is
the sentinel. -/
def del_sib_L (s : Tree) (p : Nat) (kp : Int) (np : Nat) (cp : Color) (w : Tree) :
    Option (Tree × Bool) :=
  match w with
  | Tree.leaf => none
  | Tree.node wl wa kw nw _ wr =>
    if wl.col = Color.BLACK ∧ wr.col = Color.BLACK then
      some (Tree.node s p kp np cp (Tree.node wl wa kw nw Color.RED wr), true)
    else if wr.col = Color.BLACK then
      match wl with
      | Tree.leaf => none
      | Tree.node wll wla kwl _ _ wlr =>
        some (Tree.node (Tree.node s p kp (s.sz + wll.sz + 1) Color.BLACK wll) wla kwl np cp
          (Tree.node wlr wa kw (wlr.sz + wr.sz + 1) Color.BLACK wr), false)
    else
      some (Tree.node (Tree.node s p kp (s.sz + wl.sz + 1) Color.BLACK wl) wa kw np cp
        wr.blacken, false)

/-- Cases 2 to 4 of `rb_delete_fixup` when the deficient subtree `s` is the right child
of `p` and `w` is the sibling. -/
def del_sib_R (s : Tree) (p : Nat) (kp : Int) (np : Nat) (cp : Color) (w : Tree) :
    Option (Tree × Bool) :=
  match w with
  | Tree.leaf => none
  | Tree.node wl wa kw nw _ wr =>
    if wr.col = Color.BLACK ∧ wl.col = Color.BLACK then
      some (Tree.node (Tree.node wl wa kw nw Color.RED wr) p kp np cp s, true)
    else if wl.col = Color.BLACK then
      match wr with
      | Tree.leaf => none
      | Tree.node wrl wra kwr _ _ wrr =>
        some (Tree.node (Tree.node wl wa kw (wl.sz + wrl.sz + 1) Color.BLACK wrl) wra kwr np cp
          (Tree.node wrr p kp (wrr.sz + s.sz + 1) Color.BLACK s), false)
    else
      some (Tree.node wl.blacken wa kw np cp
        (Tree.node wr p kp (wr.sz + s.sz + 1) Color.BLACK s), false)

/-- The effect of `rb_delete_fixup` started at the subtree `s` at position `c`; `none`
when the loop would look at the children of a sentinel sibling. -/
def del_fix : Path → Tree → Option Tree
  | Path.top, s => some s.blacken
  | Path.inL p kp np cp w up, s =>
    if s.col = Color.RED then some ((Path.inL p kp np cp w up).plug s.blacken)
    else
      match w with
      | Tree.node wl wa kw _ Color.RED wr =>
        match del_sib_L s p kp (s.sz + wl.sz + 1) Color.RED wl with
        | none => none
        | some (sub, true) => some ((Path.inL wa kw np Color.BLACK wr up).plug sub.blacken)
        | some (sub, false) => some ((Path.inL wa kw np Color.BLACK wr up).plug sub).blacken
      | _ =>
        match del_sib_L s p kp np cp w with
        | none => none
        | some (sub, true) => del_fix up sub
        | some (sub, false) => some (up.plug sub).blacken
  | Path.inR w p kp np cp up, s =>
    if s.col = Color.RED then some ((Path.inR w p kp np cp up).plug s.blacken)
    else
      match w with
      | Tree.node wl wa kw _ Color.RED wr =>
        match del_sib_R s p kp (wr.sz + s.sz + 1) Color.RED wr with
        | none => none
        | some (sub, true) => some ((Path.inR wl wa kw np Color.BLACK up).plug sub.blacken)
        | some (sub, false) => some ((Path.inR wl wa kw np Color.BLACK up).plug sub).blacken
      | _ =>
        match del_sib_R s p kp np cp w with
        | none => none
        | some (sub, true) => del_fix up sub
        | some (sub, false) => some (up.plug sub).blacken

/-- The abstract result of `rb_delete` on the node with children `l`, `r` and colour
`col` at position `c`. -/
def del_at (c : Path) (l : Tree) (col : Color) (r : Tree) : Option Tree :=
  match l, r with
  | Tree.leaf, _ => if col = Color.BLACK then del_fix c.decr r else some (c.decr.plug r)
  | Tree.node ll la lk ln lc lr, Tree.leaf =>
    if col = Color.BLACK then del_fix c.decr (Tree.node ll la lk ln lc lr)
    else some (c.decr.plug (Tree.node ll la lk ln lc lr))
  | Tree.node ll la lk ln lc lr, Tree.node rl ra rk rn rc rr =>
    match min_node (Tree.node rl ra rk rn rc rr) with
    | Tree.leaf => none
    | Tree.node _ y ky ny cy yr =>
      if cy = Color.BLACK then
        del_fix ((min_path (Tree.node rl ra rk rn rc rr) Path.top).comp
          (Path.inR (Tree.node ll la lk ln lc lr) y ky ny col c.decr)) yr
      else
        some (((min_path (Tree.node rl ra rk rn rc rr) Path.top).comp
          (Path.inR (Tree.node ll la lk ln lc lr) y ky ny col c.decr)).plug yr)

/-- The statements of one iteration of `rb_delete_fixup` that follow the
`if (sibling->color == RED)` block when `successor` is a left child (cases 2 to 4);
`rest` stands for the remaining iterations of the loop. -/
def fixup_cases_L (rest : Order_tree → Nat → Option Order_tree) (t : Order_tree)
    (parent sibling : Nat) : Option Order_tree :=
  if (t.mem (t.mem sibling).left).color = Color.BLACK
      ∧ (t.mem (t.mem sibling).right).color = Color.BLACK then
    let t := t.setColor sibling Color.RED
    rest t parent
  else
    let (t, sibling) :=
      if (t.mem (t.mem sibling).right).color = Color.BLACK then
        let t := t.setColor (t.mem sibling).left Color.BLACK
        let t := t.setColor sibling Color.RED
        let t := rotate_right t sibling
        (t, (t.mem parent).right)
      else (t, sibling)
    let t := t.setColor sibling (t.mem parent).color
    let t := t.setColor parent Color.BLACK
    let t := t.setColor (t.mem sibling).right Color.BLACK
    let t := rotate_left t parent
    rest t t.root

/-- The mirror image of `fixup_cases_L` for a right child. -/
def fixup_cases_R (rest : Order_tree → Nat → Option Order_tree) (t : Order_tree)
    (parent sibling : Nat) : Option Order_tree :=
  if (t.mem (t.mem sibling).right).color = Color.BLACK
      ∧ (t.mem (t.mem sibling).left).color = Color.BLACK then
    let t := t.setColor sibling Color.RED
    rest t parent
  else
    let (t, sibling) :=
      if (t.mem (t.mem sibling).left).color = Color.BLACK then
        let t := t.setColor (t.mem sibling).right Color.BLACK
        let t := t.setColor sibling Color.RED
        let t := rotate_left t sibling
        (t, (t.mem parent).left)
      else (t, sibling)
    let t := t.setColor sibling (t.mem parent).color
    let t := t.setColor parent Color.BLACK
    let t := t.setColor (t.mem sibling).left Color.BLACK
    let t := rotate_right t parent
    rest t t.root

/-- The last four statements of the two-children case of `rb_delete`:
`transplant(node, moved); moved->left = node->left; moved->left->parent = moved;
moved->color = node->color`. -/
def rb_delete_relink (t : Order_tree) (node moved : Nat) : Order_tree :=
  let t := transplant t node moved
  let t := t.setLeft moved (t.mem node).left
  let t := t.setParent (t.mem moved).left moved
  t.setColor moved (t.mem node).color

/-- The two-children case of `rb_delete` from `successor = moved->right` down to
`moved->color = node->color`, for `moved` the minimum of the right subtree of `node`. -/
def rb_delete_splice (t : Order_tree) (node moved : Nat) : Order_tree :=
  let successor := (t.mem moved).right
  let t :=
    if (t.mem moved).parent = node then t.setParent successor moved
    else
      let t := transplant t moved (t.mem moved).right
      let t := t.setRight moved (t.mem node).right
      t.setParent (t.mem moved).right moved
  rb_delete_relink t node moved

/-- The number of BLACK nodes on every path from the root of the tree down to a leaf,
listed from the leftmost path to the rightmost. -/
def Tree.bcounts : Tree → List Nat
  | Tree.leaf => [0]
  | Tree.node l _ _ _ c r =>
    (l.bcounts ++ r.bcounts).map fun n => if c = Color.BLACK then n + 1 else n

/-- A three-node tree of BLACK nodes: key 2 at address 1 is the root, key 1 at address 2
its left child and key 3 at address 3 its right child. -/
def black_triple : Order_tree :=
  { root := 1
    mem := upd (upd (upd zeroStore 1
        { key := 2, parent := nil, left := 2, right := 3, size := 3, color := Color.BLACK }) 2
        { key := 1, parent := 1, left := nil, right := nil, size := 1, color := Color.BLACK }) 3
        { key := 3, parent := 1, left := nil, right := nil, size := 1, color := Color.BLACK }
    next := 4 }

/-- The abstract tree after inserting a list of keys one after the other, the new nodes
taking the addresses `x`, `x + 1`, ... -/
def insList : List Int → Nat → Tree → Tree
  | [], _, s => s
  | k :: ks, x, s => insList ks (x + 1) (ins k x s)

/-- `preorder_walk(start, op)`: the sequence of nodes `op` is applied to. The source
recurses into both subtrees through `inorder_walk`. -/
def preorder_walk (t : Order_tree) (fuel start : Nat) : Option (List Nat) :=
  if start ≠ nil then
    match inorder_walk t fuel (t.mem start).left, inorder_walk t fuel (t.mem start).right with
    | some l, some r => some (start :: (l ++ r))
    | _, _ => none
  else some []

/-- `postorder_walk(start, op)`: the sequence of nodes `op` is applied to. The source
recurses into both subtrees through `inorder_walk`. -/
def postorder_walk (t : Order_tree) (fuel start : Nat) : Option (List Nat) :=
  if start ≠ nil then
    match inorder_walk t fuel (t.mem start).left, inorder_walk t fuel (t.mem start).right with
    | some l, some r => some (l ++ r ++ [start])
    | _, _ => none
  else some []

/-- A store whose cells, the uninitialised pointer fields of the sentinel among them,
hold the address 1 in every pointer field. -/
def onesStore : Nat → Order_node :=
  fun _ => { key := 0, parent := 1, left := 1, right := 1, size := 0, color := Color.BLACK }

/-- What a rotation at the node `x` that lifts its child `y` has to achieve, `t` being
the tree before and `t2` the tree after: `t2` is again a well-formed pointer tree; the
in-order walk meets the same nodes in the same order and every record keeps its key and
its colour; the size invariant holds at every node of `t2`; and `y` has taken the place
of `x` (it is the root if `x` was, else it hangs in the child slot of `x`'s old parent
that held `x`), with `x` now a child of `y`. -/
def Rotated (t : Order_tree) (x y : Nat) (t2 : Order_tree) : Prop :=
  WellFormed t2
  ∧ (∃ ns, inorder_walk t t.next t.root = some ns ∧ inorder_walk t2 t2.next t2.root = some ns)
  ∧ (∀ a, (t2.mem a).key = (t.mem a).key)
  ∧ (∀ a, (t2.mem a).color = (t.mem a).color)
  ∧ SizeInvariant t2
  ∧ (x = t.root → t2.root = y)
  ∧ (x ≠ t.root → t2.root = t.root
      ∧ (x = (t.mem (t.mem x).parent).left → (t2.mem (t.mem x).parent).left = y)
      ∧ (x = (t.mem (t.mem x).parent).right → (t2.mem (t.mem x).parent).right = y))
  ∧ (t2.mem y).parent = (t.mem x).parent
  ∧ (t2.mem x).parent = y

/-! ## Breadth-first search (`graph/search.h`) -/

/-- What `bfs` expects of its `Graph` argument (the comment above `bfs`): the vertex
names given by the iterators `begin()` .. `end()`, and for every vertex the destinations
`dest()` of the edges given by `adjacent(v)`, in iteration order. Vertex names are
natural numbers. -/
structure Graph where
  vertices : List Nat
  adjacent : Nat → List Nat

/-- The record `Vertex_bfs_property<V>`. -/
structure Vertex_bfs_property where
  distance : Nat
  parent : Nat
  deriving DecidableEq, Repr

/-- `unsigned_infinity`: the largest `size_t`, for a 64-bit `size_t`. -/
def unsigned_infinity : Nat := 2 ^ 64 - 1

/-- The map `Vertex_bfs_property_map<V>`: a finite map from vertex names to records,
`none` where the key is absent. -/
abbrev VBP := Nat → Option Vertex_bfs_property

/-- The record `property[k]` refers to: the stored one, or the value-initialised record
`operator[]` inserts for an absent key. -/
def VBP.at (m : VBP) (k : Nat) : Vertex_bfs_property :=
  (m k).getD { distance := 0, parent := 0 }

/-- The map after `property[k] = v`. -/
def VBP.set (m : VBP) (k : Nat) (v : Vertex_bfs_property) : VBP :=
  fun x => if x = k then some v else m x

/-- The first loop of `bfs`: `property[*v] = {unsigned_infinity, *v}` for every vertex. -/
def bfs_init (vs : List Nat) (m : VBP) : VBP :=
  vs.foldl (fun m v => m.set v { distance := unsigned_infinity, parent := v }) m

/-- The body of the `for` loop over the edges of `cur`, for the edge whose destination
is `dest`; the state is the property map and the queue `exploring`. -/
def bfs_visit (cur : Nat) (st : VBP × List Nat) (dest : Nat) : VBP × List Nat :=
  let m := st.1.set dest (st.1.at dest)
  if (m.at dest).distance = unsigned_infinity then
    let m := m.set cur (m.at cur)
    let m := m.set dest { m.at dest with distance := ((m.at cur).distance + 1) % 2 ^ 64 }
    let m := m.set dest { m.at dest with parent := cur }
    (m, st.2 ++ [dest])
  else (m, st.2)

/-- The `while (!exploring.empty())` loop of `bfs`. -/
def bfs_loop (g : Graph) : Nat → VBP → List Nat → Option VBP
  | _, m, [] => some m
  | 0, _, _ :: _ => none
  | fuel + 1, m, cur :: q =>
    let st := (g.adjacent cur).foldl (bfs_visit cur) (m, q)
    bfs_loop g fuel st.1 st.2

/-- `bfs(g, s)`, with `fuel` iterations allowed to the `while` loop. -/
def bfs (g : Graph) (s : Nat) (fuel : Nat) : Option VBP :=
  let m := bfs_init g.vertices (fun _ => none)
  let m := m.set s { m.at s with distance := 0 }
  let m := m.set s { m.at s with parent := s }
  bfs_loop g fuel m [s]

/-- There is a path of `n` edges from `s` to the vertex. -/
inductive Walk (g : Graph) (s : Nat) : Nat → Nat → Prop where
  | nil : Walk g s s 0
  | snoc {v w n : Nat} : Walk g s v n → w ∈ g.adjacent v → Walk g s w (n + 1)

/-- A small graph: edges 0 → 1, 0 → 2, 1 → 3, 2 → 3, 3 → 0, and a vertex 4 with an edge
4 → 0 that no edge leads to. -/
def diamond : Graph :=
  { vertices := [0, 1, 2, 3, 4]
    adjacent := fun v =>
      if v = 0 then [1, 2] else if v = 1 then [3] else if v = 2 then [3]
      else if v = 3 then [0] else if v = 4 then [0] else [] }

/-- The vertex `v` of `g` has been discovered: its distance is no longer
`unsigned_infinity`. -/
def Discovered (g : Graph) (m : VBP) (v : Nat) : Prop :=
  v ∈ g.vertices ∧ (m.at v).distance ≠ unsigned_infinity

/-- Number of entries of the vertex list that are still undiscovered. -/
def undiscovered (g : Graph) (m : VBP) : Nat :=
  g.vertices.countP fun v => decide ((m.at v).distance = unsigned_infinity)

/-- The part of the loop invariant of `bfs` that speaks of the property map alone. -/
structure BfsCore (g : Graph) (s : Nat) (m : VBP) : Prop where
  dom : ∀ v ∈ g.vertices, ∃ p, m v = some p
  keys : ∀ v, v ∉ g.vertices → m v = none
  src : m.at s = { distance := 0, parent := s }
  sound : ∀ v, Discovered g m v → Walk g s v (m.at v).distance
  bound : ∀ v, Discovered g m v → (m.at v).distance + undiscovered g m < g.vertices.length
  par : ∀ v, Discovered g m v → v ≠ s →
    Discovered g m (m.at v).parent ∧ v ∈ g.adjacent (m.at v).parent
      ∧ (m.at v).distance = (m.at (m.at v).parent).distance + 1
  fresh : ∀ v ∈ g.vertices, (m.at v).distance = unsigned_infinity → (m.at v).parent = v

/-- The invariant of the `while` loop of `bfs`: `q` is the queue `exploring`. -/
structure BfsOuter (g : Graph) (s : Nat) (m : VBP) (q : List Nat) : Prop where
  core : BfsCore g s m
  qd : ∀ v ∈ q, Discovered g m v
  sorted : q.Pairwise fun a b => (m.at a).distance ≤ (m.at b).distance
  hi : ∀ u ∈ q.head?, ∀ v, Discovered g m v → (m.at v).distance ≤ (m.at u).distance + 1
  closed : ∀ v, Discovered g m v → v ∉ q → ∀ w ∈ g.adjacent v,
    Discovered g m w ∧ (m.at w).distance ≤ (m.at v).distance + 1

/-- The invariant of the `for` loop over the edges of `u`: `rest` holds the
destinations still to be looked at. -/
structure BfsInner (g : Graph) (s u : Nat) (m : VBP) (q rest : List Nat) : Prop where
  core : BfsCore g s m
  du : Discovered g m u
  qd : ∀ v ∈ q, Discovered g m v
  sorted : q.Pairwise fun a b => (m.at a).distance ≤ (m.at b).distance
  lo : ∀ v ∈ q, (m.at u).distance ≤ (m.at v).distance
  hi : ∀ v, Discovered g m v → (m.at v).distance ≤ (m.at u).distance + 1
  closed : ∀ v, Discovered g m v → v ∉ q → v ≠ u → ∀ w ∈ g.adjacent v,
    Discovered g m w ∧ (m.at w).distance ≤ (m.at v).distance + 1
  cur : ∀ w ∈ g.adjacent u,
    w ∈ rest ∨ (Discovered g m w ∧ (m.at w).distance ≤ (m.at u).distance + 1)
  sub : ∀ w ∈ rest, w ∈ g.adjacent u

/-! ## Basic facts -/

theorem upd_same (m : Nat → Order_node) (a : Nat) (v : Order_node) : upd m a v a = v := by
  simp [upd]

theorem upd_ne (m : Nat → Order_node) {a b : Nat} (v : Order_node) (h : b ≠ a) :
    upd m a v b = m b := by
  simp [upd, h]

theorem Path.plug_addrs (c : Path) (s : Tree) :
    (c.plug s).addrs = c.before ++ s.addrs ++ c.after := by
  induction c generalizing s with
  | top => simp [Path.plug, Path.before, Path.after]
  | inL a k n col r up ih => simp [Path.plug, Path.before, Path.after, ih, Tree.addrs]
  | inR l a k n col up ih => simp [Path.plug, Path.before, Path.after, ih, Tree.addrs]

theorem Path.plug_keys (c : Path) (s : Tree) :
    (c.plug s).keys = c.keysBefore ++ s.keys ++ c.keysAfter := by
  induction c generalizing s with
  | top => simp [Path.plug, Path.keysBefore, Path.keysAfter]
  | inL a k n col r up ih => simp [Path.plug, Path.keysBefore, Path.keysAfter, ih, Tree.keys]
  | inR l a k n col up ih => simp [Path.plug, Path.keysBefore, Path.keysAfter, ih, Tree.keys]

theorem Path.plug_ptr (c : Path) (s : Tree) : (c.plug s).ptr = c.rootPtr s.ptr := by
  induction c generalizing s with
  | top => rfl
  | inL a k n col r up ih => rw [Path.plug, ih]; rfl
  | inR l a k n col up ih => rw [Path.plug, ih]; rfl

theorem Rep_plug (m : Nat → Order_node) (c : Path) (s : Tree) :
    Rep m (c.plug s) nil ↔ RepPath m c s.ptr ∧ Rep m s c.par := by
  induction c generalizing s with
  | top => simp [Path.plug, RepPath, Path.par]
  | inL a k n col r up ih =>
    simp only [Path.plug, ih, RepPath, Rep, Path.par, Tree.ptr]
    tauto
  | inR l a k n col up ih =>
    simp only [Path.plug, ih, RepPath, Rep, Path.par, Tree.ptr]
    tauto

theorem Rep.frame {m m2 : Nat → Order_node} {s : Tree} {p : Nat}
    (h : Rep m s p) (hm : ∀ b ∈ s.addrs, m2 b = m b) : Rep m2 s p := by
  induction s generalizing p with
  | leaf => trivial
  | node l a k n c r ihl ihr =>
    obtain ⟨h1, h2, h3, h4⟩ := h
    refine ⟨h1, ?_, ihl h3 ?_, ihr h4 ?_⟩
    · rw [hm a (by simp [Tree.addrs]), h2]
    · intro b hb; exact hm b (by simp [Tree.addrs, hb])
    · intro b hb; exact hm b (by simp [Tree.addrs, hb])

theorem RepPath.frame_path {m m2 : Nat → Order_node} {c : Path} {p : Nat}
    (h : RepPath m c p) (hm : ∀ b ∈ c.before ++ c.after, m2 b = m b) : RepPath m2 c p := by
  induction c generalizing p with
  | top => trivial
  | inL a k n col r up ih =>
    obtain ⟨h1, h2, h3, h4⟩ := h
    refine ⟨h1, ?_, h3.frame ?_, ih h4 ?_⟩
    · rw [hm a (by simp [Path.before, Path.after]), h2]
    · intro b hb; exact hm b (by simp [Path.before, Path.after, hb])
    · intro b hb
      have hb2 : b ∈ up.before ∨ b ∈ up.after := by simpa using hb
      exact hm b (by rcases hb2 with h | h <;> simp [Path.before, Path.after, h])
  | inR l a k n col up ih =>
    obtain ⟨h1, h2, h3, h4⟩ := h
    refine ⟨h1, ?_, h3.frame ?_, ih h4 ?_⟩
    · rw [hm a (by simp [Path.before, Path.after]), h2]
    · intro b hb; exact hm b (by simp [Path.before, Path.after, hb])
    · intro b hb
      have hb2 : b ∈ up.before ∨ b ∈ up.after := by simpa using hb
      exact hm b (by rcases hb2 with h | h <;> simp [Path.before, Path.after, h])

@[simp] theorem Tree.ptr_leaf : Tree.leaf.ptr = 0 := rfl
@[simp] theorem Tree.ptr_node (l : Tree) (a : Nat) (k : Int) (n : Nat) (c : Color) (r : Tree) :
    (Tree.node l a k n c r).ptr = a := rfl
@[simp] theorem Tree.sz_leaf : Tree.leaf.sz = 0 := rfl
@[simp] theorem Tree.sz_node (l : Tree) (a : Nat) (k : Int) (n : Nat) (c : Color) (r : Tree) :
    (Tree.node l a k n c r).sz = n := rfl
@[simp] theorem Tree.col_leaf : Tree.leaf.col = Color.BLACK := rfl
@[simp] theorem Tree.col_node (l : Tree) (a : Nat) (k : Int) (n : Nat) (c : Color) (r : Tree) :
    (Tree.node l a k n c r).col = c := rfl
@[simp] theorem Path.par_top : Path.top.par = 0 := rfl
@[simp] theorem Path.par_inL (a : Nat) (k : Int) (n : Nat) (c : Color) (r : Tree) (up : Path) :
    (Path.inL a k n c r up).par = a := rfl
@[simp] theorem Path.par_inR (l : Tree) (a : Nat) (k : Int) (n : Nat) (c : Color) (up : Path) :
    (Path.inR l a k n c up).par = a := rfl

theorem Wf.split {t : Order_tree} {c : Path} {s : Tree} (h : Wf t (c.plug s)) :
    RepPath t.mem c s.ptr ∧ Rep t.mem s c.par ∧ (c.before ++ (s.addrs ++ c.after)).Nodup
      ∧ t.root = c.rootPtr s.ptr := by
  have h1 := (Rep_plug t.mem c s).1 h.rep
  have h2 := h.nodup
  rw [Path.plug_addrs, List.append_assoc] at h2
  have h3 := h.root
  rw [Path.plug_ptr] at h3
  exact ⟨h1.1, h1.2, h2, h3⟩

theorem Wf.join {t : Order_tree} {c : Path} {s : Tree}
    (h1 : RepPath t.mem c s.ptr) (h2 : Rep t.mem s c.par)
    (h3 : (c.before ++ (s.addrs ++ c.after)).Nodup) (h4 : t.root = c.rootPtr s.ptr)
    (h5 : ∀ a ∈ c.before ++ (s.addrs ++ c.after), a < t.next) (h6 : 0 < t.next)
    (h7 : (t.mem nil).color = Color.BLACK) (h8 : (t.mem nil).size = 0) :
    Wf t (c.plug s) := by
  refine ⟨?_, (Rep_plug t.mem c s).2 ⟨h1, h2⟩, ?_, ?_, h6, h7, h8⟩
  · rw [Path.plug_ptr]; exact h4
  · rw [Path.plug_addrs, List.append_assoc]; exact h3
  · rw [Path.plug_addrs, List.append_assoc]; exact h5

theorem Wf.bound_split {t : Order_tree} {c : Path} {s : Tree} (h : Wf t (c.plug s)) :
    ∀ a ∈ c.before ++ (s.addrs ++ c.after), a < t.next := by
  have h2 := h.bound
  rw [Path.plug_addrs, List.append_assoc] at h2
  exact h2

theorem Rep.size_eq {m : Nat → Order_node} {s : Tree} {p : Nat} (h : Rep m s p)
    (h0 : (m nil).size = 0) : (m s.ptr).size = s.sz := by
  cases s with
  | leaf => exact h0
  | node l a k n c r => simp [h.2.1]

theorem Rep.color_eq {m : Nat → Order_node} {s : Tree} {p : Nat} (h : Rep m s p)
    (h0 : (m nil).color = Color.BLACK) : (m s.ptr).color = s.col := by
  cases s with
  | leaf => exact h0
  | node l a k n c r => simp [h.2.1]

theorem Rep.ne_nil {m : Nat → Order_node} {s : Tree} {p : Nat} (h : Rep m s p) :
    ∀ a ∈ s.addrs, a ≠ nil := by
  induction s generalizing p with
  | leaf => simp [Tree.addrs]
  | node l a k n c r ihl ihr =>
    intro b hb
    simp only [Tree.addrs, List.mem_append, List.mem_cons] at hb
    rcases hb with hb | rfl | hb
    · exact ihl h.2.2.1 b hb
    · exact h.1
    · exact ihr h.2.2.2 b hb

theorem RepPath.ne_nil_path {m : Nat → Order_node} {c : Path} {p : Nat} (h : RepPath m c p) :
    ∀ a ∈ c.before ++ c.after, a ≠ nil := by
  induction c generalizing p with
  | top => simp [Path.before, Path.after]
  | inL a k n col r up ih =>
    intro b hb
    simp only [Path.before, Path.after, List.mem_append, List.mem_cons, List.cons_append] at hb
    rcases hb with hb | rfl | hb | hb
    · exact ih h.2.2.2 b (by simp [hb])
    · exact h.1
    · exact h.2.2.1.ne_nil b hb
    · exact ih h.2.2.2 b (by simp [hb])
  | inR l a k n col up ih =>
    intro b hb
    simp only [Path.before, Path.after, List.mem_append, List.mem_cons, List.not_mem_nil,
      or_false] at hb
    rcases hb with (hb | hb | rfl) | hb
    · exact ih h.2.2.2 b (by simp [hb])
    · exact h.2.2.1.ne_nil b hb
    · exact h.1
    · exact ih h.2.2.2 b (by simp [hb])

theorem Tree.ptr_mem (s : Tree) : s.ptr = nil ∨ s.ptr ∈ s.addrs := by
  cases s with
  | leaf => exact Or.inl rfl
  | node l a k n c r => right; simp [Tree.addrs]

theorem Path.par_mem (c : Path) : c.par = nil ∨ c.par ∈ c.before ++ c.after := by
  cases c with
  | top => exact Or.inl rfl
  | inL a k n col r up => right; simp [Path.before, Path.after]
  | inR l a k n col up => right; simp [Path.before, Path.after]

theorem cnt_mem {l : List Nat} {q : Nat} (h : q ∈ l) : 1 ≤ l.count q :=
  List.count_pos_iff.2 h

theorem cnt_mem_append {l1 l2 : List Nat} {q : Nat} (h : q ∈ l1 ++ l2) :
    1 ≤ l1.count q + l2.count q := by
  rcases List.mem_append.1 h with h | h
  · have := cnt_mem h; omega
  · have := cnt_mem h; omega

/-- Replacing the data of the node in focus. -/
theorem Wf.set_focus {t : Order_tree} {c : Path} {l r : Tree} {a : Nat} {k : Int}
    {n : Nat} {col : Color} (h : Wf t (c.plug (.node l a k n col r)))
    (k2 : Int) (n2 : Nat) (col2 : Color) :
    Wf { t with mem := upd t.mem a ⟨k2, c.par, l.ptr, r.ptr, n2, col2⟩ }
      (c.plug (.node l a k2 n2 col2 r)) := by
  obtain ⟨hp, hr, hnd, hroot⟩ := h.split
  have hbd := h.bound_split
  obtain ⟨ha0, ha, hl, hr⟩ := hr
  have hc := fun q => List.nodup_iff_count_le_one.1 hnd q
  simp only [Tree.addrs, List.count_append, List.count_cons, beq_iff_eq] at hc
  apply Wf.join
  · apply hp.frame_path
    intro q hq
    apply upd_ne
    rintro rfl
    have h1 := hc q
    have h2 := cnt_mem_append hq
    simp at h1; omega
  · refine ⟨ha0, upd_same _ _ _, hl.frame ?_, hr.frame ?_⟩
    · intro q hq
      apply upd_ne
      rintro rfl
      have h1 := hc q
      have h2 := cnt_mem hq
      simp at h1; omega
    · intro q hq
      apply upd_ne
      rintro rfl
      have h1 := hc q
      have h2 := cnt_mem hq
      simp at h1; omega
  · simpa [Tree.addrs] using hnd
  · simpa using hroot
  · simpa [Tree.addrs] using hbd
  · exact h.pos
  · show (upd t.mem a _ 0).color = _
    rw [upd_ne _ _ (Ne.symm ha0)]; exact h.nil_color
  · show (upd t.mem a _ 0).size = _
    rw [upd_ne _ _ (Ne.symm ha0)]; exact h.nil_size

theorem Wf.read {t : Order_tree} {c : Path} {l r : Tree} {a : Nat} {k : Int}
    {n : Nat} {col : Color} (h : Wf t (c.plug (.node l a k n col r))) :
    t.mem a = ⟨k, c.par, l.ptr, r.ptr, n, col⟩ :=
  h.split.2.1.2.1

theorem setColor_focus {t : Order_tree} {c : Path} {l r : Tree} {a : Nat} {k : Int}
    {n : Nat} {col : Color} (col2 : Color)
    (h : Wf t (c.plug (.node l a k n col r))) :
    Wf (t.setColor a col2) (c.plug (.node l a k n col2 r)) := by
  have := h.set_focus k n col2
  simpa [setColor, h.read] using this

theorem setSize_focus {t : Order_tree} {c : Path} {l r : Tree} {a : Nat} {k : Int}
    {n : Nat} {col : Color} (n2 : Nat)
    (h : Wf t (c.plug (.node l a k n col r))) :
    Wf (t.setSize a n2) (c.plug (.node l a k n2 col r)) := by
  have := h.set_focus k n2 col
  simpa [setSize, h.read] using this

/-- An address is either the sentinel or differs, both ways round, from `q`. -/
theorem sep_cases {a q : Nat} (h : a ≠ q ∨ a = nil) : a = 0 ∨ (a ≠ 0 ∧ 0 ≠ a ∧ a ≠ q ∧ q ≠ a) := by
  by_cases ha : a = 0
  · exact Or.inl ha
  · rcases h with h | h
    · exact Or.inr ⟨ha, fun e => ha e.symm, h, fun e => h e.symm⟩
    · exact absurd h ha

theorem rotate_right_spec (t : Order_tree) (y x b p cp ap : Nat) (ky kx : Int)
    (sy sx : Nat) (cy cx : Color)
    (hy : t.mem y = ⟨ky, p, x, cp, sy, cy⟩) (hx : t.mem x = ⟨kx, y, ap, b, sx, cx⟩)
    (hx0 : x ≠ nil) (hy0 : y ≠ nil)
    (hxy : x ≠ y) (hbx : b ≠ x) (hby : b ≠ y) (hpx : p ≠ x) (hpy : p ≠ y)
    (hcx : cp ≠ x) (hcy : cp ≠ y)
    (hbp : b ≠ p ∨ b = nil) (hcp : cp ≠ p ∨ cp = nil) (hcb : cp ≠ b ∨ cp = nil) :
    (rotate_right t y).mem x = ⟨kx, p, ap, y, sy, cx⟩ ∧
    (rotate_right t y).mem y = ⟨ky, x, b, cp, (t.mem b).size + (t.mem cp).size + 1, cy⟩ ∧
    (b ≠ nil → (rotate_right t y).mem b = { t.mem b with parent := y }) ∧
    (p ≠ nil → (rotate_right t y).mem p =
      if y = (t.mem p).left then { t.mem p with left := x } else { t.mem p with right := x }) ∧
    (∀ q, q ≠ x → q ≠ y → (q ≠ b ∨ b = nil) → (q ≠ p ∨ p = nil) →
      (rotate_right t y).mem q = t.mem q) ∧
    (rotate_right t y).root = (if p = nil then x else t.root) ∧
    (rotate_right t y).next = t.next := by
  have hx0' : (0 : Nat) ≠ x := fun e => hx0 e.symm
  have hy0' : (0 : Nat) ≠ y := fun e => hy0 e.symm
  have hp2 : p = 0 ∨ (p ≠ 0 ∧ 0 ≠ p) := by
    by_cases hp : p = 0
    · exact Or.inl hp
    · exact Or.inr ⟨hp, fun e => hp e.symm⟩
  refine ⟨?_, ?_, ?_, ?_, ?_, ?_, ?_⟩
  · rcases sep_cases hbp with hb | ⟨hb, hb', hbp, hpb⟩ <;> rcases hp2 with hp | ⟨hp, hp'⟩ <;>
    simp [rotate_right, setLeft, setRight, setParent, setSize, setRoot, upd, apply_ite Order_tree.mem, apply_ite Order_tree.root, apply_ite Order_tree.next, ite_apply, hx, hy, hxy, hxy.symm, hbx, hby, hpx, hpy, hbx.symm, hby.symm, hpx.symm, hpy.symm, hcx, hcy, hx0, hy0, hx0', hy0', *]
  · rcases sep_cases hbp with hb | ⟨hb, hb', hbp, hpb⟩ <;> rcases hp2 with hp | ⟨hp, hp'⟩ <;>
    rcases sep_cases hcp with hc | ⟨hc, hc', hcp, hpc⟩ <;>
    rcases sep_cases hcb with hc2 | ⟨hc2, hc2', hcb, hbc⟩ <;>
    simp [rotate_right, setLeft, setRight, setParent, setSize, setRoot, upd, apply_ite Order_tree.mem, apply_ite Order_tree.root, apply_ite Order_tree.next, ite_apply, hx, hy, hxy, hxy.symm, hbx, hby, hpx, hpy, hbx.symm, hby.symm, hpx.symm, hpy.symm, hcx, hcy, hx0, hy0, hx0', hy0', *]
  · intro hb
    have hb' : (0 : Nat) ≠ b := fun e => hb e.symm
    rcases sep_cases hbp with hb1 | ⟨-, -, hbp, hpb⟩
    · exact absurd hb1 hb
    rcases hp2 with hp | ⟨hp, hp'⟩ <;>
    simp [rotate_right, setLeft, setRight, setParent, setSize, setRoot, upd, apply_ite Order_tree.mem, apply_ite Order_tree.root, apply_ite Order_tree.next, ite_apply, hx, hy, hxy, hxy.symm, hbx, hby, hpx, hpy, hbx.symm, hby.symm, hpx.symm, hpy.symm, hcx, hcy, hx0, hy0, hx0', hy0', *]
  · intro hp
    have hp' : (0 : Nat) ≠ p := fun e => hp e.symm
    rcases sep_cases hbp with hb | ⟨hb, hb', hbp, hpb⟩ <;>
    simp [rotate_right, setLeft, setRight, setParent, setSize, setRoot, upd, apply_ite Order_tree.mem, apply_ite Order_tree.root, apply_ite Order_tree.next, ite_apply, hx, hy, hxy, hxy.symm, hbx, hby, hpx, hpy, hbx.symm, hby.symm, hpx.symm, hpy.symm, hcx, hcy, hx0, hy0, hx0', hy0', *]
  · intro q hqx hqy hqb hqp
    rcases sep_cases hbp with hb | ⟨hb, hb', hbp, hpb⟩ <;> rcases hp2 with hp | ⟨hp, hp'⟩
    · simp [rotate_right, setLeft, setRight, setParent, setSize, setRoot, upd, apply_ite Order_tree.mem, apply_ite Order_tree.root, apply_ite Order_tree.next, ite_apply, hx, hy, hxy, hxy.symm, hbx, hby, hpx, hpy, hbx.symm, hby.symm, hpx.symm, hpy.symm, hcx, hcy, hx0, hy0, hx0', hy0', *]
    · have hqp2 : q ≠ p := hqp.resolve_right hp
      simp [rotate_right, setLeft, setRight, setParent, setSize, setRoot, upd, apply_ite Order_tree.mem, apply_ite Order_tree.root, apply_ite Order_tree.next, ite_apply, hx, hy, hxy, hxy.symm, hbx, hby, hpx, hpy, hbx.symm, hby.symm, hpx.symm, hpy.symm, hcx, hcy, hx0, hy0, hx0', hy0', *]
    · have hqb2 : q ≠ b := hqb.resolve_right hb
      simp [rotate_right, setLeft, setRight, setParent, setSize, setRoot, upd, apply_ite Order_tree.mem, apply_ite Order_tree.root, apply_ite Order_tree.next, ite_apply, hx, hy, hxy, hxy.symm, hbx, hby, hpx, hpy, hbx.symm, hby.symm, hpx.symm, hpy.symm, hcx, hcy, hx0, hy0, hx0', hy0', *]
    · have hqp2 : q ≠ p := hqp.resolve_right hp
      have hqb2 : q ≠ b := hqb.resolve_right hb
      simp [rotate_right, setLeft, setRight, setParent, setSize, setRoot, upd, apply_ite Order_tree.mem, apply_ite Order_tree.root, apply_ite Order_tree.next, ite_apply, hx, hy, hxy, hxy.symm, hbx, hby, hpx, hpy, hbx.symm, hby.symm, hpx.symm, hpy.symm, hcx, hcy, hx0, hy0, hx0', hy0', *]
  · rcases sep_cases hbp with hb | ⟨hb, hb', hbp, hpb⟩ <;> rcases hp2 with hp | ⟨hp, hp'⟩ <;>
    simp [rotate_right, setLeft, setRight, setParent, setSize, setRoot, upd, apply_ite Order_tree.mem, apply_ite Order_tree.root, apply_ite Order_tree.next, ite_apply, hx, hy, hxy, hxy.symm, hbx, hby, hpx, hpy, hbx.symm, hby.symm, hpx.symm, hpy.symm, hcx, hcy, hx0, hy0, hx0', hy0', *]
  · rcases sep_cases hbp with hb | ⟨hb, hb', hbp, hpb⟩ <;> rcases hp2 with hp | ⟨hp, hp'⟩ <;>
    simp [rotate_right, setLeft, setRight, setParent, setSize, setRoot, upd, apply_ite Order_tree.mem, apply_ite Order_tree.root, apply_ite Order_tree.next, ite_apply, hx, hy, hxy, hxy.symm, hbx, hby, hpx, hpy, hbx.symm, hby.symm, hpx.symm, hpy.symm, hcx, hcy, hx0, hy0, hx0', hy0', *]

theorem rotate_left_spec (t : Order_tree) (x y b p ap cp : Nat) (kx ky : Int)
    (sx sy : Nat) (cx cy : Color)
    (hx : t.mem x = ⟨kx, p, ap, y, sx, cx⟩) (hy : t.mem y = ⟨ky, x, b, cp, sy, cy⟩)
    (hx0 : x ≠ nil) (hy0 : y ≠ nil)
    (hxy : x ≠ y) (hbx : b ≠ x) (hby : b ≠ y) (hpx : p ≠ x) (hpy : p ≠ y)
    (hcx : ap ≠ x) (hcy : ap ≠ y)
    (hbp : b ≠ p ∨ b = nil) (hcp : ap ≠ p ∨ ap = nil) (hcb : ap ≠ b ∨ ap = nil) :
    (rotate_left t x).mem y = ⟨ky, p, x, cp, sx, cy⟩ ∧
    (rotate_left t x).mem x = ⟨kx, y, ap, b, (t.mem ap).size + (t.mem b).size + 1, cx⟩ ∧
    (b ≠ nil → (rotate_left t x).mem b = { t.mem b with parent := x }) ∧
    (p ≠ nil → (rotate_left t x).mem p =
      if x = (t.mem p).left then { t.mem p with left := y } else { t.mem p with right := y }) ∧
    (∀ q, q ≠ x → q ≠ y → (q ≠ b ∨ b = nil) → (q ≠ p ∨ p = nil) →
      (rotate_left t x).mem q = t.mem q) ∧
    (rotate_left t x).root = (if p = nil then y else t.root) ∧
    (rotate_left t x).next = t.next := by
  have hx0' : (0 : Nat) ≠ x := fun e => hx0 e.symm
  have hy0' : (0 : Nat) ≠ y := fun e => hy0 e.symm
  have hp2 : p = 0 ∨ (p ≠ 0 ∧ 0 ≠ p) := by
    by_cases hp : p = 0
    · exact Or.inl hp
    · exact Or.inr ⟨hp, fun e => hp e.symm⟩
  refine ⟨?_, ?_, ?_, ?_, ?_, ?_, ?_⟩
  · rcases sep_cases hbp with hb | ⟨hb, hb', hbp, hpb⟩ <;> rcases hp2 with hp | ⟨hp, hp'⟩ <;>
    simp [rotate_left, setLeft, setRight, setParent, setSize, setRoot, upd, apply_ite Order_tree.mem, apply_ite Order_tree.root, apply_ite Order_tree.next, ite_apply, hx, hy, hxy, hxy.symm, hbx, hby, hpx, hpy, hbx.symm, hby.symm, hpx.symm, hpy.symm, hcx, hcy, hx0, hy0, hx0', hy0', *]
  · rcases sep_cases hbp with hb | ⟨hb, hb', hbp, hpb⟩ <;> rcases hp2 with hp | ⟨hp, hp'⟩ <;>
    rcases sep_cases hcp with hc | ⟨hc, hc', hcp, hpc⟩ <;>
    rcases sep_cases hcb with hc2 | ⟨hc2, hc2', hcb, hbc⟩ <;>
    simp [rotate_left, setLeft, setRight, setParent, setSize, setRoot, upd, apply_ite Order_tree.mem, apply_ite Order_tree.root, apply_ite Order_tree.next, ite_apply, hx, hy, hxy, hxy.symm, hbx, hby, hpx, hpy, hbx.symm, hby.symm, hpx.symm, hpy.symm, hcx, hcy, hx0, hy0, hx0', hy0', *]
  · intro hb
    have hb' : (0 : Nat) ≠ b := fun e => hb e.symm
    rcases sep_cases hbp with hb1 | ⟨-, -, hbp, hpb⟩
    · exact absurd hb1 hb
    rcases hp2 with hp | ⟨hp, hp'⟩ <;>
    simp [rotate_left, setLeft, setRight, setParent, setSize, setRoot, upd, apply_ite Order_tree.mem, apply_ite Order_tree.root, apply_ite Order_tree.next, ite_apply, hx, hy, hxy, hxy.symm, hbx, hby, hpx, hpy, hbx.symm, hby.symm, hpx.symm, hpy.symm, hcx, hcy, hx0, hy0, hx0', hy0', *]
  · intro hp
    have hp' : (0 : Nat) ≠ p := fun e => hp e.symm
    rcases sep_cases hbp with hb | ⟨hb, hb', hbp, hpb⟩ <;>
    simp [rotate_left, setLeft, setRight, setParent, setSize, setRoot, upd, apply_ite Order_tree.mem, apply_ite Order_tree.root, apply_ite Order_tree.next, ite_apply, hx, hy, hxy, hxy.symm, hbx, hby, hpx, hpy, hbx.symm, hby.symm, hpx.symm, hpy.symm, hcx, hcy, hx0, hy0, hx0', hy0', *]
  · intro q hqx hqy hqb hqp
    rcases sep_cases hbp with hb | ⟨hb, hb', hbp, hpb⟩ <;> rcases hp2 with hp | ⟨hp, hp'⟩
    · simp [rotate_left, setLeft, setRight, setParent, setSize, setRoot, upd, apply_ite Order_tree.mem, apply_ite Order_tree.root, apply_ite Order_tree.next, ite_apply, hx, hy, hxy, hxy.symm, hbx, hby, hpx, hpy, hbx.symm, hby.symm, hpx.symm, hpy.symm, hcx, hcy, hx0, hy0, hx0', hy0', *]
    · have hqp2 : q ≠ p := hqp.resolve_right hp
      simp [rotate_left, setLeft, setRight, setParent, setSize, setRoot, upd, apply_ite Order_tree.mem, apply_ite Order_tree.root, apply_ite Order_tree.next, ite_apply, hx, hy, hxy, hxy.symm, hbx, hby, hpx, hpy, hbx.symm, hby.symm, hpx.symm, hpy.symm, hcx, hcy, hx0, hy0, hx0', hy0', *]
    · have hqb2 : q ≠ b := hqb.resolve_right hb
      simp [rotate_left, setLeft, setRight, setParent, setSize, setRoot, upd, apply_ite Order_tree.mem, apply_ite Order_tree.root, apply_ite Order_tree.next, ite_apply, hx, hy, hxy, hxy.symm, hbx, hby, hpx, hpy, hbx.symm, hby.symm, hpx.symm, hpy.symm, hcx, hcy, hx0, hy0, hx0', hy0', *]
    · have hqp2 : q ≠ p := hqp.resolve_right hp
      have hqb2 : q ≠ b := hqb.resolve_right hb
      simp [rotate_left, setLeft, setRight, setParent, setSize, setRoot, upd, apply_ite Order_tree.mem, apply_ite Order_tree.root, apply_ite Order_tree.next, ite_apply, hx, hy, hxy, hxy.symm, hbx, hby, hpx, hpy, hbx.symm, hby.symm, hpx.symm, hpy.symm, hcx, hcy, hx0, hy0, hx0', hy0', *]
  · rcases sep_cases hbp with hb | ⟨hb, hb', hbp, hpb⟩ <;> rcases hp2 with hp | ⟨hp, hp'⟩ <;>
    simp [rotate_left, setLeft, setRight, setParent, setSize, setRoot, upd, apply_ite Order_tree.mem, apply_ite Order_tree.root, apply_ite Order_tree.next, ite_apply, hx, hy, hxy, hxy.symm, hbx, hby, hpx, hpy, hbx.symm, hby.symm, hpx.symm, hpy.symm, hcx, hcy, hx0, hy0, hx0', hy0', *]
  · rcases sep_cases hbp with hb | ⟨hb, hb', hbp, hpb⟩ <;> rcases hp2 with hp | ⟨hp, hp'⟩ <;>
    simp [rotate_left, setLeft, setRight, setParent, setSize, setRoot, upd, apply_ite Order_tree.mem, apply_ite Order_tree.root, apply_ite Order_tree.next, ite_apply, hx, hy, hxy, hxy.symm, hbx, hby, hpx, hpy, hbx.symm, hby.symm, hpx.symm, hpy.symm, hcx, hcy, hx0, hy0, hx0', hy0', *]

theorem Tree.ptr_cnt (s : Tree) : s.ptr = nil ∨ 1 ≤ s.addrs.count s.ptr := by
  rcases s.ptr_mem with h | h
  · exact Or.inl h
  · exact Or.inr (cnt_mem h)

theorem Path.par_cnt (c : Path) : c.par = nil ∨ 1 ≤ c.before.count c.par + c.after.count c.par := by
  rcases c.par_mem with h | h
  · exact Or.inl h
  · exact Or.inr (cnt_mem_append h)

/-- The pointer to a subtree differs from any non-sentinel address outside it. -/
theorem Tree.ptr_ne (s : Tree) {z : Nat} (hz0 : z ≠ nil) (hz : s.addrs.count z = 0) : s.ptr ≠ z := by
  intro e
  rcases s.ptr_cnt with h | h
  · exact hz0 (e ▸ h)
  · rw [e] at h; omega

theorem Path.par_ne (c : Path) {z : Nat} (hz0 : z ≠ nil)
    (hz : c.before.count z + c.after.count z = 0) : c.par ≠ z := by
  intro e
  rcases c.par_cnt with h | h
  · exact hz0 (e ▸ h)
  · rw [e] at h; omega

theorem Rep.reparent {m m2 : Nat → Order_node} {s : Tree} {p p2 : Nat} (h : Rep m s p)
    (hnd : s.addrs.Nodup)
    (h1 : s.ptr ≠ nil → m2 s.ptr = { m s.ptr with parent := p2 })
    (h2 : ∀ q ∈ s.addrs, q ≠ s.ptr → m2 q = m q) : Rep m2 s p2 := by
  cases s with
  | leaf => trivial
  | node l a k n c r =>
    obtain ⟨ha0, ha, hl, hr⟩ := h
    have hc := fun q => List.nodup_iff_count_le_one.1 hnd q
    simp only [Tree.addrs, List.count_append, List.count_cons, beq_iff_eq] at hc
    refine ⟨ha0, ?_, hl.frame ?_, hr.frame ?_⟩
    · have := h1 ha0
      simp only [Tree.ptr_node] at this
      rw [this, ha]
    · intro q hq
      apply h2 q (by simp [Tree.addrs, hq])
      rintro rfl
      have h3 := hc q
      have h4 := cnt_mem hq
      simp at h3; omega
    · intro q hq
      apply h2 q (by simp [Tree.addrs, hq])
      rintro rfl
      have h3 := hc q
      have h4 := cnt_mem hq
      simp at h3; omega

theorem RepPath.reslot {m m2 : Nat → Order_node} {c : Path} {y x : Nat} (h : RepPath m c y)
    (hnd : (c.before ++ c.after).Nodup) (hy0 : y ≠ nil)
    (hy : c.before.count y + c.after.count y = 0)
    (h1 : c.par ≠ nil → m2 c.par =
      if y = (m c.par).left then { m c.par with left := x } else { m c.par with right := x })
    (h2 : ∀ q ∈ c.before ++ c.after, q ≠ c.par → m2 q = m q) : RepPath m2 c x := by
  cases c with
  | top => trivial
  | inL a k n col r up =>
    obtain ⟨ha0, ha, hr, hup⟩ := h
    have hc := fun q => List.nodup_iff_count_le_one.1 hnd q
    simp only [Path.before, Path.after, List.count_append, List.count_cons, beq_iff_eq] at hc
    refine ⟨ha0, ?_, hr.frame ?_, hup.frame_path ?_⟩
    · have := h1 ha0
      simp only [Path.par_inL, ha, if_true] at this
      exact this
    · intro q hq
      apply h2 q (by simp [Path.before, Path.after, hq])
      rintro rfl
      have h3 := hc q
      have h4 := cnt_mem hq
      simp at h3; omega
    · intro q hq
      have h4 := cnt_mem_append hq
      apply h2 q
      · rcases List.mem_append.1 hq with h | h <;> simp [Path.before, Path.after, h]
      · rintro rfl
        have h3 := hc q
        simp at h3; omega
  | inR l a k n col up =>
    obtain ⟨ha0, ha, hl, hup⟩ := h
    have hc := fun q => List.nodup_iff_count_le_one.1 hnd q
    simp only [Path.before, Path.after, List.count_append, List.count_cons, List.count_nil,
      beq_iff_eq] at hc
    simp only [Path.before, Path.after, List.count_append, List.count_cons, List.count_nil,
      beq_iff_eq] at hy
    refine ⟨ha0, ?_, hl.frame ?_, hup.frame_path ?_⟩
    · have := h1 ha0
      have hne : ¬ (y = l.ptr) := fun e => l.ptr_ne hy0 (by omega) e.symm
      simp only [Path.par_inR, ha, hne, if_false] at this
      exact this
    · intro q hq
      apply h2 q (by simp [Path.before, Path.after, hq])
      rintro rfl
      have h3 := hc q
      have h4 := cnt_mem hq
      simp at h3; omega
    · intro q hq
      have h4 := cnt_mem_append hq
      apply h2 q
      · rcases List.mem_append.1 hq with h | h <;> simp [Path.before, Path.after, h]
      · rintro rfl
        have h3 := hc q
        simp at h3; omega

theorem RepPath.rootPtr_eq {m : Nat → Order_node} {c : Path} {y : Nat} (h : RepPath m c y)
    (x : Nat) : c.rootPtr x = if c.par = nil then x else c.rootPtr y := by
  cases c with
  | top => simp [Path.rootPtr]
  | inL a k n col r up => simp [Path.rootPtr, h.1]
  | inR l a k n col up => simp [Path.rootPtr, h.1]

theorem rotate_right_focus_nil {t : Order_tree} {c : Path} {A B C : Tree} {x y : Nat}
    {kx ky : Int} {sx sy : Nat} {cx cy : Color}
    (h : Wf t (c.plug (.node (.node A x kx sx cx B) y ky sy cy C))) :
    Wf (rotate_right t y)
      (c.plug (.node A x kx sy cx (.node B y ky (B.sz + C.sz + 1) cy C)))
      ∧ (rotate_right t y).mem nil = t.mem nil := by
  obtain ⟨hp, hr, hnd, hroot⟩ := h.split
  have hbd := h.bound_split
  obtain ⟨hy0, hy, ⟨hx0, hx, hA, hB⟩, hC⟩ := hr
  simp only [Tree.ptr_node] at hy hx hp hroot
  have hc := fun q => List.nodup_iff_count_le_one.1 hnd q
  simp only [Tree.addrs, List.count_append, List.count_cons, beq_iff_eq] at hc
  have hBs := hB.size_eq h.nil_size
  have hCs := hC.size_eq h.nil_size
  have hcx := hc x
  have hcy := hc y
  simp only [if_true] at hcx hcy
  have hxy : x ≠ y := by
    rintro rfl
    simp at hcx; omega
  have hyx : ¬ (y = x) := fun e => hxy e.symm
  simp only [hxy, hyx, if_false] at hcx hcy
  have hcp : c.par = nil ∨ 1 ≤ c.before.count c.par + c.after.count c.par := c.par_cnt
  have hcB := B.ptr_cnt
  have hcC := C.ptr_cnt
  have hsep : ∀ (s : Tree) (z : Nat), s.addrs.count z = 0 → s.ptr ≠ z ∨ s.ptr = nil := by
    intro s z hz
    by_cases e : s.ptr = z
    · rcases s.ptr_cnt with h | h
      · exact Or.inr h
      · rw [e] at h; omega
    · exact Or.inl e
  have hB0 := hB.ne_nil
  have hC0 := hC.ne_nil
  have hA0 := hA.ne_nil
  have hzero : ∀ (s : Tree), (∀ a ∈ s.addrs, a ≠ nil) → s.addrs.count 0 = 0 := by
    intro s hs
    exact List.count_eq_zero.2 (fun hm => hs 0 hm rfl)
  obtain ⟨s1, s2, s3, s4, s5, s6, s7⟩ := rotate_right_spec t y x B.ptr c.par C.ptr A.ptr ky kx sy sx cy cx
    hy hx hx0 hy0 hxy (B.ptr_ne hx0 (by omega)) (B.ptr_ne hy0 (by omega))
    (c.par_ne hx0 (by omega)) (c.par_ne hy0 (by omega))
    (C.ptr_ne hx0 (by omega)) (C.ptr_ne hy0 (by omega))
    (by
      rcases hcp with h1 | h1
      · rw [h1]; exact hsep B 0 (hzero B hB0)
      · have := hc c.par
        exact hsep B _ (by omega))
    (by
      rcases hcp with h1 | h1
      · rw [h1]; exact hsep C 0 (hzero C hC0)
      · have := hc c.par
        exact hsep C _ (by omega))
    (by
      rcases hcB with h1 | h1
      · rw [h1]; exact hsep C 0 (hzero C hC0)
      · have := hc B.ptr
        exact hsep C _ (by omega))
  have hP0 := hp.ne_nil_path
  have hne : ∀ q, 1 ≤ c.before.count q + A.addrs.count q + B.addrs.count q + C.addrs.count q
      + c.after.count q → q ≠ x ∧ q ≠ y := by
    intro q hq
    have := hc q
    constructor
    · rintro rfl
      simp at this; omega
    · rintro rfl
      simp at this; omega
  have hneB : ∀ q, q ≠ nil → 1 ≤ c.before.count q + A.addrs.count q + C.addrs.count q
      + c.after.count q → q ≠ B.ptr := by
    intro q hq0 hq e
    have := hc q
    rcases hcB with h1 | h1
    · exact hq0 (e.trans h1)
    · rw [← e] at h1; omega
  have hneP : ∀ q, q ≠ nil → 1 ≤ A.addrs.count q + B.addrs.count q + C.addrs.count q
      → q ≠ c.par := by
    intro q hq0 hq e
    have := hc q
    rcases hcp with h1 | h1
    · exact hq0 (e.trans h1)
    · rw [← e] at h1; omega
  have hfr : ∀ q, q ≠ x → q ≠ y → q ≠ B.ptr → q ≠ c.par → (rotate_right t y).mem q = t.mem q :=
    fun q h1 h2 h3 h4 => s5 q h1 h2 (Or.inl h3) (Or.inl h4)
  have hndB : B.addrs.Nodup := by
    apply List.nodup_iff_count_le_one.2
    intro q
    have := hc q
    omega
  have hndP : (c.before ++ c.after).Nodup := by
    apply List.nodup_iff_count_le_one.2
    intro q
    have := hc q
    rw [List.count_append]
    omega
  have hnil : (rotate_right t y).mem nil = t.mem nil := by
    apply s5 0 (Ne.symm hx0) (Ne.symm hy0)
    · by_cases e : B.ptr = 0
      · exact Or.inr e
      · exact Or.inl (Ne.symm e)
    · by_cases e : c.par = 0
      · exact Or.inr e
      · exact Or.inl (Ne.symm e)
  refine ⟨?_, hnil⟩
  apply Wf.join
  · apply hp.reslot hndP hy0 (by omega) s4
    intro q hq hqp
    have h1 := cnt_mem_append hq
    have h2 := hP0 q hq
    exact hfr q (hne q (by omega)).1 (hne q (by omega)).2 (hneB q h2 (by omega)) hqp
  · refine ⟨hx0, s1, hA.frame ?_, hy0, ?_, hB.reparent hndB ?_ ?_, hC.frame ?_⟩
    · intro q hq
      have h1 := cnt_mem hq
      have h2 := hA0 q hq
      exact hfr q (hne q (by omega)).1 (hne q (by omega)).2 (hneB q h2 (by omega))
        (hneP q h2 (by omega))
    · rw [s2, hBs, hCs]
    · exact s3
    · intro q hq hqb
      have h1 := cnt_mem hq
      have h2 := hB0 q hq
      exact hfr q (hne q (by omega)).1 (hne q (by omega)).2 hqb (hneP q h2 (by omega))
    · intro q hq
      have h1 := cnt_mem hq
      have h2 := hC0 q hq
      exact hfr q (hne q (by omega)).1 (hne q (by omega)).2 (hneB q h2 (by omega))
        (hneP q h2 (by omega))
  · simpa [Tree.addrs] using hnd
  · show (rotate_right t y).root = c.rootPtr x
    rw [s6, hp.rootPtr_eq x, hroot]
  · rw [s7]; simpa [Tree.addrs] using hbd
  · rw [s7]; exact h.pos
  · rw [hnil]; exact h.nil_color
  · rw [hnil]; exact h.nil_size

theorem rotate_left_focus_nil {t : Order_tree} {c : Path} {A B C : Tree} {x y : Nat}
    {kx ky : Int} {sx sy : Nat} {cx cy : Color}
    (h : Wf t (c.plug (.node A x kx sx cx (.node B y ky sy cy C)))) :
    Wf (rotate_left t x)
      (c.plug (.node (.node A x kx (A.sz + B.sz + 1) cx B) y ky sx cy C))
      ∧ (rotate_left t x).mem nil = t.mem nil := by
  obtain ⟨hp, hr, hnd, hroot⟩ := h.split
  have hbd := h.bound_split
  obtain ⟨hx0, hx, hA, hy0, hy, hB, hC⟩ := hr
  simp only [Tree.ptr_node] at hy hx hp hroot
  have hc := fun q => List.nodup_iff_count_le_one.1 hnd q
  simp only [Tree.addrs, List.count_append, List.count_cons, beq_iff_eq] at hc
  have hBs := hB.size_eq h.nil_size
  have hAs := hA.size_eq h.nil_size
  have hcx := hc x
  have hcy := hc y
  simp only [if_true] at hcx hcy
  have hxy : x ≠ y := by
    rintro rfl
    simp at hcx; omega
  have hyx : ¬ (y = x) := fun e => hxy e.symm
  simp only [hxy, hyx, if_false] at hcx hcy
  have hcp : c.par = nil ∨ 1 ≤ c.before.count c.par + c.after.count c.par := c.par_cnt
  have hcB := B.ptr_cnt
  have hsep : ∀ (s : Tree) (z : Nat), s.addrs.count z = 0 → s.ptr ≠ z ∨ s.ptr = nil := by
    intro s z hz
    by_cases e : s.ptr = z
    · rcases s.ptr_cnt with h | h
      · exact Or.inr h
      · rw [e] at h; omega
    · exact Or.inl e
  have hB0 := hB.ne_nil
  have hC0 := hC.ne_nil
  have hA0 := hA.ne_nil
  have hzero : ∀ (s : Tree), (∀ a ∈ s.addrs, a ≠ nil) → s.addrs.count 0 = 0 := by
    intro s hs
    exact List.count_eq_zero.2 (fun hm => hs 0 hm rfl)
  obtain ⟨s1, s2, s3, s4, s5, s6, s7⟩ := rotate_left_spec t x y B.ptr c.par A.ptr C.ptr kx ky sx sy cx cy
    hx hy hx0 hy0 hxy (B.ptr_ne hx0 (by omega)) (B.ptr_ne hy0 (by omega))
    (c.par_ne hx0 (by omega)) (c.par_ne hy0 (by omega))
    (A.ptr_ne hx0 (by omega)) (A.ptr_ne hy0 (by omega))
    (by
      rcases hcp with h1 | h1
      · rw [h1]; exact hsep B 0 (hzero B hB0)
      · have := hc c.par
        exact hsep B _ (by omega))
    (by
      rcases hcp with h1 | h1
      · rw [h1]; exact hsep A 0 (hzero A hA0)
      · have := hc c.par
        exact hsep A _ (by omega))
    (by
      rcases hcB with h1 | h1
      · rw [h1]; exact hsep A 0 (hzero A hA0)
      · have := hc B.ptr
        exact hsep A _ (by omega))
  have hP0 := hp.ne_nil_path
  have hne : ∀ q, 1 ≤ c.before.count q + A.addrs.count q + B.addrs.count q + C.addrs.count q
      + c.after.count q → q ≠ x ∧ q ≠ y := by
    intro q hq
    have := hc q
    constructor
    · rintro rfl
      simp at this; omega
    · rintro rfl
      simp at this; omega
  have hneB : ∀ q, q ≠ nil → 1 ≤ c.before.count q + A.addrs.count q + C.addrs.count q
      + c.after.count q → q ≠ B.ptr := by
    intro q hq0 hq e
    have := hc q
    rcases hcB with h1 | h1
    · exact hq0 (e.trans h1)
    · rw [← e] at h1; omega
  have hneP : ∀ q, q ≠ nil → 1 ≤ A.addrs.count q + B.addrs.count q + C.addrs.count q
      → q ≠ c.par := by
    intro q hq0 hq e
    have := hc q
    rcases hcp with h1 | h1
    · exact hq0 (e.trans h1)
    · rw [← e] at h1; omega
  have hfr : ∀ q, q ≠ x → q ≠ y → q ≠ B.ptr → q ≠ c.par → (rotate_left t x).mem q = t.mem q :=
    fun q h1 h2 h3 h4 => s5 q h1 h2 (Or.inl h3) (Or.inl h4)
  have hndB : B.addrs.Nodup := by
    apply List.nodup_iff_count_le_one.2
    intro q
    have := hc q
    omega
  have hndP : (c.before ++ c.after).Nodup := by
    apply List.nodup_iff_count_le_one.2
    intro q
    have := hc q
    rw [List.count_append]
    omega
  have hnil : (rotate_left t x).mem nil = t.mem nil := by
    apply s5 0 (Ne.symm hx0) (Ne.symm hy0)
    · by_cases e : B.ptr = 0
      · exact Or.inr e
      · exact Or.inl (Ne.symm e)
    · by_cases e : c.par = 0
      · exact Or.inr e
      · exact Or.inl (Ne.symm e)
  refine ⟨?_, hnil⟩
  apply Wf.join
  · apply hp.reslot hndP hx0 (by omega) s4
    intro q hq hqp
    have h1 := cnt_mem_append hq
    have h2 := hP0 q hq
    exact hfr q (hne q (by omega)).1 (hne q (by omega)).2 (hneB q h2 (by omega)) hqp
  · refine ⟨hy0, s1, ⟨hx0, ?_, hA.frame ?_, hB.reparent hndB ?_ ?_⟩, hC.frame ?_⟩
    · rw [s2, hAs, hBs]
    · intro q hq
      have h1 := cnt_mem hq
      have h2 := hA0 q hq
      exact hfr q (hne q (by omega)).1 (hne q (by omega)).2 (hneB q h2 (by omega))
        (hneP q h2 (by omega))
    · exact s3
    · intro q hq hqb
      have h1 := cnt_mem hq
      have h2 := hB0 q hq
      exact hfr q (hne q (by omega)).1 (hne q (by omega)).2 hqb (hneP q h2 (by omega))
    · intro q hq
      have h1 := cnt_mem hq
      have h2 := hC0 q hq
      exact hfr q (hne q (by omega)).1 (hne q (by omega)).2 (hneB q h2 (by omega))
        (hneP q h2 (by omega))
  · simpa [Tree.addrs] using hnd
  · show (rotate_left t x).root = c.rootPtr y
    rw [s6, hp.rootPtr_eq y, hroot]
  · rw [s7]; simpa [Tree.addrs] using hbd
  · rw [s7]; exact h.pos
  · rw [hnil]; exact h.nil_color
  · rw [hnil]; exact h.nil_size

theorem rotate_right_focus {t : Order_tree} {c : Path} {A B C : Tree} {x y : Nat}
    {kx ky : Int} {sx sy : Nat} {cx cy : Color}
    (h : Wf t (c.plug (.node (.node A x kx sx cx B) y ky sy cy C))) :
    Wf (rotate_right t y)
      (c.plug (.node A x kx sy cx (.node B y ky (B.sz + C.sz + 1) cy C))) :=
  (rotate_right_focus_nil h).1

theorem rotate_left_focus {t : Order_tree} {c : Path} {A B C : Tree} {x y : Nat}
    {kx ky : Int} {sx sy : Nat} {cx cy : Color}
    (h : Wf t (c.plug (.node A x kx sx cx (.node B y ky sy cy C)))) :
    Wf (rotate_left t x)
      (c.plug (.node (.node A x kx (A.sz + B.sz + 1) cx B) y ky sx cy C)) :=
  (rotate_left_focus_nil h).1

theorem setColor_mem_nil (t : Order_tree) {a : Nat} (c : Color) (h : a ≠ nil) :
    (t.setColor a c).mem nil = t.mem nil := by
  simp [setColor, upd, Ne.symm h]

theorem Wf.left_ne {t : Order_tree} {c : Path} {L rl rr : Tree} {a y : Nat} {k ky : Int}
    {n ny : Nat} {col cy : Color}
    (h : Wf t (c.plug (.node L a k n col (.node rl y ky ny cy rr)))) : L.ptr ≠ y := by
  obtain ⟨hp, hr, hnd, hroot⟩ := h.split
  have hc := fun q => List.nodup_iff_count_le_one.1 hnd q
  simp only [Tree.addrs, List.count_append, List.count_cons, beq_iff_eq] at hc
  have h1 := hc y
  simp only [if_true] at h1
  exact L.ptr_ne hr.2.2.2.1 (by omega)

theorem Wf.right_ne {t : Order_tree} {c : Path} {R ll lr : Tree} {a y : Nat} {k ky : Int}
    {n ny : Nat} {col cy : Color}
    (h : Wf t (c.plug (.node (.node ll y ky ny cy lr) a k n col R))) : R.ptr ≠ y := by
  obtain ⟨hp, hr, hnd, hroot⟩ := h.split
  have hc := fun q => List.nodup_iff_count_le_one.1 hnd q
  simp only [Tree.addrs, List.count_append, List.count_cons, beq_iff_eq] at hc
  have h1 := hc y
  simp only [if_true] at h1
  exact R.ptr_ne hr.2.2.1.1 (by omega)

theorem Path.RootBlack.up_inL {a : Nat} {k : Int} {n : Nat} {col : Color} {r : Tree} {up : Path}
    (h : (Path.inL a k n col r up).RootBlack) : up.RootBlack := by
  cases up with
  | top => trivial
  | inL _ _ _ _ _ _ => exact h
  | inR _ _ _ _ _ _ => exact h

theorem Path.RootBlack.up_inR {a : Nat} {k : Int} {n : Nat} {col : Color} {l : Tree} {up : Path}
    (h : (Path.inR l a k n col up).RootBlack) : up.RootBlack := by
  cases up with
  | top => trivial
  | inL _ _ _ _ _ _ => exact h
  | inR _ _ _ _ _ _ => exact h

theorem Path.RootBlack.inL_black {up : Path} (h : up.RootBlack) (a : Nat) (k : Int) (n : Nat)
    (r : Tree) : (Path.inL a k n Color.BLACK r up).RootBlack := by
  cases up with
  | top => rfl
  | inL _ _ _ _ _ _ => exact h
  | inR _ _ _ _ _ _ => exact h

theorem Path.RootBlack.inR_black {up : Path} (h : up.RootBlack) (l : Tree) (a : Nat) (k : Int)
    (n : Nat) : (Path.inR l a k n Color.BLACK up).RootBlack := by
  cases up with
  | top => rfl
  | inL _ _ _ _ _ _ => exact h
  | inR _ _ _ _ _ _ => exact h

theorem Wf.color_ptr {t : Order_tree} {c : Path} {s : Tree} (h : Wf t (c.plug s)) :
    (t.mem s.ptr).color = s.col :=
  h.split.2.1.color_eq h.nil_color

theorem Wf.size_ptr {t : Order_tree} {c : Path} {s : Tree} (h : Wf t (c.plug s)) :
    (t.mem s.ptr).size = s.sz :=
  h.split.2.1.size_eq h.nil_size

theorem Wf.ptr_ne_nil {t : Order_tree} {c : Path} {l r : Tree} {a : Nat} {k : Int}
    {n : Nat} {col : Color} (h : Wf t (c.plug (.node l a k n col r))) : a ≠ nil :=
  h.split.2.1.1

/-- The final `root->color = BLACK`. -/
theorem Wf.blacken_root {t : Order_tree} {s : Tree} (h : Wf t s) :
    Wf (t.setColor t.root Color.BLACK) s.blacken := by
  cases s with
  | leaf =>
    have hr : t.root = 0 := h.root
    refine ⟨hr, trivial, List.nodup_nil, ?_, h.pos, ?_, ?_⟩
    · intro a ha; simp [Tree.blacken, Tree.addrs] at ha
    · simp [setColor, hr, upd]
    · simpa [setColor, hr, upd] using h.nil_size
  | node l a k n col r =>
    have hr : t.root = a := h.root
    rw [hr]
    exact setColor_focus (c := Path.top) Color.BLACK h

theorem Tree.col_ne_red {s : Tree} (h : ¬ s.col = Color.RED) : s.col = Color.BLACK := by
  cases hc : s.col with
  | RED => exact absurd hc h
  | BLACK => rfl

theorem rotate_right_next (t : Order_tree) (y : Nat) : (rotate_right t y).next = t.next := by
  simp only [rotate_right, setLeft, setRight, setParent, setSize, setRoot]
  split_ifs <;> rfl

theorem rotate_left_next (t : Order_tree) (y : Nat) : (rotate_left t y).next = t.next := by
  simp only [rotate_left, setLeft, setRight, setParent, setSize, setRoot]
  split_ifs <;> rfl

theorem rb_insert_fixup_refines (fuel : Nat) : ∀ (t : Order_tree) (c : Path) (s : Tree),
    Wf t (c.plug s) → s ≠ Tree.leaf → c.RootBlack → c.depth < fuel →
    ∃ t2, rb_insert_fixup fuel t s.ptr = some t2 ∧ Wf t2 (ins_fix c s) ∧ t2.next = t.next := by
  induction fuel with
  | zero => intro t c s _ _ _ hd; omega
  | succ fuel ih =>
    intro t c s h hs hrb hd
    obtain ⟨sl, x, kx, nx, cx, sr, rfl⟩ : ∃ sl x kx nx cx sr, s = Tree.node sl x kx nx cx sr := by
      cases s with
      | leaf => exact absurd rfl hs
      | node sl x kx nx cx sr => exact ⟨_, _, _, _, _, _, rfl⟩
    have hx := h.read
    simp only [Tree.ptr_node]
    cases c with
    | top =>
      refine ⟨t.setColor t.root Color.BLACK, ?_, ?_, rfl⟩
      · simp [rb_insert_fixup, hx, h.nil_color]
      · rw [ins_fix]
        exact h.blacken_root
    | inL p kp np cp r up =>
      have hP : Wf t (up.plug (.node (.node sl x kx nx cx sr) p kp np cp r)) := h
      have hp := hP.read
      simp only [Path.par_inL, Tree.ptr_node] at hx hp
      cases cp with
      | BLACK =>
        refine ⟨t.setColor t.root Color.BLACK, ?_, ?_, rfl⟩
        · simp [rb_insert_fixup, hx, hp]
        · rw [ins_fix]
          exact h.blacken_root
      | RED =>
        cases up with
        | top => exact absurd hrb (by simp [Path.RootBlack])
        | inL g kg ng cg u up2 =>
          have hG : Wf t (up2.plug (.node (.node (.node sl x kx nx cx sr) p kp np .RED r)
            g kg ng cg u)) := h
          have hg := hG.read
          have hU : Wf t ((Path.inR (.node (.node sl x kx nx cx sr) p kp np .RED r)
            g kg ng cg up2).plug u) := h
          have hu := hU.color_ptr
          simp only [Path.par_inL, Tree.ptr_node] at hp hg
          by_cases hur : u.col = Color.RED
          · obtain ⟨ul, ua, ku, nu, cu, ur, rfl⟩ : ∃ ul ua ku nu cu ur,
                u = Tree.node ul ua ku nu cu ur := by
              cases u with
              | leaf => simp at hur
              | node ul ua ku nu cu ur => exact ⟨_, _, _, _, _, _, rfl⟩
            simp only [Tree.col_node] at hur
            subst hur
            simp only [Tree.ptr_node] at hg hu
            have h1 := setColor_focus Color.BLACK hP
            have h1U : Wf (t.setColor p .BLACK) ((Path.inR (.node (.node sl x kx nx cx sr)
              p kp np .BLACK r) g kg ng cg up2).plug (.node ul ua ku nu .RED ur)) := h1
            have h2 := setColor_focus Color.BLACK h1U
            have h2P : Wf ((t.setColor p .BLACK).setColor ua .BLACK)
              ((Path.inL g kg ng cg (.node ul ua ku nu .BLACK ur) up2).plug
                (.node (.node sl x kx nx cx sr) p kp np .BLACK r)) := h2
            have hp2 := h2P.read
            have h2G : Wf ((t.setColor p .BLACK).setColor ua .BLACK)
              (up2.plug (.node (.node (.node sl x kx nx cx sr) p kp np .BLACK r) g kg ng cg
                (.node ul ua ku nu .BLACK ur))) := h2
            have h3 := setColor_focus Color.RED h2G
            have h3P : Wf (((t.setColor p .BLACK).setColor ua .BLACK).setColor g .RED)
              ((Path.inL g kg ng .RED (.node ul ua ku nu .BLACK ur) up2).plug
                (.node (.node sl x kx nx cx sr) p kp np .BLACK r)) := h3
            have hp3 := h3P.read
            simp only [Path.par_inL, Tree.ptr_node] at hp2 hp3
            obtain ⟨t4, e4, w4, n4⟩ := ih _ up2 _ h3 (by simp) hrb.up_inL.up_inL
              (by simp only [Path.depth] at hd; omega)
            refine ⟨t4, ?_, ?_, ?_⟩
            · simp only [Tree.ptr_node] at e4
              simp [rb_insert_fixup, hx, hp, hg, hu, hp2, hp3, e4]
            · rw [ins_fix]
              simpa [Tree.blacken] using w4
            · rw [n4]; rfl
          · have hxr : ¬ (x = r.ptr) := fun e => hP.right_ne e.symm
            have h1 := setColor_focus Color.BLACK hP
            have hp1 := h1.read
            have h1G : Wf (t.setColor p .BLACK)
              (up2.plug (.node (.node (.node sl x kx nx cx sr) p kp np .BLACK r) g kg ng cg u)) := h1
            have h2 := setColor_focus Color.RED h1G
            have h2P : Wf ((t.setColor p .BLACK).setColor g .RED)
              ((Path.inL g kg ng .RED u up2).plug
                (.node (.node sl x kx nx cx sr) p kp np .BLACK r)) := h2
            have hp2 := h2P.read
            have h3 := rotate_right_focus h2
            simp only [Path.par_inL, Tree.ptr_node] at hp1 hp2
            obtain ⟨t4, e4, w4, n4⟩ := ih _
              (Path.inL p kp ng .BLACK (.node r g kg (r.sz + u.sz + 1) .RED u) up2) _ h3 (by simp)
              (hrb.up_inL.up_inL.inL_black _ _ _ _)
              (by simp only [Path.depth] at hd ⊢; omega)
            refine ⟨t4, ?_, ?_, ?_⟩
            · simp only [Tree.ptr_node] at e4
              simp [rb_insert_fixup, hx, hp, hg, hu, hur, hxr, hp1, hp2, e4]
            · rw [ins_fix]
              rw [ins_fix] at w4
              simpa [hur] using w4
            · rw [n4]
              simp [rotate_right_next, setColor]
        | inR u g kg ng cg up2 =>
          have hG : Wf t (up2.plug (.node u g kg ng cg
            (.node (.node sl x kx nx cx sr) p kp np .RED r))) := h
          have hg := hG.read
          have hU : Wf t ((Path.inL g kg ng cg (.node (.node sl x kx nx cx sr) p kp np .RED r)
            up2).plug u) := h
          have hu := hU.color_ptr
          have hup : ¬ (p = u.ptr) := fun e => hG.left_ne e.symm
          simp only [Path.par_inL, Path.par_inR, Tree.ptr_node] at hp hg
          by_cases hur : u.col = Color.RED
          · obtain ⟨ul, ua, ku, nu, cu, ur, rfl⟩ : ∃ ul ua ku nu cu ur,
                u = Tree.node ul ua ku nu cu ur := by
              cases u with
              | leaf => simp at hur
              | node ul ua ku nu cu ur => exact ⟨_, _, _, _, _, _, rfl⟩
            simp only [Tree.col_node] at hur
            subst hur
            simp only [Tree.ptr_node] at hg hu hup
            have h1 := setColor_focus Color.BLACK hP
            have h1U : Wf (t.setColor p .BLACK) ((Path.inL g kg ng cg
              (.node (.node sl x kx nx cx sr) p kp np .BLACK r) up2).plug
                (.node ul ua ku nu .RED ur)) := h1
            have h2 := setColor_focus Color.BLACK h1U
            have h2P : Wf ((t.setColor p .BLACK).setColor ua .BLACK)
              ((Path.inR (.node ul ua ku nu .BLACK ur) g kg ng cg up2).plug
                (.node (.node sl x kx nx cx sr) p kp np .BLACK r)) := h2
            have hp2 := h2P.read
            have h2G : Wf ((t.setColor p .BLACK).setColor ua .BLACK)
              (up2.plug (.node (.node ul ua ku nu .BLACK ur) g kg ng cg
                (.node (.node sl x kx nx cx sr) p kp np .BLACK r))) := h2
            have h3 := setColor_focus Color.RED h2G
            have h3P : Wf (((t.setColor p .BLACK).setColor ua .BLACK).setColor g .RED)
              ((Path.inR (.node ul ua ku nu .BLACK ur) g kg ng .RED up2).plug
                (.node (.node sl x kx nx cx sr) p kp np .BLACK r)) := h3
            have hp3 := h3P.read
            simp only [Path.par_inR, Tree.ptr_node] at hp2 hp3
            obtain ⟨t4, e4, w4, n4⟩ := ih _ up2 _ h3 (by simp) hrb.up_inL.up_inR
              (by simp only [Path.depth] at hd; omega)
            refine ⟨t4, ?_, ?_, ?_⟩
            · simp only [Tree.ptr_node] at e4
              simp [rb_insert_fixup, hx, hp, hg, hu, hup, hp2, hp3, e4]
            · rw [ins_fix]
              simpa [Tree.blacken] using w4
            · rw [n4]; rfl
          · have h1 := rotate_right_focus hP
            have h1P : Wf (rotate_right t p) ((Path.inR sl x kx np cx
              (Path.inR u g kg ng cg up2)).plug (.node sr p kp (sr.sz + r.sz + 1) .RED r)) := h1
            have h2 := setColor_focus Color.BLACK h1P
            have hp2 := h2.read
            have h2X : Wf ((rotate_right t p).setColor p .BLACK) ((Path.inR u g kg ng cg up2).plug
              (.node sl x kx np cx (.node sr p kp (sr.sz + r.sz + 1) .BLACK r))) := h2
            have h3 := setColor_focus Color.RED h2X
            have h3P : Wf (((rotate_right t p).setColor p .BLACK).setColor x .RED)
              ((Path.inR sl x kx np .RED (Path.inR u g kg ng cg up2)).plug
                (.node sr p kp (sr.sz + r.sz + 1) .BLACK r)) := h3
            have hp3 := h3P.read
            have h4 := rotate_left_focus h3
            simp only [Path.par_inR, Tree.ptr_node] at hp2 hp3
            obtain ⟨t5, e5, w5, n5⟩ := ih _ (Path.inR u g kg ng cg up2) _ h4 (by simp)
              hrb.up_inL (by simp only [Path.depth] at hd ⊢; omega)
            refine ⟨t5, ?_, ?_, ?_⟩
            · simp only [Tree.ptr_node] at e5
              simp [rb_insert_fixup, hx, hp, hg, hu, hup, hur, hp2, hp3, e5]
            · rw [ins_fix]
              simpa [hur] using w5
            · rw [n5]
              simp [rotate_right_next, rotate_left_next, setColor]
    | inR l p kp np cp up =>
      have hP : Wf t (up.plug (.node l p kp np cp (.node sl x kx nx cx sr))) := h
      have hp := hP.read
      simp only [Path.par_inR, Tree.ptr_node] at hx hp
      cases cp with
      | BLACK =>
        refine ⟨t.setColor t.root Color.BLACK, ?_, ?_, rfl⟩
        · simp [rb_insert_fixup, hx, hp]
        · rw [ins_fix]
          exact h.blacken_root
      | RED =>
        cases up with
        | top => exact absurd hrb (by simp [Path.RootBlack])
        | inL g kg ng cg u up2 =>
          have hG : Wf t (up2.plug (.node (.node l p kp np .RED (.node sl x kx nx cx sr))
            g kg ng cg u)) := h
          have hg := hG.read
          have hU : Wf t ((Path.inR (.node l p kp np .RED (.node sl x kx nx cx sr))
            g kg ng cg up2).plug u) := h
          have hu := hU.color_ptr
          simp only [Path.par_inL, Tree.ptr_node] at hp hg
          by_cases hur : u.col = Color.RED
          · obtain ⟨ul, ua, ku, nu, cu, ur, rfl⟩ : ∃ ul ua ku nu cu ur,
                u = Tree.node ul ua ku nu cu ur := by
              cases u with
              | leaf => simp at hur
              | node ul ua ku nu cu ur => exact ⟨_, _, _, _, _, _, rfl⟩
            simp only [Tree.col_node] at hur
            subst hur
            simp only [Tree.ptr_node] at hg hu
            have h1 := setColor_focus Color.BLACK hP
            have h1U : Wf (t.setColor p .BLACK) ((Path.inR (.node l p kp np .BLACK
              (.node sl x kx nx cx sr)) g kg ng cg up2).plug (.node ul ua ku nu .RED ur)) := h1
            have h2 := setColor_focus Color.BLACK h1U
            have h2P : Wf ((t.setColor p .BLACK).setColor ua .BLACK)
              ((Path.inL g kg ng cg (.node ul ua ku nu .BLACK ur) up2).plug
                (.node l p kp np .BLACK (.node sl x kx nx cx sr))) := h2
            have hp2 := h2P.read
            have h2G : Wf ((t.setColor p .BLACK).setColor ua .BLACK)
              (up2.plug (.node (.node l p kp np .BLACK (.node sl x kx nx cx sr)) g kg ng cg
                (.node ul ua ku nu .BLACK ur))) := h2
            have h3 := setColor_focus Color.RED h2G
            have h3P : Wf (((t.setColor p .BLACK).setColor ua .BLACK).setColor g .RED)
              ((Path.inL g kg ng .RED (.node ul ua ku nu .BLACK ur) up2).plug
                (.node l p kp np .BLACK (.node sl x kx nx cx sr))) := h3
            have hp3 := h3P.read
            simp only [Path.par_inL, Tree.ptr_node] at hp2 hp3
            obtain ⟨t4, e4, w4, n4⟩ := ih _ up2 _ h3 (by simp) hrb.up_inR.up_inL
              (by simp only [Path.depth] at hd; omega)
            refine ⟨t4, ?_, ?_, ?_⟩
            · simp only [Tree.ptr_node] at e4
              simp [rb_insert_fixup, hx, hp, hg, hu, hp2, hp3, e4]
            · rw [ins_fix]
              simpa [Tree.blacken] using w4
            · rw [n4]; rfl
          · have h1 := rotate_left_focus hP
            have h1P : Wf (rotate_left t p) ((Path.inL x kx np cx sr
              (Path.inL g kg ng cg u up2)).plug (.node l p kp (l.sz + sl.sz + 1) .RED sl)) := h1
            have h2 := setColor_focus Color.BLACK h1P
            have hp2 := h2.read
            have h2X : Wf ((rotate_left t p).setColor p .BLACK) ((Path.inL g kg ng cg u up2).plug
              (.node (.node l p kp (l.sz + sl.sz + 1) .BLACK sl) x kx np cx sr)) := h2
            have h3 := setColor_focus Color.RED h2X
            have h3P : Wf (((rotate_left t p).setColor p .BLACK).setColor x .RED)
              ((Path.inL x kx np .RED sr (Path.inL g kg ng cg u up2)).plug
                (.node l p kp (l.sz + sl.sz + 1) .BLACK sl)) := h3
            have hp3 := h3P.read
            have h4 := rotate_right_focus h3
            simp only [Path.par_inL, Tree.ptr_node] at hp2 hp3
            obtain ⟨t5, e5, w5, n5⟩ := ih _ (Path.inL g kg ng cg u up2) _ h4 (by simp)
              hrb.up_inR (by simp only [Path.depth] at hd ⊢; omega)
            refine ⟨t5, ?_, ?_, ?_⟩
            · simp only [Tree.ptr_node] at e5
              simp [rb_insert_fixup, hx, hp, hg, hu, hur, hp2, hp3, e5]
            · rw [ins_fix]
              simpa [hur] using w5
            · rw [n5]
              simp [rotate_right_next, rotate_left_next, setColor]
        | inR u g kg ng cg up2 =>
          have hG : Wf t (up2.plug (.node u g kg ng cg
            (.node l p kp np .RED (.node sl x kx nx cx sr)))) := h
          have hg := hG.read
          have hU : Wf t ((Path.inL g kg ng cg (.node l p kp np .RED (.node sl x kx nx cx sr))
            up2).plug u) := h
          have hu := hU.color_ptr
          have hup : ¬ (p = u.ptr) := fun e => hG.left_ne e.symm
          simp only [Path.par_inL, Path.par_inR, Tree.ptr_node] at hp hg
          by_cases hur : u.col = Color.RED
          · obtain ⟨ul, ua, ku, nu, cu, ur, rfl⟩ : ∃ ul ua ku nu cu ur,
                u = Tree.node ul ua ku nu cu ur := by
              cases u with
              | leaf => simp at hur
              | node ul ua ku nu cu ur => exact ⟨_, _, _, _, _, _, rfl⟩
            simp only [Tree.col_node] at hur
            subst hur
            simp only [Tree.ptr_node] at hg hu hup
            have h1 := setColor_focus Color.BLACK hP
            have h1U : Wf (t.setColor p .BLACK) ((Path.inL g kg ng cg
              (.node l p kp np .BLACK (.node sl x kx nx cx sr)) up2).plug
                (.node ul ua ku nu .RED ur)) := h1
            have h2 := setColor_focus Color.BLACK h1U
            have h2P : Wf ((t.setColor p .BLACK).setColor ua .BLACK)
              ((Path.inR (.node ul ua ku nu .BLACK ur) g kg ng cg up2).plug
                (.node l p kp np .BLACK (.node sl x kx nx cx sr))) := h2
            have hp2 := h2P.read
            have h2G : Wf ((t.setColor p .BLACK).setColor ua .BLACK)
              (up2.plug (.node (.node ul ua ku nu .BLACK ur) g kg ng cg
                (.node l p kp np .BLACK (.node sl x kx nx cx sr)))) := h2
            have h3 := setColor_focus Color.RED h2G
            have h3P : Wf (((t.setColor p .BLACK).setColor ua .BLACK).setColor g .RED)
              ((Path.inR (.node ul ua ku nu .BLACK ur) g kg ng .RED up2).plug
                (.node l p kp np .BLACK (.node sl x kx nx cx sr))) := h3
            have hp3 := h3P.read
            simp only [Path.par_inR, Tree.ptr_node] at hp2 hp3
            obtain ⟨t4, e4, w4, n4⟩ := ih _ up2 _ h3 (by simp) hrb.up_inR.up_inR
              (by simp only [Path.depth] at hd; omega)
            refine ⟨t4, ?_, ?_, ?_⟩
            · simp only [Tree.ptr_node] at e4
              simp [rb_insert_fixup, hx, hp, hg, hu, hup, hp2, hp3, e4]
            · rw [ins_fix]
              simpa [Tree.blacken] using w4
            · rw [n4]; rfl
          · have hxl : ¬ (x = l.ptr) := fun e => hP.left_ne e.symm
            have h1 := setColor_focus Color.BLACK hP
            have hp1 := h1.read
            have h1G : Wf (t.setColor p .BLACK)
              (up2.plug (.node u g kg ng cg (.node l p kp np .BLACK (.node sl x kx nx cx sr)))) := h1
            have h2 := setColor_focus Color.RED h1G
            have h2P : Wf ((t.setColor p .BLACK).setColor g .RED)
              ((Path.inR u g kg ng .RED up2).plug
                (.node l p kp np .BLACK (.node sl x kx nx cx sr))) := h2
            have hp2 := h2P.read
            have h3 := rotate_left_focus h2
            simp only [Path.par_inR, Tree.ptr_node] at hp1 hp2
            obtain ⟨t4, e4, w4, n4⟩ := ih _
              (Path.inR (.node u g kg (u.sz + l.sz + 1) .RED l) p kp ng .BLACK up2) _ h3 (by simp)
              (hrb.up_inR.up_inR.inR_black _ _ _ _)
              (by simp only [Path.depth] at hd ⊢; omega)
            refine ⟨t4, ?_, ?_, ?_⟩
            · simp only [Tree.ptr_node] at e4
              simp [rb_insert_fixup, hx, hp, hg, hu, hup, hur, hxl, hp1, hp2, e4]
            · rw [ins_fix]
              rw [ins_fix] at w4
              simpa [hur] using w4
            · rw [n4]
              simp [rotate_left_next, setColor]

theorem descend_lastStep (key : Int) (s : Tree) : ∀ c : Path, c.LastStep key →
    (descend key s c).LastStep key := by
  induction s with
  | leaf => intro c h; exact h
  | node l a k n col r ihl ihr =>
    intro c _
    rw [descend]
    split_ifs with hk
    · exact ihl _ hk
    · exact ihr _ hk

theorem descend_rootBlack (key : Int) (s : Tree) : ∀ c : Path, c.RootBlack →
    (c = Path.top → s.col = Color.BLACK) → (descend key s c).RootBlack := by
  induction s with
  | leaf => intro c h _; exact h
  | node l a k n col r ihl ihr =>
    intro c hc hs
    rw [descend]
    split_ifs with hk
    · apply ihl
      · cases c with
        | top => exact hs rfl
        | inL _ _ _ _ _ _ => exact hc
        | inR _ _ _ _ _ _ => exact hc
      · intro e; cases e
    · apply ihr
      · cases c with
        | top => exact hs rfl
        | inL _ _ _ _ _ _ => exact hc
        | inR _ _ _ _ _ _ => exact hc
      · intro e; cases e

theorem descend_depth (key : Int) (s : Tree) : ∀ c : Path,
    (descend key s c).depth ≤ c.depth + s.height := by
  induction s with
  | leaf => intro c; simp [descend]
  | node l a k n col r ihl ihr =>
    intro c
    rw [descend]
    split_ifs with hk
    · have := ihl (Path.inL a k (n + 1) col r c)
      simp only [Path.depth, Tree.height] at this ⊢
      omega
    · have := ihr (Path.inR l a k (n + 1) col c)
      simp only [Path.depth, Tree.height] at this ⊢
      omega

theorem descend_addrs (key : Int) (s : Tree) : ∀ c : Path,
    ((descend key s c).plug Tree.leaf).addrs = (c.plug s).addrs := by
  induction s with
  | leaf => intro c; rfl
  | node l a k n col r ihl ihr =>
    intro c
    rw [descend]
    split_ifs with hk
    · rw [ihl]
      simp [Path.plug, Path.plug_addrs, Tree.addrs]
    · rw [ihr]
      simp [Path.plug, Path.plug_addrs, Tree.addrs]

theorem tree_insert_loop_refines (key : Int) (fuel : Nat) : ∀ (t : Order_tree) (c : Path)
    (s : Tree), Wf t (c.plug s) → s.height < fuel →
    ∃ t2, tree_insert_loop key fuel t s.ptr c.par = some (t2, (descend key s c).par)
      ∧ Wf t2 ((descend key s c).plug Tree.leaf) ∧ t2.next = t.next
      ∧ ∀ q, q ∉ (c.plug s).addrs → t2.mem q = t.mem q := by
  induction fuel with
  | zero => intro t c s _ hd; omega
  | succ fuel ih =>
    intro t c s h hd
    cases s with
    | leaf =>
      exact ⟨t, by simp [tree_insert_loop, descend], h, rfl, fun _ _ => rfl⟩
    | node l a k n col r =>
      have ha := h.read
      have ha0 := h.ptr_ne_nil
      have h1 := setSize_focus (n + 1) h
      have ha1 := h1.read
      simp only [Tree.height] at hd
      by_cases hk : key < k
      · have h1L : Wf (t.setSize a (n + 1)) ((Path.inL a k (n + 1) col r c).plug l) := h1
        obtain ⟨t2, e2, w2, n2, f2⟩ := ih _ _ _ h1L (by omega)
        refine ⟨t2, ?_, ?_, ?_, ?_⟩
        · simp only [Path.par_inL] at e2
          simp [tree_insert_loop, ha0, ha, ha1, hk, descend, e2]
        · rw [descend, if_pos hk]; exact w2
        · rw [n2]; rfl
        · intro q hq
          rw [f2 q (by simpa [Path.plug, Path.plug_addrs, Tree.addrs] using hq)]
          have : q ≠ a := by
            rintro rfl
            exact hq (by simp [Path.plug_addrs, Tree.addrs])
          simp [setSize, upd, this]
      · have h1R : Wf (t.setSize a (n + 1)) ((Path.inR l a k (n + 1) col c).plug r) := h1
        obtain ⟨t2, e2, w2, n2, f2⟩ := ih _ _ _ h1R (by omega)
        refine ⟨t2, ?_, ?_, ?_, ?_⟩
        · simp only [Path.par_inR] at e2
          simp [tree_insert_loop, ha0, ha, ha1, hk, descend, e2]
        · rw [descend, if_neg hk]; exact w2
        · rw [n2]; rfl
        · intro q hq
          rw [f2 q (by simpa [Path.plug, Path.plug_addrs, Tree.addrs] using hq)]
          have : q ≠ a := by
            rintro rfl
            exact hq (by simp [Path.plug_addrs, Tree.addrs])
          simp [setSize, upd, this]

/-- Linking a fresh node below the position the search ended at. -/
theorem attach_refines {t : Order_tree} {c : Path} {x : Nat} {key : Int} {px : Nat}
    (h : Wf t (c.plug Tree.leaf)) (hx0 : x ≠ nil) (hxn : x ∉ (c.plug Tree.leaf).addrs)
    (hxb : x < t.next) (hx : t.mem x = ⟨key, px, nil, nil, 1, Color.RED⟩)
    (hls : c.LastStep key) :
    ∃ t3, (if c.par = nil then some ((t.setParent x c.par).setRoot x)
        else if ((t.setParent x c.par).mem x).key < ((t.setParent x c.par).mem c.par).key
          then some ((t.setParent x c.par).setLeft c.par x)
          else some ((t.setParent x c.par).setRight c.par x)) = some t3
      ∧ Wf t3 (c.plug (Tree.node Tree.leaf x key 1 Color.RED Tree.leaf))
      ∧ t3.next = t.next := by
  obtain ⟨hp, hr, hnd, hroot⟩ := h.split
  have hbd := h.bound_split
  rw [Path.plug_addrs] at hxn
  have hxc : c.before.count x + c.after.count x = 0 := by
    have h1 : x ∉ c.before := fun hm => hxn (by simp [hm])
    have h2 : x ∉ c.after := fun hm => hxn (by simp [hm])
    rw [List.count_eq_zero.2 h1, List.count_eq_zero.2 h2]
  have hc := fun q => List.nodup_iff_count_le_one.1 hnd q
  simp only [Tree.addrs, List.count_append, List.count_cons, List.count_nil, beq_iff_eq] at hc
  have hnd2 : (c.before ++ ((Tree.node Tree.leaf x key 1 Color.RED Tree.leaf).addrs
      ++ c.after)).Nodup := by
    apply List.nodup_iff_count_le_one.2
    intro q
    have := hc q
    simp only [Tree.addrs, List.count_append, List.count_cons, List.count_nil, beq_iff_eq]
    by_cases e : x = q
    · subst e; simp; omega
    · simp [e]; omega
  have hbd2 : ∀ a ∈ c.before ++ ((Tree.node Tree.leaf x key 1 Color.RED Tree.leaf).addrs
      ++ c.after), a < t.next := by
    intro a ha
    simp only [Tree.addrs, List.mem_append, List.mem_cons, List.not_mem_nil, false_or,
      or_false] at ha
    rcases ha with ha | rfl | ha
    · exact hbd a (by simp [ha])
    · exact hxb
    · exact hbd a (by simp [ha])
  have hx0' : (0 : Nat) ≠ x := fun e => hx0 e.symm
  cases c with
  | top =>
    refine ⟨(t.setParent x nil).setRoot x, by simp, ?_, rfl⟩
    apply Wf.join (c := Path.top)
    · trivial
    · exact ⟨hx0, by simp [setParent, setRoot, upd, hx], trivial, trivial⟩
    · exact hnd2
    · rfl
    · exact hbd2
    · exact h.pos
    · simpa [setParent, setRoot, upd, hx0'] using h.nil_color
    · simpa [setParent, setRoot, upd, hx0'] using h.nil_size
  | inL a ka na ca r up =>
    obtain ⟨ha0, ha, hr1, hup⟩ := hp
    simp only [Path.before, Path.after, List.count_append, List.count_cons, beq_iff_eq] at hc hxc
    have hax : a ≠ x := by
      rintro rfl
      simp at hxc
    have hxa : x ≠ a := fun e => hax e.symm
    have hk : key < ka := hls
    have hca := hc a
    simp only [if_true] at hca
    refine ⟨(t.setParent x a).setLeft a x, ?_, ?_, rfl⟩
    · simp [setParent, upd, hx, ha, ha0, hax, hk]
    · apply Wf.join (c := Path.inL a ka na ca r up)
      · refine ⟨ha0, ?_, hr1.frame ?_, hup.frame_path ?_⟩
        · simp [setParent, setLeft, upd, hax, ha]
        · intro q hq
          have h1 := cnt_mem hq
          have h2 := hc q
          have hqa : q ≠ a := by rintro rfl; omega
          have hqx : q ≠ x := by rintro rfl; omega
          simp [setParent, setLeft, upd, hqa, hqx]
        · intro q hq
          have h1 := cnt_mem_append hq
          have h2 := hc q
          have hqa : q ≠ a := by rintro rfl; omega
          have hqx : q ≠ x := by rintro rfl; omega
          simp [setParent, setLeft, upd, hqa, hqx]
      · exact ⟨hx0, by simp [setParent, setLeft, upd, hx, hxa], trivial, trivial⟩
      · exact hnd2
      · simpa [Path.rootPtr] using hroot
      · exact hbd2
      · exact h.pos
      · simpa [setParent, setLeft, upd, hx0', Ne.symm ha0] using h.nil_color
      · simpa [setParent, setLeft, upd, hx0', Ne.symm ha0] using h.nil_size
  | inR l a ka na ca up =>
    obtain ⟨ha0, ha, hl1, hup⟩ := hp
    simp only [Path.before, Path.after, List.count_append, List.count_cons, List.count_nil,
      beq_iff_eq] at hc hxc
    have hax : a ≠ x := by
      rintro rfl
      simp at hxc
    have hxa : x ≠ a := fun e => hax e.symm
    have hk : ¬ key < ka := hls
    have hca := hc a
    simp only [if_true] at hca
    refine ⟨(t.setParent x a).setRight a x, ?_, ?_, rfl⟩
    · simp [setParent, upd, hx, ha, ha0, hax, hk]
    · apply Wf.join (c := Path.inR l a ka na ca up)
      · refine ⟨ha0, ?_, hl1.frame ?_, hup.frame_path ?_⟩
        · simp [setParent, setRight, upd, hax, ha]
        · intro q hq
          have h1 := cnt_mem hq
          have h2 := hc q
          have hqa : q ≠ a := by rintro rfl; omega
          have hqx : q ≠ x := by rintro rfl; omega
          simp [setParent, setRight, upd, hqa, hqx]
        · intro q hq
          have h1 := cnt_mem_append hq
          have h2 := hc q
          have hqa : q ≠ a := by rintro rfl; omega
          have hqx : q ≠ x := by rintro rfl; omega
          simp [setParent, setRight, upd, hqa, hqx]
      · exact ⟨hx0, by simp [setParent, setRight, upd, hx, hxa], trivial, trivial⟩
      · exact hnd2
      · simpa [Path.rootPtr] using hroot
      · exact hbd2
      · exact h.pos
      · simpa [setParent, setRight, upd, hx0', Ne.symm ha0] using h.nil_color
      · simpa [setParent, setRight, upd, hx0', Ne.symm ha0] using h.nil_size

theorem Tree.height_le_length (s : Tree) : s.height ≤ s.addrs.length := by
  induction s with
  | leaf => simp [Tree.height]
  | node l a k n c r ihl ihr =>
    simp only [Tree.height, Tree.addrs, List.length_append, List.length_cons]
    omega

theorem length_lt_of_nodup_bound {l : List Nat} {n : Nat} (hnd : l.Nodup)
    (hb : ∀ a ∈ l, a ≠ 0 ∧ a < n) (hn : 0 < n) : l.length < n := by
  have hsub : l ⊆ List.range' 1 (n - 1) := by
    intro a ha
    have := hb a ha
    rw [List.mem_range']
    exact ⟨a - 1, by omega, by omega⟩
  have := (List.subperm_of_subset hnd hsub).length_le
  simp only [List.length_range'] at this
  omega

theorem Wf.length_lt {t : Order_tree} {s : Tree} (h : Wf t s) : s.addrs.length < t.next :=
  length_lt_of_nodup_bound h.nodup (fun a ha => ⟨h.rep.ne_nil a ha, h.bound a ha⟩) h.pos

theorem Wf.height_lt {t : Order_tree} {s : Tree} (h : Wf t s) : s.height < t.next :=
  lt_of_le_of_lt s.height_le_length h.length_lt

/-- Allocation of the new node leaves the tree as it was. -/
theorem Wf.alloc {t : Order_tree} {s : Tree} (h : Wf t s) (v : Order_node) :
    Wf { t with mem := upd t.mem t.next v, next := t.next + 1 } s := by
  have hne : ∀ a ∈ s.addrs, a ≠ t.next := fun a ha => Nat.ne_of_lt (h.bound a ha)
  have hp := h.pos
  refine ⟨h.root, h.rep.frame ?_, h.nodup, ?_, Nat.succ_pos _, ?_, ?_⟩
  · intro b hb
    exact upd_ne _ _ (hne b hb)
  · intro a ha
    exact Nat.lt_succ_of_lt (h.bound a ha)
  · show (upd t.mem t.next v 0).color = _
    rw [upd_ne _ _ (by omega)]; exact h.nil_color
  · show (upd t.mem t.next v 0).size = _
    rw [upd_ne _ _ (by omega)]; exact h.nil_size

theorem insert_refines {t : Order_tree} {s : Tree} (h : Wf t s) (hb : s.col = Color.BLACK)
    (key : Int) :
    ∃ t2, insert t key = some t2 ∧ Wf t2 (ins key t.next s) ∧ t2.next = t.next + 1 := by
  have h0 := h.alloc ⟨key, nil, nil, nil, 1, Color.RED⟩
  have hp := h.pos
  have hht := h.height_lt
  obtain ⟨t1, e1, w1, n1, f1⟩ := tree_insert_loop_refines key (t.next + 1) _ Path.top s h0
    (by omega)
  have hxn : t.next ∉ s.addrs := fun hm => Nat.lt_irrefl _ (h.bound _ hm)
  have hx1 : t1.mem t.next = ⟨key, nil, nil, nil, 1, Color.RED⟩ := by
    rw [f1 _ hxn]
    exact upd_same _ _ _
  obtain ⟨t2, e2, w2, n2⟩ := attach_refines w1 (Nat.ne_of_gt hp)
    (by rw [descend_addrs]; exact hxn) (by rw [n1]; exact Nat.lt_succ_self _) hx1
    (descend_lastStep key s Path.top trivial)
  obtain ⟨t3, e3, w3, n3⟩ := rb_insert_fixup_refines (t.next + 1) t2 _ _ w2 (by simp)
    (descend_rootBlack key s Path.top trivial (fun _ => hb))
    (by
      have := descend_depth key s Path.top
      simp only [Path.depth] at this
      omega)
  refine ⟨t3, ?_, w3, ?_⟩
  · simp only [Path.par_top, Tree.ptr_node] at e1 e3
    have hroot : t.root = s.ptr := h.root
    rw [← hroot] at e1
    simp only [insert, rb_insert, tree_insert, upd_same, e1]
    simp only [e2, e3]
  · rw [n3, n2, n1]

@[simp] theorem Tree.blacken_keys (s : Tree) : s.blacken.keys = s.keys := by
  cases s <;> rfl

@[simp] theorem Tree.blacken_addrs (s : Tree) : s.blacken.addrs = s.addrs := by
  cases s <;> rfl

@[simp] theorem Tree.blacken_col (s : Tree) : s.blacken.col = Color.BLACK := by
  cases s <;> rfl

@[simp] theorem Tree.blacken_sz (s : Tree) : s.blacken.sz = s.sz := by
  cases s <;> rfl

theorem Tree.blacken_sizeOK {s : Tree} (h : s.SizeOK) : s.blacken.SizeOK := by
  cases s with
  | leaf => trivial
  | node l a k n c r => exact h

theorem Tree.blacken_noRedRed {s : Tree} (h : s.NoRedRed) : s.blacken.NoRedRed := by
  cases s with
  | leaf => trivial
  | node l a k n c r =>
    simp_all [Tree.blacken, Tree.NoRedRed]

theorem Path.sizeOK_plug (c : Path) : ∀ s : Tree,
    (c.plug s).SizeOK ↔ s.SizeOK ∧ c.SizeOK s.sz := by
  induction c with
  | top => intro s; simp [Path.plug, Path.SizeOK]
  | inL a k n col r up ih =>
    intro s
    rw [Path.plug, ih]
    simp only [Tree.SizeOK, Path.SizeOK, Tree.sz_node]
    tauto
  | inR l a k n col up ih =>
    intro s
    rw [Path.plug, ih]
    simp only [Tree.SizeOK, Path.SizeOK, Tree.sz_node]
    tauto

theorem Color.eq_black_of_ne_red {c : Color} (h : ¬ c = Color.RED) : c = Color.BLACK := by
  cases c with
  | RED => exact absurd rfl h
  | BLACK => rfl

@[simp] theorem Path.parCol_top : Path.top.parCol = Color.BLACK := rfl
@[simp] theorem Path.parCol_inL (a : Nat) (k : Int) (n : Nat) (c : Color) (r : Tree) (up : Path) :
    (Path.inL a k n c r up).parCol = c := rfl
@[simp] theorem Path.parCol_inR (l : Tree) (a : Nat) (k : Int) (n : Nat) (c : Color) (up : Path) :
    (Path.inR l a k n c up).parCol = c := rfl

theorem Path.noRedRed_plug (c : Path) : ∀ s : Tree,
    (c.plug s).NoRedRed ↔ s.NoRedRed ∧ c.NoRedRed ∧ (c.parCol = Color.RED → s.col = Color.BLACK) := by
  induction c with
  | top => intro s; simp [Path.plug, Path.NoRedRed]
  | inL a k n col r up ih =>
    intro s
    rw [Path.plug, ih]
    simp only [Tree.NoRedRed, Path.NoRedRed, Tree.col_node, Path.parCol_inL, Path.parCol_inR]
    cases col <;> cases hu : up.parCol <;> simp <;> tauto
  | inR l a k n col up ih =>
    intro s
    rw [Path.plug, ih]
    simp only [Tree.NoRedRed, Path.NoRedRed, Tree.col_node, Path.parCol_inL, Path.parCol_inR]
    cases col <;> cases hu : up.parCol <;> simp <;> tauto

theorem ins_fix_keys (c : Path) (s : Tree) : (ins_fix c s).keys = (c.plug s).keys := by
  induction c, s using ins_fix.induct
  case case8 l p kp np g kg ng cg u up s hu ih =>
    cases s <;> simp_all [ins_fix, Path.plug, Path.plug_keys, Tree.keys]
  case case11 p kp np r u g kg ng cg up s hu ih =>
    cases s <;> simp_all [ins_fix, Path.plug, Path.plug_keys, Tree.keys]
  all_goals simp_all [ins_fix, Path.plug, Path.plug_keys, Tree.keys]

theorem ins_fix_addrs (c : Path) (s : Tree) : (ins_fix c s).addrs = (c.plug s).addrs := by
  induction c, s using ins_fix.induct
  case case8 l p kp np g kg ng cg u up s hu ih =>
    cases s <;> simp_all [ins_fix, Path.plug, Path.plug_addrs, Tree.addrs]
  case case11 p kp np r u g kg ng cg up s hu ih =>
    cases s <;> simp_all [ins_fix, Path.plug, Path.plug_addrs, Tree.addrs]
  all_goals simp_all [ins_fix, Path.plug, Path.plug_addrs, Tree.addrs]

theorem ins_fix_sizeOK (c : Path) (s : Tree) :
    s.SizeOK → c.SizeOK s.sz → (ins_fix c s).SizeOK := by
  induction c, s using ins_fix.induct
  case case1 s =>
    intro h1 _
    rw [ins_fix]; exact Tree.blacken_sizeOK h1
  case case2 p kp np r up s =>
    intro h1 h2
    rw [ins_fix]; exact Tree.blacken_sizeOK ((Path.sizeOK_plug _ _).2 ⟨h1, h2⟩)
  case case3 l p kp np up s =>
    intro h1 h2
    rw [ins_fix]; exact Tree.blacken_sizeOK ((Path.sizeOK_plug _ _).2 ⟨h1, h2⟩)
  case case4 p kp np r s =>
    intro h1 h2
    rw [ins_fix]; exact Tree.blacken_sizeOK ((Path.sizeOK_plug _ _).2 ⟨h1, h2⟩)
  case case5 l p kp np s =>
    intro h1 h2
    rw [ins_fix]; exact Tree.blacken_sizeOK ((Path.sizeOK_plug _ _).2 ⟨h1, h2⟩)
  case case6 p kp np r g kg ng cg u up s hu ih =>
    intro h1 h2
    rw [ins_fix, if_pos hu]
    simp only [Path.SizeOK] at h2
    apply ih
    · simp only [Tree.SizeOK, Tree.sz_node, Tree.blacken_sz]
      exact ⟨h2.2.2.1, ⟨h2.1, h1, h2.2.1⟩, Tree.blacken_sizeOK h2.2.2.2.1⟩
    · exact h2.2.2.2.2
  case case7 p kp np r g kg ng cg u up s hu =>
    intro h1 h2
    rw [ins_fix, if_neg hu]
    simp only [Path.SizeOK] at h2
    apply Tree.blacken_sizeOK
    rw [Path.sizeOK_plug]
    simp only [Path.SizeOK, Tree.SizeOK, Tree.sz_node]
    refine ⟨h1, ?_, ⟨trivial, h2.2.1, h2.2.2.2.1⟩, h2.2.2.2.2⟩
    omega
  case case8 l p kp np g kg ng cg u up s hu ih =>
    intro h1 h2
    simp only [Path.SizeOK] at h2
    have e : ins_fix (Path.inR l p kp np Color.RED (Path.inL g kg ng cg u up)) s
        = ins_fix up (Tree.node (Tree.node l p kp np Color.BLACK s) g kg ng Color.RED
          u.blacken) := by
      cases s <;> simp [ins_fix, hu]
    rw [e]
    apply ih
    · simp only [Tree.SizeOK, Tree.sz_node, Tree.blacken_sz]
      exact ⟨h2.2.2.1, ⟨h2.1, h2.2.1, h1⟩, Tree.blacken_sizeOK h2.2.2.2.1⟩
    · exact h2.2.2.2.2
  case case9 l p kp np g kg ng cg u up hu =>
    intro h1 h2
    rw [ins_fix]
    simp only [if_neg hu]
    exact Tree.blacken_sizeOK ((Path.sizeOK_plug _ _).2 ⟨h1, h2⟩)
  case case10 l p kp np g kg ng cg u up hu sl x kx nx cx sr ih =>
    intro h1 h2
    rw [ins_fix]
    simp only [if_neg hu]
    simp only [Path.SizeOK, Tree.sz_node] at h2
    simp only [Tree.SizeOK] at h1
    apply ih
    · simp only [Tree.SizeOK, Tree.sz_node]
      refine ⟨?_, h2.2.1, trivial, h1.2.1, h1.2.2⟩
      omega
    · simp only [Path.SizeOK, Tree.sz_node]
      exact h2.2.2
  case case11 p kp np r u g kg ng cg up s hu ih =>
    intro h1 h2
    simp only [Path.SizeOK] at h2
    have e : ins_fix (Path.inL p kp np Color.RED r (Path.inR u g kg ng cg up)) s
        = ins_fix up (Tree.node u.blacken g kg ng Color.RED
          (Tree.node s p kp np Color.BLACK r)) := by
      cases s <;> simp [ins_fix, hu]
    rw [e]
    apply ih
    · simp only [Tree.SizeOK, Tree.sz_node, Tree.blacken_sz]
      exact ⟨h2.2.2.1, Tree.blacken_sizeOK h2.2.2.2.1, h2.1, h1, h2.2.1⟩
    · exact h2.2.2.2.2
  case case12 p kp np r u g kg ng cg up hu =>
    intro h1 h2
    rw [ins_fix]
    simp only [if_neg hu]
    exact Tree.blacken_sizeOK ((Path.sizeOK_plug _ _).2 ⟨h1, h2⟩)
  case case13 p kp np r u g kg ng cg up hu sl x kx nx cx sr ih =>
    intro h1 h2
    rw [ins_fix]
    simp only [if_neg hu]
    simp only [Path.SizeOK, Tree.sz_node] at h2
    simp only [Tree.SizeOK] at h1
    apply ih
    · simp only [Tree.SizeOK, Tree.sz_node]
      refine ⟨?_, ⟨trivial, h1.2.1, h1.2.2⟩, h2.2.1⟩
      omega
    · simp only [Path.SizeOK, Tree.sz_node]
      exact h2.2.2
  case case14 l p kp np u g kg ng cg up s hu ih =>
    intro h1 h2
    rw [ins_fix, if_pos hu]
    simp only [Path.SizeOK] at h2
    apply ih
    · simp only [Tree.SizeOK, Tree.sz_node, Tree.blacken_sz]
      exact ⟨h2.2.2.1, Tree.blacken_sizeOK h2.2.2.2.1, h2.1, h2.2.1, h1⟩
    · exact h2.2.2.2.2
  case case15 l p kp np u g kg ng cg up s hu =>
    intro h1 h2
    rw [ins_fix, if_neg hu]
    simp only [Path.SizeOK] at h2
    apply Tree.blacken_sizeOK
    rw [Path.sizeOK_plug]
    simp only [Path.SizeOK, Tree.SizeOK, Tree.sz_node]
    refine ⟨h1, ?_, ⟨trivial, h2.2.2.2.1, h2.2.1⟩, h2.2.2.2.2⟩
    omega

theorem ins_fix_col (c : Path) (s : Tree) : (ins_fix c s).col = Color.BLACK := by
  induction c, s using ins_fix.induct
  case case8 l p kp np g kg ng cg u up s hu ih =>
    cases s <;> simp_all [ins_fix]
  case case11 p kp np r u g kg ng cg up s hu ih =>
    cases s <;> simp_all [ins_fix]
  all_goals simp_all [ins_fix]

theorem ins_fix_noRedRed (c : Path) (s : Tree) :
    s.NoRedRed → c.NoRedRed → c.RootBlack → (s.col = Color.RED ∨ c.parCol = Color.BLACK) →
    (ins_fix c s).NoRedRed := by
  induction c, s using ins_fix.induct
  case case1 s =>
    intro h1 _ _ _
    rw [ins_fix]; exact Tree.blacken_noRedRed h1
  case case2 p kp np r up s =>
    intro h1 h2 _ _
    rw [ins_fix]
    exact Tree.blacken_noRedRed ((Path.noRedRed_plug _ _).2 ⟨h1, h2, by simp⟩)
  case case3 l p kp np up s =>
    intro h1 h2 _ _
    rw [ins_fix]
    exact Tree.blacken_noRedRed ((Path.noRedRed_plug _ _).2 ⟨h1, h2, by simp⟩)
  case case4 p kp np r s =>
    intro h1 h2 h3 _
    simp [Path.RootBlack] at h3
  case case5 l p kp np s =>
    intro h1 h2 h3 _
    simp [Path.RootBlack] at h3
  case case6 p kp np r g kg ng cg u up s hu ih =>
    intro h1 h2 h3 h4
    rw [ins_fix, if_pos hu]
    apply ih
    · simp_all [Tree.NoRedRed, Path.NoRedRed, Tree.blacken_noRedRed]
    · simp_all [Tree.NoRedRed, Path.NoRedRed]
    · exact h3.up_inL.up_inL
    · exact Or.inl rfl
  case case7 p kp np r g kg ng cg u up s hu =>
    intro h1 h2 h3 h4
    rw [ins_fix, if_neg hu]
    apply Tree.blacken_noRedRed
    rw [Path.noRedRed_plug]
    have := Color.eq_black_of_ne_red hu
    simp_all [Tree.NoRedRed, Path.NoRedRed]
  case case8 l p kp np g kg ng cg u up s hu ih =>
    intro h1 h2 h3 h4
    have e : ins_fix (Path.inR l p kp np Color.RED (Path.inL g kg ng cg u up)) s
        = ins_fix up (Tree.node (Tree.node l p kp np Color.BLACK s) g kg ng Color.RED
          u.blacken) := by
      cases s <;> simp [ins_fix, hu]
    rw [e]
    apply ih
    · simp_all [Tree.NoRedRed, Path.NoRedRed, Tree.blacken_noRedRed]
    · simp_all [Tree.NoRedRed, Path.NoRedRed]
    · exact h3.up_inR.up_inL
    · exact Or.inl rfl
  case case9 l p kp np g kg ng cg u up hu =>
    intro h1 h2 h3 h4
    simp at h4
  case case10 l p kp np g kg ng cg u up hu sl x kx nx cx sr ih =>
    intro h1 h2 h3 h4
    rw [ins_fix]
    simp only [if_neg hu]
    apply ih
    · simp_all [Tree.NoRedRed, Path.NoRedRed]
    · simp_all [Tree.NoRedRed, Path.NoRedRed]
    · exact h3.up_inR
    · simp_all [Tree.NoRedRed, Path.NoRedRed]
  case case11 p kp np r u g kg ng cg up s hu ih =>
    intro h1 h2 h3 h4
    have e : ins_fix (Path.inL p kp np Color.RED r (Path.inR u g kg ng cg up)) s
        = ins_fix up (Tree.node u.blacken g kg ng Color.RED
          (Tree.node s p kp np Color.BLACK r)) := by
      cases s <;> simp [ins_fix, hu]
    rw [e]
    apply ih
    · simp_all [Tree.NoRedRed, Path.NoRedRed, Tree.blacken_noRedRed]
    · simp_all [Tree.NoRedRed, Path.NoRedRed]
    · exact h3.up_inL.up_inR
    · exact Or.inl rfl
  case case12 p kp np r u g kg ng cg up hu =>
    intro h1 h2 h3 h4
    simp at h4
  case case13 p kp np r u g kg ng cg up hu sl x kx nx cx sr ih =>
    intro h1 h2 h3 h4
    rw [ins_fix]
    simp only [if_neg hu]
    apply ih
    · simp_all [Tree.NoRedRed, Path.NoRedRed]
    · simp_all [Tree.NoRedRed, Path.NoRedRed]
    · exact h3.up_inL
    · simp_all [Tree.NoRedRed, Path.NoRedRed]
  case case14 l p kp np u g kg ng cg up s hu ih =>
    intro h1 h2 h3 h4
    rw [ins_fix, if_pos hu]
    apply ih
    · simp_all [Tree.NoRedRed, Path.NoRedRed, Tree.blacken_noRedRed]
    · simp_all [Tree.NoRedRed, Path.NoRedRed]
    · exact h3.up_inR.up_inR
    · exact Or.inl rfl
  case case15 l p kp np u g kg ng cg up s hu =>
    intro h1 h2 h3 h4
    rw [ins_fix, if_neg hu]
    apply Tree.blacken_noRedRed
    rw [Path.noRedRed_plug]
    have := Color.eq_black_of_ne_red hu
    simp_all [Tree.NoRedRed, Path.NoRedRed]

theorem descend_sizeOK (key : Int) (s : Tree) : ∀ c : Path, s.SizeOK → c.SizeOK (s.sz + 1) →
    (descend key s c).SizeOK 1 := by
  induction s with
  | leaf => intro c _ h; exact h
  | node l a k n col r ihl ihr =>
    intro c h1 h2
    simp only [Tree.SizeOK] at h1
    simp only [Tree.sz_node] at h2
    rw [descend]
    split_ifs with hk
    · apply ihl _ h1.2.1
      simp only [Path.SizeOK]
      exact ⟨by omega, h1.2.2, h2⟩
    · apply ihr _ h1.2.2
      simp only [Path.SizeOK]
      exact ⟨by omega, h1.2.1, h2⟩

theorem descend_noRedRed (key : Int) (s : Tree) : ∀ c : Path, s.NoRedRed → c.NoRedRed →
    (c.parCol = Color.RED → s.col = Color.BLACK) → (descend key s c).NoRedRed := by
  induction s with
  | leaf => intro c _ h _; exact h
  | node l a k n col r ihl ihr =>
    intro c h1 h2 h3
    rw [descend]
    split_ifs with hk
    · apply ihl
      · exact h1.2.1
      · cases col <;> cases hc : c.parCol <;> simp_all [Tree.NoRedRed, Path.NoRedRed]
      · cases col <;> simp_all [Tree.NoRedRed, Path.NoRedRed]
    · apply ihr
      · exact h1.2.2
      · cases col <;> cases hc : c.parCol <;> simp_all [Tree.NoRedRed, Path.NoRedRed]
      · cases col <;> simp_all [Tree.NoRedRed, Path.NoRedRed]

theorem descend_keys (key : Int) (s : Tree) : ∀ c : Path,
    (descend key s c).keysBefore ++ (descend key s c).keysAfter
      = c.keysBefore ++ (s.keys ++ c.keysAfter) := by
  induction s with
  | leaf => intro c; simp [descend, Tree.keys]
  | node l a k n col r ihl ihr =>
    intro c
    rw [descend]
    split_ifs with hk
    · rw [ihl]; simp [Path.keysBefore, Path.keysAfter, Tree.keys]
    · rw [ihr]; simp [Path.keysBefore, Path.keysAfter, Tree.keys]

theorem descend_bounds (key : Int) (s : Tree) : ∀ c : Path,
    (c.keysBefore ++ (s.keys ++ c.keysAfter)).Sorted (· ≤ ·) →
    (∀ b ∈ c.keysBefore, b ≤ key) → (∀ a ∈ c.keysAfter, key < a) →
    (∀ b ∈ (descend key s c).keysBefore, b ≤ key) ∧
      (∀ a ∈ (descend key s c).keysAfter, key < a) := by
  induction s with
  | leaf => intro c _ h1 h2; exact ⟨h1, h2⟩
  | node l a k n col r ihl ihr =>
    intro c hs0 h1 h2
    rw [descend]
    have hs := hs0
    simp only [Tree.keys, List.Sorted, List.pairwise_append, List.pairwise_cons, List.mem_append,
      List.mem_cons] at hs
    split_ifs with hk
    · apply ihl
      · have e : (Path.inL a k (n + 1) col r c).keysBefore
            ++ (l.keys ++ (Path.inL a k (n + 1) col r c).keysAfter)
            = c.keysBefore ++ ((Tree.node l a k n col r).keys ++ c.keysAfter) := by
          simp [Path.keysBefore, Path.keysAfter, Tree.keys]
        rw [e]; exact hs0
      · exact h1
      · intro a ha
        simp only [Path.keysAfter, List.mem_append, List.mem_cons, List.cons_append] at ha
        rcases ha with rfl | ha | ha
        · exact hk
        · have := hs.2.1.1.2.1.1 a ha
          omega
        · exact h2 a ha
    · apply ihr
      · have e : (Path.inR l a k (n + 1) col c).keysBefore
            ++ (r.keys ++ (Path.inR l a k (n + 1) col c).keysAfter)
            = c.keysBefore ++ ((Tree.node l a k n col r).keys ++ c.keysAfter) := by
          simp [Path.keysBefore, Path.keysAfter, Tree.keys]
        rw [e]; exact hs0
      · intro b hb
        simp only [Path.keysBefore, List.mem_append, List.mem_cons, List.not_mem_nil,
          or_false] at hb
        rcases hb with hb | hb | rfl
        · exact h1 b hb
        · have := hs.2.1.1.2.2 b hb k (Or.inl rfl)
          omega
        · omega
      · exact h2

theorem ins_col (key : Int) (x : Nat) (s : Tree) : (ins key x s).col = Color.BLACK :=
  ins_fix_col _ _

theorem ins_sizeOK (key : Int) (x : Nat) {s : Tree} (h : s.SizeOK) : (ins key x s).SizeOK := by
  apply ins_fix_sizeOK
  · simp [Tree.SizeOK]
  · exact descend_sizeOK key s Path.top h trivial

theorem ins_noRedRed (key : Int) (x : Nat) {s : Tree} (h : s.NoRedRed)
    (hb : s.col = Color.BLACK) : (ins key x s).NoRedRed := by
  apply ins_fix_noRedRed
  · simp [Tree.NoRedRed]
  · exact descend_noRedRed key s Path.top h trivial (fun _ => hb)
  · exact descend_rootBlack key s Path.top trivial (fun _ => hb)
  · exact Or.inl rfl

theorem ins_keys (key : Int) (x : Nat) (s : Tree) :
    (ins key x s).keys
      = (descend key s Path.top).keysBefore ++ key :: (descend key s Path.top).keysAfter := by
  rw [ins, ins_fix_keys, Path.plug_keys]
  simp [Tree.keys]

theorem ins_perm (key : Int) (x : Nat) (s : Tree) : (ins key x s).keys.Perm (key :: s.keys) := by
  rw [ins_keys]
  have := descend_keys key s Path.top
  simp only [Path.keysBefore, Path.keysAfter, List.nil_append, List.append_nil] at this
  rw [← this]
  exact List.perm_middle

theorem ins_sorted (key : Int) (x : Nat) {s : Tree} (h : s.keys.Sorted (· ≤ ·)) :
    (ins key x s).keys.Sorted (· ≤ ·) := by
  rw [ins_keys]
  have e := descend_keys key s Path.top
  simp only [Path.keysBefore, Path.keysAfter, List.nil_append, List.append_nil] at e
  have hb := descend_bounds key s Path.top
    (by simpa [Path.keysBefore, Path.keysAfter] using h)
    (by simp [Path.keysBefore]) (by simp [Path.keysAfter])
  rw [← e] at h
  simp only [List.Sorted, List.pairwise_append, List.pairwise_cons, List.mem_cons] at h ⊢
  refine ⟨h.1, ⟨fun a ha => le_of_lt (hb.2 a ha), h.2.1⟩, ?_⟩
  intro a ha b hb2
  rcases hb2 with rfl | hb2
  · exact hb.1 a ha
  · exact h.2.2 a ha b hb2

theorem Wf_empty (init : Nat → Order_node) : Wf (Order_tree.empty init) Tree.leaf := by
  refine ⟨rfl, trivial, List.nodup_nil, ?_, Nat.one_pos, ?_, ?_⟩
  · intro a ha; simp [Tree.addrs] at ha
  · simp [Order_tree.empty, upd]
  · simp [Order_tree.empty, upd]

/-- What a run of inserts keeps true. -/
theorem insertAll_inv (keys : List Int) : ∀ (t : Order_tree) (s : Tree), Wf t s →
    s.col = Color.BLACK →
    ∃ t2 s2, insertAll t keys = some t2 ∧ Wf t2 s2 ∧ s2.col = Color.BLACK
      ∧ (s.SizeOK → s2.SizeOK) ∧ (s.NoRedRed → s2.NoRedRed)
      ∧ (s.keys.Sorted (· ≤ ·) → s2.keys.Sorted (· ≤ ·))
      ∧ s2.keys.Perm (keys ++ s.keys) := by
  induction keys with
  | nil =>
    intro t s h hb
    exact ⟨t, s, rfl, h, hb, id, id, id, List.Perm.refl _⟩
  | cons k ks ih =>
    intro t s h hb
    obtain ⟨t1, e1, w1, _⟩ := insert_refines h hb k
    obtain ⟨t2, s2, e2, w2, b2, z2, r2, o2, p2⟩ := ih t1 _ w1 (ins_col _ _ _)
    refine ⟨t2, s2, ?_, w2, b2, ?_, ?_, ?_, ?_⟩
    · simp [insertAll, e1, e2]
    · exact fun hz => z2 (ins_sizeOK _ _ hz)
    · exact fun hr => r2 (ins_noRedRed _ _ hr hb)
    · exact fun ho => o2 (ins_sorted _ _ ho)
    · refine p2.trans ?_
      have := (ins_perm k t.next s).append_left ks
      refine this.trans ?_
      simp only [List.cons_append]
      exact List.perm_middle

theorem insertAll_empty (init : Nat → Order_node) (keys : List Int) :
    ∃ t s, insertAll (Order_tree.empty init) keys = some t ∧ Wf t s ∧ s.col = Color.BLACK
      ∧ s.SizeOK ∧ s.NoRedRed ∧ s.keys.Sorted (· ≤ ·) ∧ s.keys.Perm keys := by
  obtain ⟨t, s, e, w, b, z, r, o, p⟩ := insertAll_inv keys _ _ (Wf_empty init) rfl
  refine ⟨t, s, e, w, b, z trivial, r trivial, o (by simp [Tree.keys]), ?_⟩
  simpa [Tree.keys] using p

theorem Path.comp_plug (c d : Path) : ∀ s : Tree, (c.comp d).plug s = d.plug (c.plug s) := by
  induction c with
  | top => intro s; rfl
  | inL a k n col r up ih => intro s; simp only [Path.comp, Path.plug, ih]
  | inR l a k n col up ih => intro s; simp only [Path.comp, Path.plug, ih]

/-- Every node of a tree is the root of a subtree at some position. -/
theorem Tree.exists_path {s : Tree} {a : Nat} (h : a ∈ s.addrs) :
    ∃ c l k n col r, s = Path.plug c (Tree.node l a k n col r) := by
  induction s with
  | leaf => simp [Tree.addrs] at h
  | node L b kb nb cb R ihl ihr =>
    simp only [Tree.addrs, List.mem_append, List.mem_cons] at h
    rcases h with h | rfl | h
    · obtain ⟨c, l, k, n, col, r, e⟩ := ihl h
      refine ⟨c.comp (Path.inL b kb nb cb R Path.top), l, k, n, col, r, ?_⟩
      rw [Path.comp_plug, ← e]; rfl
    · exact ⟨Path.top, L, kb, nb, cb, R, rfl⟩
    · obtain ⟨c, l, k, n, col, r, e⟩ := ihr h
      refine ⟨c.comp (Path.inR L b kb nb cb Path.top), l, k, n, col, r, ?_⟩
      rw [Path.comp_plug, ← e]; rfl

theorem Tree.ptr_mem_addrs {s : Tree} (h : s.ptr ≠ nil) : s.ptr ∈ s.addrs := by
  rcases s.ptr_mem with h1 | h1
  · exact absurd h1 h
  · exact h1

theorem Wf.isNode_mem {t : Order_tree} {s : Tree} (h : Wf t s) {a : Nat} (ha : IsNode t a) :
    a ∈ s.addrs := by
  induction ha with
  | root h0 =>
    rw [h.root] at h0 ⊢
    exact Tree.ptr_mem_addrs h0
  | left _ h0 ih =>
    obtain ⟨c, l, k, n, col, r, e⟩ := Tree.exists_path ih
    subst e
    rw [h.read] at h0 ⊢
    have := Tree.ptr_mem_addrs h0
    rw [Path.plug_addrs]
    simp [Tree.addrs, this]
  | right _ h0 ih =>
    obtain ⟨c, l, k, n, col, r, e⟩ := Tree.exists_path ih
    subst e
    rw [h.read] at h0 ⊢
    have := Tree.ptr_mem_addrs h0
    rw [Path.plug_addrs]
    simp [Tree.addrs, this]

theorem Wf.parent_color {t : Order_tree} {c : Path} {s : Tree} (h : Wf t (c.plug s)) :
    (t.mem c.par).color = c.parCol := by
  cases c with
  | top => exact h.nil_color
  | inL p kp np cp r up =>
    have hP : Wf t (up.plug (.node s p kp np cp r)) := h
    simp [hP.read]
  | inR l p kp np cp up =>
    have hP : Wf t (up.plug (.node l p kp np cp s)) := h
    simp [hP.read]

theorem Tree.sz_eq_length {s : Tree} (h : s.SizeOK) : s.sz = s.keys.length := by
  induction s with
  | leaf => rfl
  | node l a k n c r ihl ihr =>
    simp only [Tree.SizeOK] at h
    simp only [Tree.sz_node, Tree.keys, List.length_append, List.length_cons, h.1, ihl h.2.1,
      ihr h.2.2]
    omega

theorem Wf.size_root {t : Order_tree} {s : Tree} (h : Wf t s) : size t = s.sz := by
  have := h.rep.size_eq h.nil_size
  rw [size, h.root]; exact this

/-- In a well-formed tree whose abstract size fields are consistent, the size invariant
holds at every node of the pointer structure. -/
theorem Wf.size_at {t : Order_tree} {s : Tree} (h : Wf t s) (hz : s.SizeOK) {a : Nat}
    (ha : IsNode t a) :
    (t.mem a).size = (t.mem (t.mem a).left).size + (t.mem (t.mem a).right).size + 1 := by
  obtain ⟨c, l, k, n, col, r, e⟩ := Tree.exists_path (h.isNode_mem ha)
  subst e
  have hL : Wf t ((Path.inL a k n col r c).plug l) := h
  have hR : Wf t ((Path.inR l a k n col c).plug r) := h
  have h1 := ((Path.sizeOK_plug _ _).1 hz).1
  simp only [Tree.SizeOK] at h1
  simp [h.read, hL.size_ptr, hR.size_ptr, h1.1]

/-- In a well-formed tree without abstract red-red edges, the parent of every RED node of
the pointer structure is BLACK. -/
theorem Wf.red_parent_black {t : Order_tree} {s : Tree} (h : Wf t s) (hr : s.NoRedRed)
    {a : Nat} (ha : IsNode t a) (hc : (t.mem a).color = Color.RED) :
    (t.mem (t.mem a).parent).color = Color.BLACK := by
  obtain ⟨c, l, k, n, col, r, e⟩ := Tree.exists_path (h.isNode_mem ha)
  subst e
  have h1 := ((Path.noRedRed_plug _ _).1 hr).2.2
  rw [h.read] at hc
  simp only [Tree.col_node] at h1 hc
  subst hc
  have h2 := h.parent_color
  simp only [h.read]
  rw [h2]
  cases hp : c.parCol with
  | RED => exact absurd (h1 hp) (by simp)
  | BLACK => rfl

set_option maxRecDepth 100000 in
/-- C1 (the code breaks the claim): after inserting 1..7 and erasing 4, the node holding
key 5 has taken the place of the erased node (it is the right child of the root) but
keeps its old size field 1, while its two children have size fields 1 and 3. -/
theorem erase_two_children_breaks_size_invariant :
    ∃ t, run (Order_tree.empty zeroStore)
        [Op.ins 1, Op.ins 2, Op.ins 3, Op.ins 4, Op.ins 5, Op.ins 6, Op.ins 7, Op.del 4] = some t
      ∧ IsNode t 5 ∧ (t.mem 5).key = 5 ∧ (t.mem 5).size = 1
      ∧ (t.mem (t.mem 5).left).size + (t.mem (t.mem 5).right).size + 1 = 5 := by
  have h : (run (Order_tree.empty zeroStore)
      [Op.ins 1, Op.ins 2, Op.ins 3, Op.ins 4, Op.ins 5, Op.ins 6, Op.ins 7, Op.del 4]).map
      (fun t => ([t.root, (t.mem t.root).right, (t.mem 5).size,
        (t.mem (t.mem 5).left).size + (t.mem (t.mem 5).right).size + 1], (t.mem 5).key))
      = some ([2, 5, 1, 5], 5) := by decide
  cases hX : run (Order_tree.empty zeroStore)
      [Op.ins 1, Op.ins 2, Op.ins 3, Op.ins 4, Op.ins 5, Op.ins 6, Op.ins 7, Op.del 4] with
  | none => rw [hX] at h; simp at h
  | some t =>
    rw [hX] at h
    simp only [Option.map_some', Option.some.injEq, Prod.mk.injEq, List.cons.injEq, and_true]
      at h
    obtain ⟨⟨h1, h2, h3, h4⟩, h5⟩ := h
    refine ⟨t, rfl, ?_, h5, h3, h4⟩
    have hr : IsNode t t.root := IsNode.root (by rw [h1]; decide)
    have hn := IsNode.right hr (by rw [h2]; decide)
    rw [h2] at hn
    exact hn

set_option maxRecDepth 100000 in
/-- C2 (the code breaks the claim): after inserting 1, 3, 2 (the new node 2 is the inner
grandchild of 1 below the RED parent 3, the uncle being the sentinel) the four paths
from the root to the sentinel pass through 1, 2, 2 and 2 BLACK nodes. -/
theorem insert_inner_case_breaks_black_height :
    ∃ t, insertAll (Order_tree.empty zeroStore) [1, 3, 2] = some t
      ∧ black_counts t t.next t.root = some [1, 2, 2, 2] := by
  have h : (insertAll (Order_tree.empty zeroStore) [1, 3, 2]).map
      (fun t => black_counts t t.next t.root) = some (some [1, 2, 2, 2]) := by decide
  cases hX : insertAll (Order_tree.empty zeroStore) [1, 3, 2] with
  | none => rw [hX] at h; simp at h
  | some t =>
    rw [hX] at h
    simp only [Option.map_some', Option.some.injEq] at h
    exact ⟨t, rfl, h⟩

/-- C3: after any sequence of inserts into the empty tree, every node of the tree
satisfies `size == left.size + right.size + 1`, the sentinel's size is 0, and the root's
size is the number of keys inserted. -/
theorem insert_keeps_size_invariant (init : Nat → Order_node) (keys : List Int) :
    ∃ t, insertAll (Order_tree.empty init) keys = some t
      ∧ (∀ a, IsNode t a →
          (t.mem a).size = (t.mem (t.mem a).left).size + (t.mem (t.mem a).right).size + 1)
      ∧ (t.mem nil).size = 0
      ∧ size t = keys.length := by
  obtain ⟨t, s, e, w, _, z, _, _, p⟩ := insertAll_empty init keys
  refine ⟨t, e, fun a ha => w.size_at z ha, w.nil_size, ?_⟩
  rw [w.size_root, Tree.sz_eq_length z, p.length_eq]

set_option maxRecDepth 100000 in
/-- C4 (the code breaks the claim): after inserting 2, 1, 3 and erasing 2 (the root, with
two children) the tree still stores the two keys 1 and 3, but the root's size field
is 1. -/
theorem erase_root_with_two_children_breaks_size :
    ∃ t ns, run (Order_tree.empty zeroStore) [Op.ins 2, Op.ins 1, Op.ins 3, Op.del 2] = some t
      ∧ inorder_walk t t.next t.root = some ns
      ∧ ns.map (fun a => (t.mem a).key) = [1, 3]
      ∧ size t = 1 := by
  have h : (run (Order_tree.empty zeroStore) [Op.ins 2, Op.ins 1, Op.ins 3, Op.del 2]).map
      (fun t => ((inorder_walk t t.next t.root).map (fun ns => ns.map (fun a => (t.mem a).key)),
        size t)) = some (some [1, 3], 1) := by decide
  cases hX : run (Order_tree.empty zeroStore) [Op.ins 2, Op.ins 1, Op.ins 3, Op.del 2] with
  | none => rw [hX] at h; simp at h
  | some t =>
    rw [hX] at h
    simp only [Option.map_some', Option.some.injEq, Prod.mk.injEq] at h
    obtain ⟨h1, h2⟩ := h
    cases hW : inorder_walk t t.next t.root with
    | none => rw [hW] at h1; simp at h1
    | some ns =>
      rw [hW] at h1
      simp only [Option.map_some', Option.some.injEq] at h1
      exact ⟨t, ns, rfl, hW, h1, h2⟩

set_option maxRecDepth 100000 in
/-- C5 (the code breaks the claim): after inserting 4, 2, 6, 1, 3, 5, 7 and erasing 2, the
node holding key 3 (address 5, the root's left child) has rank 2, and `select(2)`
returns the root (address 1, key 4) instead of that node. -/
theorem select_rank_after_erase_returns_other_node :
    ∃ t, run (Order_tree.empty zeroStore)
        [Op.ins 4, Op.ins 2, Op.ins 6, Op.ins 1, Op.ins 3, Op.ins 5, Op.ins 7, Op.del 2] = some t
      ∧ IsNode t 5 ∧ (t.mem 5).key = 3 ∧ rank t 5 = some 2 ∧ select t 2 = some 1 := by
  have h : (run (Order_tree.empty zeroStore)
      [Op.ins 4, Op.ins 2, Op.ins 6, Op.ins 1, Op.ins 3, Op.ins 5, Op.ins 7, Op.del 2]).map
      (fun t => ([some t.root, some (t.mem t.root).left, rank t 5, select t 2], (t.mem 5).key))
      = some ([some 1, some 5, some 2, some 1], 3) := by decide
  cases hX : run (Order_tree.empty zeroStore)
      [Op.ins 4, Op.ins 2, Op.ins 6, Op.ins 1, Op.ins 3, Op.ins 5, Op.ins 7, Op.del 2] with
  | none => rw [hX] at h; simp at h
  | some t =>
    rw [hX] at h
    simp only [Option.map_some', Option.some.injEq, Prod.mk.injEq, List.cons.injEq, and_true]
      at h
    obtain ⟨⟨h1, h2, h3, h4⟩, h5⟩ := h
    refine ⟨t, rfl, ?_, h5, h3, h4⟩
    have hr : IsNode t t.root := IsNode.root (by rw [h1]; decide)
    have hn := IsNode.left hr (by rw [h2]; decide)
    rw [h2] at hn
    exact hn

/-- C9: after any sequence of inserts into the empty tree the root is BLACK and the
parent of every RED node of the tree is BLACK. -/
theorem insert_keeps_root_black_no_red_red (init : Nat → Order_node) (keys : List Int) :
    ∃ t, insertAll (Order_tree.empty init) keys = some t
      ∧ (t.mem t.root).color = Color.BLACK
      ∧ ∀ a, IsNode t a → (t.mem a).color = Color.RED →
          (t.mem (t.mem a).parent).color = Color.BLACK := by
  obtain ⟨t, s, e, w, b, _, r, _, _⟩ := insertAll_empty init keys
  refine ⟨t, e, ?_, fun a ha hc => w.red_parent_black r ha hc⟩
  have := w.rep.color_eq w.nil_color
  rw [w.root, this, b]

theorem Wf.isNode_focus {t : Order_tree} (c : Path) : ∀ {s : Tree}, Wf t (c.plug s) →
    s.ptr ≠ nil → IsNode t s.ptr := by
  induction c with
  | top =>
    intro s h h0
    have := h.root
    simp only [Path.plug] at this
    rw [← this] at h0 ⊢
    exact IsNode.root h0
  | inL p kp np cp r up ih =>
    intro s h h0
    have hP : Wf t (up.plug (.node s p kp np cp r)) := h
    have h1 := ih hP hP.ptr_ne_nil
    have h2 := hP.read
    simp only [Tree.ptr_node] at h1
    have h3 : (t.mem p).left = s.ptr := by rw [h2]
    rw [← h3] at h0 ⊢
    exact IsNode.left h1 h0
  | inR l p kp np cp up ih =>
    intro s h h0
    have hP : Wf t (up.plug (.node l p kp np cp s)) := h
    have h1 := ih hP hP.ptr_ne_nil
    have h2 := hP.read
    simp only [Tree.ptr_node] at h1
    have h3 : (t.mem p).right = s.ptr := by rw [h2]
    rw [← h3] at h0 ⊢
    exact IsNode.right h1 h0

theorem Wf.mem_isNode {t : Order_tree} {s : Tree} (h : Wf t s) {a : Nat} (ha : a ∈ s.addrs) :
    IsNode t a := by
  obtain ⟨c, l, k, n, col, r, e⟩ := Tree.exists_path ha
  subst e
  exact Wf.isNode_focus c h h.ptr_ne_nil

theorem Wf.sizeOK_focus {t : Order_tree} (hz : SizeInvariant t) (s : Tree) :
    ∀ c : Path, Wf t (c.plug s) → s.SizeOK := by
  induction s with
  | leaf => intro _ _; trivial
  | node l a k n col r ihl ihr =>
    intro c h
    have hL : Wf t ((Path.inL a k n col r c).plug l) := h
    have hR : Wf t ((Path.inR l a k n col c).plug r) := h
    have h1 := hz a (Wf.isNode_focus c h h.ptr_ne_nil)
    rw [h.read] at h1
    simp only [hL.size_ptr, hR.size_ptr] at h1
    exact ⟨h1, ihl _ hL, ihr _ hR⟩

theorem Wf.sizeOK_of_inv {t : Order_tree} {s : Tree} (h : Wf t s) (hz : SizeInvariant t) :
    s.SizeOK :=
  Wf.sizeOK_focus hz s Path.top h

theorem Tree.length_addrs_eq_keys (s : Tree) : s.addrs.length = s.keys.length := by
  induction s with
  | leaf => rfl
  | node l a k n c r ihl ihr =>
    simp only [Tree.addrs, Tree.keys, List.length_append, List.length_cons, ihl, ihr]

theorem Tree.sz_eq_length_addrs {s : Tree} (h : s.SizeOK) : s.sz = s.addrs.length := by
  rw [Tree.sz_eq_length h, Tree.length_addrs_eq_keys]

theorem inorder_walk_refines (fuel : Nat) : ∀ (t : Order_tree) (c : Path) (s : Tree),
    Wf t (c.plug s) → s.height < fuel → inorder_walk t fuel s.ptr = some s.addrs := by
  induction fuel with
  | zero => intro t c s _ hd; omega
  | succ fuel ih =>
    intro t c s h hd
    cases s with
    | leaf => simp [inorder_walk, Tree.addrs]
    | node l a k n col r =>
      have hL : Wf t ((Path.inL a k n col r c).plug l) := h
      have hR : Wf t ((Path.inR l a k n col c).plug r) := h
      simp only [Tree.height] at hd
      have e1 := ih t _ l hL (by omega)
      have e2 := ih t _ r hR (by omega)
      simp [inorder_walk, h.ptr_ne_nil, h.read, e1, e2, Tree.addrs]

theorem Wf.inorder_walk_eq {t : Order_tree} {s : Tree} (h : Wf t s) :
    inorder_walk t t.next t.root = some s.addrs := by
  rw [h.root]
  exact inorder_walk_refines _ t Path.top s h h.height_lt

theorem Rep.map_key {m : Nat → Order_node} {s : Tree} {p : Nat} (h : Rep m s p) :
    s.addrs.map (fun a => (m a).key) = s.keys := by
  induction s generalizing p with
  | leaf => rfl
  | node l a k n c r ihl ihr =>
    obtain ⟨_, h2, h3, h4⟩ := h
    simp [Tree.addrs, Tree.keys, ihl h3, ihr h4, h2]

theorem os_select_refines (fuel : Nat) : ∀ (t : Order_tree) (c : Path) (s : Tree) (r : Nat),
    Wf t (c.plug s) → s.SizeOK → s.height < fuel → 1 ≤ r → r ≤ s.sz →
    ∃ a, s.addrs.get? (r - 1) = some a ∧ os_select t fuel s.ptr r = some a := by
  induction fuel with
  | zero => intro t c s r _ _ hd; omega
  | succ fuel ih =>
    intro t c s r h hz hd h1 h2
    cases s with
    | leaf => simp at h2; omega
    | node l a k n col rt =>
      have hL : Wf t ((Path.inL a k n col rt c).plug l) := h
      have hR : Wf t ((Path.inR l a k n col c).plug rt) := h
      simp only [Tree.height] at hd
      simp only [Tree.SizeOK] at hz
      simp only [Tree.sz_node] at h2
      have hl := Tree.sz_eq_length_addrs hz.2.1
      have hr := Tree.sz_eq_length_addrs hz.2.2
      have hls := hL.size_ptr
      have ha := h.read
      by_cases e1 : l.sz + 1 = r
      · refine ⟨a, ?_, ?_⟩
        · rw [Tree.addrs, List.get?_eq_getElem?, List.getElem?_append_right (by omega)]
          have : r - 1 - l.addrs.length = 0 := by omega
          rw [this]; simp
        · have hr0 : 0 < r := by omega
          simp [os_select, ha, hls, e1, hr0]
      · by_cases e2 : r < l.sz + 1
        · obtain ⟨b, hb1, hb2⟩ := ih t _ l r hL hz.2.1 (by omega) h1 (by omega)
          refine ⟨b, ?_, ?_⟩
          · rw [List.get?_eq_getElem?] at hb1 ⊢
            rw [Tree.addrs, List.getElem?_append_left (by omega)]
            exact hb1
          · have hr0 : 0 < r := by omega
            simp [os_select, ha, hls, e1, e2, hr0, hb2]
        · obtain ⟨b, hb1, hb2⟩ := ih t _ rt (r - (l.sz + 1)) hR hz.2.2 (by omega) (by omega)
            (by omega)
          refine ⟨b, ?_, ?_⟩
          · rw [List.get?_eq_getElem?] at hb1 ⊢
            rw [Tree.addrs, List.getElem?_append_right (by omega)]
            have : r - 1 - l.addrs.length = (r - (l.sz + 1) - 1) + 1 := by omega
            rw [this, List.getElem?_cons_succ]
            exact hb1
          · have hr0 : 0 < r := by omega
            simp [os_select, ha, hls, e1, e2, hr0, hb2]

theorem select_refines {t : Order_tree} {s : Tree} (h : Wf t s) (hz : s.SizeOK) {r : Nat}
    (h1 : 1 ≤ r) (h2 : r ≤ s.sz) :
    ∃ a, s.addrs.get? (r - 1) = some a ∧ select t r = some a := by
  have := os_select_refines t.next t Path.top s r h hz h.height_lt h1 h2
  rw [select, h.root]
  exact this

theorem scenario_keys {s : Tree} (h1 : s.keys.Sorted (· ≤ ·))
    (h2 : s.keys.Perm [10, 20, 30, 15, 25, 5, 1]) : s.keys = [1, 5, 10, 15, 20, 25, 30] := by
  have h3 : List.Sorted (· ≤ ·) ([1, 5, 10, 15, 20, 25, 30] : List Int) := by
    simp [List.Sorted]
  have h4 : List.Perm ([10, 20, 30, 15, 25, 5, 1] : List Int) [1, 5, 10, 15, 20, 25, 30] := by
    decide
  exact List.eq_of_perm_of_sorted (h2.trans h4) h1 h3

theorem Wf_singleton_tree :
    Wf singleton_tree (Tree.node Tree.leaf 1 7 1 Color.BLACK Tree.leaf) := by
  refine ⟨rfl, ?_, ?_, ?_, ?_, ?_, ?_⟩
  · exact ⟨by decide, by simp [singleton_tree, upd], trivial, trivial⟩
  · simp [Tree.addrs]
  · intro a ha
    simp [Tree.addrs] at ha
    subst ha
    decide
  · decide
  · rfl
  · rfl

theorem sizeInvariant_singleton_tree : SizeInvariant singleton_tree := by
  intro a ha
  have := Wf_singleton_tree.isNode_mem ha
  simp [Tree.addrs] at this
  subst this
  rfl

/-- C6: in a well-formed tree that satisfies the size invariant, `select(r)` for
`1 ≤ r ≤ root.size` returns (with the fuel `select` is given) the node at position `r`,
counted from 1, of the in-order walk from the root; and after inserting 10, 20,
30, 15, 25, 5, 1 into an empty tree `select(4)` returns a node whose key is 15. -/
theorem select_returns_rth_in_order :
    (∀ (t : Order_tree) (r : Nat), WellFormed t → SizeInvariant t → 1 ≤ r → r ≤ size t →
      ∃ ns a, inorder_walk t t.next t.root = some ns ∧ ns.get? (r - 1) = some a
        ∧ select t r = some a)
    ∧ (∀ init : Nat → Order_node, ∃ t a,
        insertAll (Order_tree.empty init) [10, 20, 30, 15, 25, 5, 1] = some t
        ∧ select t 4 = some a ∧ (t.mem a).key = 15) := by
  constructor
  · intro t r hw hz h1 h2
    obtain ⟨s, h⟩ := hw
    have hs := h.sizeOK_of_inv hz
    rw [h.size_root] at h2
    obtain ⟨a, e1, e2⟩ := select_refines h hs h1 h2
    exact ⟨s.addrs, a, h.inorder_walk_eq, e1, e2⟩
  · intro init
    obtain ⟨t, s, e, w, _, z, _, o, p⟩ := insertAll_empty init [10, 20, 30, 15, 25, 5, 1]
    have hk := scenario_keys o p
    have hlen : s.sz = 7 := by
      rw [Tree.sz_eq_length z, hk]; rfl
    obtain ⟨a, e1, e2⟩ := select_refines w z (by decide : 1 ≤ 4) (by omega : 4 ≤ s.sz)
    refine ⟨t, a, e, e2, ?_⟩
    have hm := w.rep.map_key
    rw [hk] at hm
    have h3 : (s.addrs.map (fun a => (t.mem a).key)).get? 3 = some 15 := by rw [hm]; rfl
    rw [List.get?_eq_getElem?, List.getElem?_map] at h3
    simp only [Nat.add_one_sub_one, List.get?_eq_getElem?] at e1
    rw [e1] at h3
    simpa using h3

/-- Witness for C6: on the one-node tree, `select(1)` is the first node of the in-order
walk. -/
theorem select_returns_rth_in_order_witness :
    WellFormed singleton_tree ∧ SizeInvariant singleton_tree ∧ 1 ≤ 1 ∧ 1 ≤ size singleton_tree
      ∧ ∃ ns a, inorder_walk singleton_tree singleton_tree.next singleton_tree.root = some ns
        ∧ ns.get? (1 - 1) = some a ∧ select singleton_tree 1 = some a :=
  ⟨⟨_, Wf_singleton_tree⟩, sizeInvariant_singleton_tree, le_refl 1, by decide,
    select_returns_rth_in_order.1 singleton_tree 1 ⟨_, Wf_singleton_tree⟩
      sizeInvariant_singleton_tree (le_refl 1) (by decide)⟩

theorem Path.rootPtr_mem (c : Path) : ∀ x : Nat, c ≠ Path.top →
    c.rootPtr x ∈ c.before ++ c.after := by
  induction c with
  | top => intro x h; exact absurd rfl h
  | inL a k n col r up ih =>
    intro x _
    by_cases hu : up = Path.top
    · subst hu; simp [Path.rootPtr, Path.before, Path.after]
    · have := ih a hu
      simp only [Path.rootPtr, Path.before, Path.after, List.mem_append, List.mem_cons] at this ⊢
      tauto
  | inR l a k n col up ih =>
    intro x _
    by_cases hu : up = Path.top
    · subst hu; simp [Path.rootPtr, Path.before, Path.after]
    · have := ih a hu
      simp only [Path.rootPtr, Path.before, Path.after, List.mem_append, List.mem_cons] at this ⊢
      tauto

theorem Wf.root_ne_focus {t : Order_tree} {c : Path} {l r : Tree} {a : Nat} {k : Int}
    {n : Nat} {col : Color} (h : Wf t (c.plug (.node l a k n col r))) (hc : c ≠ Path.top) :
    a ≠ t.root := by
  obtain ⟨hp, hr, hnd, hroot⟩ := h.split
  have hc1 := fun q => List.nodup_iff_count_le_one.1 hnd q
  simp only [Tree.addrs, List.count_append, List.count_cons, beq_iff_eq] at hc1
  have h1 := cnt_mem_append (c.rootPtr_mem a hc)
  simp only [Tree.ptr_node] at hroot
  rw [← hroot] at h1
  intro e
  have h2 := hc1 a
  rw [← e] at h1
  simp at h2
  omega

theorem Path.depth_le_length (c : Path) : c.depth ≤ c.before.length + c.after.length := by
  induction c with
  | top => simp [Path.depth]
  | inL a k n col r up ih =>
    simp only [Path.depth, Path.before, Path.after, List.length_append, List.length_cons]
    omega
  | inR l a k n col up ih =>
    simp only [Path.depth, Path.before, Path.after, List.length_append, List.length_cons,
      List.length_nil]
    omega

theorem Wf.depth_lt {t : Order_tree} {c : Path} {s : Tree} (h : Wf t (c.plug s)) :
    c.depth < t.next := by
  have h1 := h.length_lt
  rw [Path.plug_addrs] at h1
  simp only [List.length_append] at h1
  have := c.depth_le_length
  omega

theorem os_rank_loop_refines (fuel : Nat) : ∀ (t : Order_tree) (c : Path) (s : Tree)
    (rk n : Nat), Wf t (c.plug s) → s ≠ Tree.leaf → c.SizeOK n → c.depth < fuel →
    os_rank_loop t fuel s.ptr rk = some (rk + c.before.length) := by
  induction fuel with
  | zero => intro t c s rk n _ _ _ hd; omega
  | succ fuel ih =>
    intro t c s rk n h hs hz hd
    obtain ⟨sl, x, kx, nx, cx, sr, rfl⟩ : ∃ sl x kx nx cx sr, s = Tree.node sl x kx nx cx sr := by
      cases s with
      | leaf => exact absurd rfl hs
      | node sl x kx nx cx sr => exact ⟨_, _, _, _, _, _, rfl⟩
    have hx := h.read
    simp only [Tree.ptr_node]
    cases c with
    | top =>
      have hr : t.root = x := h.root
      simp [os_rank_loop, hr, Path.before]
    | inL p kp np cp r up =>
      have hne := h.root_ne_focus (by simp)
      have hP : Wf t (up.plug (.node (.node sl x kx nx cx sr) p kp np cp r)) := h
      have hp := hP.read
      have hxr : ¬ (x = r.ptr) := fun e => hP.right_ne e.symm
      simp only [Path.par_inL, Tree.ptr_node] at hx hp
      simp only [Path.SizeOK] at hz
      simp only [Path.depth] at hd
      have := ih t up _ rk np hP (by simp) hz.2.2 (by omega)
      simp only [Tree.ptr_node] at this
      simp [os_rank_loop, hne, hx, hp, hxr, this, Path.before]
    | inR l p kp np cp up =>
      have hne := h.root_ne_focus (by simp)
      have hP : Wf t (up.plug (.node l p kp np cp (.node sl x kx nx cx sr))) := h
      have hp := hP.read
      have hLv : Wf t ((Path.inL p kp np cp (.node sl x kx nx cx sr) up).plug l) := h
      have hls := hLv.size_ptr
      simp only [Path.par_inR, Tree.ptr_node] at hx hp
      simp only [Path.SizeOK] at hz
      simp only [Path.depth] at hd
      have hl := Tree.sz_eq_length_addrs hz.2.1
      have := ih t up _ (rk + (l.sz + 1)) np hP (by simp) hz.2.2 (by omega)
      simp only [Tree.ptr_node, hl] at this
      simp [os_rank_loop, hne, hx, hp, hls, this, Path.before, hl]
      omega

theorem rank_refines {t : Order_tree} {c : Path} {l r : Tree} {a : Nat} {k : Int}
    {n : Nat} {col : Color} (h : Wf t (c.plug (.node l a k n col r)))
    (hz : (c.plug (.node l a k n col r)).SizeOK) :
    rank t a = some (c.before.length + l.addrs.length + 1) := by
  have hz2 := (Path.sizeOK_plug _ _).1 hz
  have hL : Wf t ((Path.inL a k n col r c).plug l) := h
  have hls := hL.size_ptr
  have hl := Tree.sz_eq_length_addrs hz2.1.2.1
  have := os_rank_loop_refines t.next t c _ (l.sz + 1) _ h (by simp) hz2.2 h.depth_lt
  simp only [Tree.ptr_node, hl] at this
  rw [rank, os_rank, h.read]
  simp only [hls, this, hl]
  congr 1
  omega

theorem rank_position {t : Order_tree} {s : Tree} (h : Wf t s) (hz : s.SizeOK) {a : Nat}
    (ha : a ∈ s.addrs) : rank t a = some (s.addrs.indexOf a + 1) := by
  obtain ⟨c, l, k, n, col, r, e⟩ := Tree.exists_path ha
  subst e
  rw [rank_refines h hz]
  have hnd := h.split.2.2.1
  have hc := fun q => List.nodup_iff_count_le_one.1 hnd q
  simp only [Tree.addrs, List.count_append, List.count_cons, beq_iff_eq] at hc
  have h1 := hc a
  simp only [if_true] at h1
  have hb : a ∉ c.before := fun hm => by have := cnt_mem hm; omega
  have hl : a ∉ l.addrs := fun hm => by have := cnt_mem hm; omega
  rw [Path.plug_addrs, List.append_assoc, List.indexOf_append_of_not_mem hb, Tree.addrs,
    List.append_assoc, List.indexOf_append_of_not_mem hl, List.cons_append,
    List.indexOf_cons_self]
  simp only [Nat.add_zero, Nat.add_assoc]

/-- C7: in a well-formed tree that satisfies the size invariant, `rank(n)` of a node of
the tree is its position, counted from 1, in the in-order walk from the root; and after
inserting 10, 20, 30, 15, 25, 5, 1 into an empty tree a node with key 25 has rank 6. -/
theorem rank_is_in_order_position :
    (∀ (t : Order_tree) (a : Nat), WellFormed t → SizeInvariant t → IsNode t a →
      ∃ ns, inorder_walk t t.next t.root = some ns ∧ a ∈ ns
        ∧ rank t a = some (ns.indexOf a + 1))
    ∧ (∀ init : Nat → Order_node, ∃ t a,
        insertAll (Order_tree.empty init) [10, 20, 30, 15, 25, 5, 1] = some t
        ∧ IsNode t a ∧ (t.mem a).key = 25 ∧ rank t a = some 6) := by
  constructor
  · intro t a hw hz ha
    obtain ⟨s, h⟩ := hw
    have hs := h.sizeOK_of_inv hz
    have hm := h.isNode_mem ha
    exact ⟨s.addrs, h.inorder_walk_eq, hm, rank_position h hs hm⟩
  · intro init
    obtain ⟨t, s, e, w, _, z, _, o, p⟩ := insertAll_empty init [10, 20, 30, 15, 25, 5, 1]
    have hk := scenario_keys o p
    have hlen : s.addrs.length = 7 := by
      rw [Tree.length_addrs_eq_keys, hk]; rfl
    have h5 : 5 < s.addrs.length := by omega
    have hmem : s.addrs[5] ∈ s.addrs := List.getElem_mem h5
    refine ⟨t, s.addrs[5], e, w.mem_isNode hmem, ?_, ?_⟩
    · have hm := w.rep.map_key
      rw [hk] at hm
      have h3 : (s.addrs.map (fun a => (t.mem a).key))[5]? = some 25 := by rw [hm]; rfl
      rw [List.getElem?_map, List.getElem?_eq_getElem h5] at h3
      simpa using h3
    · rw [rank_position w z hmem, List.indexOf_getElem w.nodup 5 h5]

/-- Witness for C7: on the one-node tree the only node has rank 1. -/
theorem rank_is_in_order_position_witness :
    WellFormed singleton_tree ∧ SizeInvariant singleton_tree ∧ IsNode singleton_tree 1
      ∧ ∃ ns, inorder_walk singleton_tree singleton_tree.next singleton_tree.root = some ns
        ∧ 1 ∈ ns ∧ rank singleton_tree 1 = some (ns.indexOf 1 + 1) :=
  ⟨⟨_, Wf_singleton_tree⟩, sizeInvariant_singleton_tree, IsNode.root (by decide),
    rank_is_in_order_position.1 singleton_tree 1 ⟨_, Wf_singleton_tree⟩
      sizeInvariant_singleton_tree (IsNode.root (by decide))⟩

theorem Wf.inorder_keys {t : Order_tree} {s : Tree} (h : Wf t s) :
    ∃ ns, inorder_walk t t.next t.root = some ns ∧ ns.map (fun a => (t.mem a).key) = s.keys :=
  ⟨s.addrs, h.inorder_walk_eq, h.rep.map_key⟩

/-- C10: for a tree built by inserts into the empty tree and any key `k`, the keys met by
the in-order walk after `insert(k)` are non-decreasing and are a rearrangement of `k`
together with the keys met before; and inserting 10, 20, 30, 15, 25, 5, 1 yields the
in-order keys 1, 5, 10, 15, 20, 25, 30. -/
theorem insert_in_order_sorted_multiset :
    (∀ (init : Nat → Order_node) (keys : List Int) (k : Int), ∃ t t2 ns ns2,
        insertAll (Order_tree.empty init) keys = some t ∧ insert t k = some t2
        ∧ inorder_walk t t.next t.root = some ns
        ∧ inorder_walk t2 t2.next t2.root = some ns2
        ∧ (ns2.map (fun a => (t2.mem a).key)).Sorted (· ≤ ·)
        ∧ (ns2.map (fun a => (t2.mem a).key)).Perm (k :: ns.map (fun a => (t.mem a).key)))
    ∧ (∀ init : Nat → Order_node, ∃ t ns,
        insertAll (Order_tree.empty init) [10, 20, 30, 15, 25, 5, 1] = some t
        ∧ inorder_walk t t.next t.root = some ns
        ∧ ns.map (fun a => (t.mem a).key) = [1, 5, 10, 15, 20, 25, 30]) := by
  constructor
  · intro init keys k
    obtain ⟨t, s, e, w, b, _, _, o, _⟩ := insertAll_empty init keys
    obtain ⟨t2, e2, w2, _⟩ := insert_refines w b k
    obtain ⟨ns, hn1, hn2⟩ := w.inorder_keys
    obtain ⟨ns2, hm1, hm2⟩ := w2.inorder_keys
    refine ⟨t, t2, ns, ns2, e, e2, hn1, hm1, ?_, ?_⟩
    · rw [hm2]; exact ins_sorted _ _ o
    · rw [hm2, hn2]; exact ins_perm _ _ _
  · intro init
    obtain ⟨t, s, e, w, _, _, _, o, p⟩ := insertAll_empty init [10, 20, 30, 15, 25, 5, 1]
    obtain ⟨ns, hn1, hn2⟩ := w.inorder_keys
    exact ⟨t, ns, e, hn1, hn2.trans (scenario_keys o p)⟩

theorem transplant_spec (t : Order_tree) (z m p : Nat) (hp : (t.mem z).parent = p)
    (hzp : z ≠ p) (hzm : z ≠ m) (hmp : m ≠ p ∨ p = nil) :
    (transplant t z m).mem m = { t.mem m with parent := p } ∧
    (p ≠ nil → (transplant t z m).mem p =
      if z = (t.mem p).left then { t.mem p with left := m } else { t.mem p with right := m }) ∧
    (∀ q, q ≠ m → (q ≠ p ∨ p = nil) → (transplant t z m).mem q = t.mem q) ∧
    (transplant t z m).root = (if p = nil then m else t.root) ∧
    (transplant t z m).next = t.next := by
  have hpz : p ≠ z := fun e => hzp e.symm
  have hmz : m ≠ z := fun e => hzm e.symm
  by_cases hp0 : p = 0
  · subst hp0
    refine ⟨?_, ?_, ?_, ?_, ?_⟩
    · simp [transplant, setLeft, setRight, setParent, setRoot, upd, hp]
    · intro h; exact absurd rfl h
    · intro q hq _
      simp [transplant, setLeft, setRight, setParent, setRoot, upd, hp, hq]
    · simp [transplant, setLeft, setRight, setParent, setRoot, upd, hp]
    · simp [transplant, setLeft, setRight, setParent, setRoot, upd, hp]
  · have hmp2 : m ≠ p := hmp.resolve_right hp0
    have hpm : p ≠ m := fun e => hmp2 e.symm
    refine ⟨?_, ?_, ?_, ?_, ?_⟩
    · simp [transplant, setLeft, setRight, setParent, setRoot, upd, hp, hp0, hmp2, hzp, hpz,
        hzm, hmz, apply_ite Order_tree.mem, ite_apply]
    · intro _
      simp [transplant, setLeft, setRight, setParent, setRoot, upd, hp, hp0, hmp2, hpm, hzp, hpz,
        hzm, hmz, apply_ite Order_tree.mem, ite_apply]
    · intro q hq hqp
      have hqp2 : q ≠ p := hqp.resolve_right hp0
      simp [transplant, setLeft, setRight, setParent, setRoot, upd, hp, hp0, hmp2, hzp, hpz,
        hzm, hmz, hq, hqp2, apply_ite Order_tree.mem, ite_apply]
    · simp [transplant, setLeft, setRight, setParent, setRoot, upd, hp, hp0, hmp2, hzp, hpz,
        hzm, hmz, apply_ite Order_tree.root, ite_apply]
    · simp [transplant, setLeft, setRight, setParent, setRoot, upd, hp, hp0, hmp2, hzp, hpz,
        hzm, hmz, apply_ite Order_tree.next, ite_apply]

/-- `transplant(z, child)` for a child subtree `s2` of the node `z` in focus: the child
takes the place of `z`. -/
theorem transplant_child {t : Order_tree} {c : Path} {l r : Tree} {z : Nat} {k : Int}
    {n : Nat} {col : Color} (h : Wf t (c.plug (.node l z k n col r))) (s2 : Tree)
    (hs : s2 = l ∨ s2 = r) :
    Wf (transplant t z s2.ptr) (c.plug s2)
      ∧ ((transplant t z s2.ptr).mem s2.ptr).parent = c.par
      ∧ (∀ q, q ∉ (c.plug s2).addrs → q ≠ nil → (transplant t z s2.ptr).mem q = t.mem q)
      ∧ (transplant t z s2.ptr).next = t.next := by
  obtain ⟨hp, hr, hnd, hroot⟩ := h.split
  have hbd := h.bound_split
  obtain ⟨hz0, hz, hl, hr⟩ := hr
  simp only [Tree.ptr_node] at hp hroot
  have hc := fun q => List.nodup_iff_count_le_one.1 hnd q
  simp only [Tree.addrs, List.count_append, List.count_cons, beq_iff_eq] at hc
  have hcz := hc z
  simp only [if_true] at hcz
  have hrep2 : Rep t.mem s2 z := by
    rcases hs with rfl | rfl
    · exact hl
    · exact hr
  have hcnt2 : ∀ q, s2.addrs.count q ≤ l.addrs.count q + r.addrs.count q := by
    intro q
    rcases hs with rfl | rfl <;> omega
  have hmem2 : ∀ q, q ∈ s2.addrs → q ∈ l.addrs ∨ q ∈ r.addrs := by
    intro q hq
    rcases hs with rfl | rfl
    · exact Or.inl hq
    · exact Or.inr hq
  have hcp := c.par_cnt
  have hc2 := s2.ptr_cnt
  have h20 := hrep2.ne_nil
  have hP0 := hp.ne_nil_path
  have hzp : z ≠ c.par := by
    intro e
    rcases hcp with h1 | h1
    · exact hz0 (e.trans h1)
    · rw [← e] at h1; omega
  have hzm : z ≠ s2.ptr := by
    intro e
    rcases hc2 with h1 | h1
    · exact hz0 (e.trans h1)
    · rw [← e] at h1; have := hcnt2 z; omega
  have hmp : s2.ptr ≠ c.par ∨ c.par = nil := by
    by_cases e : c.par = 0
    · exact Or.inr e
    · left
      intro e2
      rcases hcp with h1 | h1
      · exact e h1
      · rcases hc2 with h3 | h3
        · exact e (e2 ▸ h3)
        · rw [e2] at h3
          have := hc c.par
          have := hcnt2 c.par
          omega
  obtain ⟨s1, s2', s3, s4, s5⟩ := transplant_spec t z s2.ptr c.par (by rw [hz]) hzp hzm hmp
  have hndP : (c.before ++ c.after).Nodup := by
    apply List.nodup_iff_count_le_one.2
    intro q
    have := hc q
    rw [List.count_append]
    omega
  have hnd2 : s2.addrs.Nodup := by
    apply List.nodup_iff_count_le_one.2
    intro q
    have := hc q
    have := hcnt2 q
    omega
  have hnil : ((transplant t z s2.ptr).mem nil).color = (t.mem nil).color
      ∧ ((transplant t z s2.ptr).mem nil).size = (t.mem nil).size := by
    by_cases e : s2.ptr = 0
    · have s1b := s1
      rw [e] at s1b ⊢
      rw [s1b]
      exact ⟨rfl, rfl⟩
    · rw [s3 0 (Ne.symm e)]
      · exact ⟨rfl, rfl⟩
      · by_cases e2 : c.par = 0
        · exact Or.inr e2
        · exact Or.inl (Ne.symm e2)
  refine ⟨?_, ?_, ?_, s5⟩
  · apply Wf.join
    · apply hp.reslot hndP hz0 (by omega) s2'
      intro q hq hqp
      have h1 := cnt_mem_append hq
      apply s3 q _ (Or.inl hqp)
      intro e
      rcases hc2 with h3 | h3
      · exact hP0 q hq (e.trans h3)
      · rw [← e] at h3
        have := hc q
        have := hcnt2 q
        omega
    · apply hrep2.reparent hnd2
      · intro _
        exact s1
      · intro q hq hq2
        have h1 := cnt_mem hq
        apply s3 q hq2
        by_cases e2 : c.par = 0
        · exact Or.inr e2
        · left
          intro e
          rcases hcp with h3 | h3
          · exact e2 h3
          · rw [← e] at h3
            have := hc q
            have := hcnt2 q
            omega
    · apply List.nodup_iff_count_le_one.2
      intro q
      have := hc q
      have := hcnt2 q
      simp only [List.count_append]
      omega
    · rw [s4, hp.rootPtr_eq s2.ptr, hroot]
    · intro a ha
      rw [s5]
      apply hbd
      simp only [List.mem_append, Tree.addrs, List.mem_cons] at ha ⊢
      rcases ha with ha | ha | ha
      · exact Or.inl ha
      · rcases hmem2 a ha with h1 | h1
        · exact Or.inr (Or.inl (Or.inl h1))
        · exact Or.inr (Or.inl (Or.inr (Or.inr h1)))
      · exact Or.inr (Or.inr ha)
    · rw [s5]; exact h.pos
    · rw [hnil.1]; exact h.nil_color
    · rw [hnil.2]; exact h.nil_size
  · rw [s1]
  · intro q hq hq0
    rw [Path.plug_addrs] at hq
    simp only [List.mem_append, not_or] at hq
    apply s3 q
    · intro e
      rcases s2.ptr_mem with h1 | h1
      · exact hq0 (e.trans h1)
      · rw [← e] at h1; exact hq.1.2 h1
    · by_cases e2 : c.par = 0
      · exact Or.inr e2
      · left
        intro e
        rcases c.par_mem with h1 | h1
        · exact e2 h1
        · rw [← e] at h1
          rcases List.mem_append.1 h1 with h3 | h3
          · exact hq.1.1 h3
          · exact hq.2 h3

@[simp] theorem Path.decr_par (c : Path) : c.decr.par = c.par := by
  cases c <;> rfl

theorem size_loop_refines (fuel : Nat) : ∀ (t : Order_tree) (c : Path) (s : Tree),
    Wf t (c.plug s) → c.depth < fuel →
    ∃ t2, rb_delete_size_loop fuel t c.par = some t2 ∧ Wf t2 (c.decr.plug s)
      ∧ t2.next = t.next ∧ (∀ q, (t2.mem q).parent = (t.mem q).parent) := by
  induction fuel with
  | zero => intro t c s _ hd; omega
  | succ fuel ih =>
    intro t c s h hd
    cases c with
    | top => exact ⟨t, by simp [rb_delete_size_loop], h, rfl, fun _ => rfl⟩
    | inL p kp np cp r up =>
      have hP : Wf t (up.plug (.node s p kp np cp r)) := h
      have hp := hP.read
      have hp0 := hP.ptr_ne_nil
      have h1 := setSize_focus (np - 1) hP
      have hp1 := h1.read
      simp only [Path.depth] at hd
      obtain ⟨t2, e2, w2, n2, f2⟩ := ih _ up _ h1 (by omega)
      refine ⟨t2, ?_, w2, ?_, ?_⟩
      · simp [rb_delete_size_loop, hp0, hp, hp1, e2]
      · rw [n2]; rfl
      · intro q
        rw [f2 q]
        by_cases e : q = p
        · subst e; simp [setSize, upd]
        · simp [setSize, upd, e]
    | inR l p kp np cp up =>
      have hP : Wf t (up.plug (.node l p kp np cp s)) := h
      have hp := hP.read
      have hp0 := hP.ptr_ne_nil
      have h1 := setSize_focus (np - 1) hP
      have hp1 := h1.read
      simp only [Path.depth] at hd
      obtain ⟨t2, e2, w2, n2, f2⟩ := ih _ up _ h1 (by omega)
      refine ⟨t2, ?_, w2, ?_, ?_⟩
      · simp [rb_delete_size_loop, hp0, hp, hp1, e2]
      · rw [n2]; rfl
      · intro q
        rw [f2 q]
        by_cases e : q = p
        · subst e; simp [setSize, upd]
        · simp [setSize, upd, e]

theorem rb_delete_fixup_succ (fuel : Nat) (t : Order_tree) (x : Nat) :
    rb_delete_fixup (fuel + 1) t x =
      if x ≠ t.root ∧ (t.mem x).color = Color.BLACK then
        if x = (t.mem (t.mem x).parent).left then
          if (t.mem (t.mem (t.mem x).parent).right).color = Color.RED then
            fixup_cases_L (rb_delete_fixup fuel)
              (rotate_left (((t.setColor (t.mem (t.mem x).parent).right Color.BLACK).setColor
                (t.mem x).parent Color.RED)) (t.mem x).parent)
              (t.mem x).parent
              ((rotate_left (((t.setColor (t.mem (t.mem x).parent).right Color.BLACK).setColor
                (t.mem x).parent Color.RED)) (t.mem x).parent).mem (t.mem x).parent).right
          else fixup_cases_L (rb_delete_fixup fuel) t (t.mem x).parent
            (t.mem (t.mem x).parent).right
        else
          if (t.mem (t.mem (t.mem x).parent).left).color = Color.RED then
            fixup_cases_R (rb_delete_fixup fuel)
              (rotate_right (((t.setColor (t.mem (t.mem x).parent).left Color.BLACK).setColor
                (t.mem x).parent Color.RED)) (t.mem x).parent)
              (t.mem x).parent
              ((rotate_right (((t.setColor (t.mem (t.mem x).parent).left Color.BLACK).setColor
                (t.mem x).parent Color.RED)) (t.mem x).parent).mem (t.mem x).parent).left
          else fixup_cases_R (rb_delete_fixup fuel) t (t.mem x).parent
            (t.mem (t.mem x).parent).left
      else some (t.setColor x Color.BLACK) := by
  rw [rb_delete_fixup]
  simp only [fixup_cases_L, fixup_cases_R]
  split_ifs <;> rfl

theorem Tree.node_of_red {s : Tree} (h : s.col = Color.RED) :
    ∃ l a k n r, s = Tree.node l a k n Color.RED r := by
  cases s with
  | leaf => simp at h
  | node l a k n c r =>
    simp only [Tree.col_node] at h
    subst h
    exact ⟨_, _, _, _, _, rfl⟩

theorem fixup_cases_L_refines (rest : Order_tree → Nat → Option Order_tree)
    {t : Order_tree} {up : Path} {s w sub : Tree} {p : Nat} {kp : Int} {np : Nat} {cp : Color}
    {b : Bool} (h : Wf t ((Path.inL p kp np cp w up).plug s))
    (hd : del_sib_L s p kp np cp w = some (sub, b)) :
    ∃ t1, Wf t1 (up.plug sub) ∧ t1.next = t.next
      ∧ fixup_cases_L rest t p w.ptr = rest t1 (if b then p else t1.root)
      ∧ (b = true → sub.ptr = p) ∧ t1.mem nil = t.mem nil := by
  cases w with
  | leaf => simp [del_sib_L] at hd
  | node wl wa kw nw cw wr =>
    have hP : Wf t (up.plug (.node s p kp np cp (.node wl wa kw nw cw wr))) := h
    have hW : Wf t ((Path.inR s p kp np cp up).plug (.node wl wa kw nw cw wr)) := h
    have hWL : Wf t ((Path.inL wa kw nw cw wr (Path.inR s p kp np cp up)).plug wl) := h
    have hWR : Wf t ((Path.inR wl wa kw nw cw (Path.inR s p kp np cp up)).plug wr) := h
    have hp := hP.read
    have hw := hW.read
    have hp0 := hP.ptr_ne_nil
    have hw0 := hW.ptr_ne_nil
    have hcl := hWL.color_ptr
    have hcr := hWR.color_ptr
    simp only [Tree.ptr_node, Path.par_inR] at hp hw
    simp only [del_sib_L] at hd
    by_cases h2 : wl.col = Color.BLACK ∧ wr.col = Color.BLACK
    · rw [if_pos h2] at hd
      simp only [Option.some.injEq, Prod.mk.injEq] at hd
      obtain ⟨rfl, rfl⟩ := hd
      refine ⟨t.setColor wa Color.RED, setColor_focus Color.RED hW, rfl, ?_, fun _ => rfl,
        setColor_mem_nil _ _ hw0⟩
      simp [fixup_cases_L, hw, hcl, hcr, h2]
    · rw [if_neg h2] at hd
      by_cases h3 : wr.col = Color.BLACK
      · rw [if_pos h3] at hd
        have hlr : wl.col = Color.RED := by
          cases hc : wl.col with
          | RED => rfl
          | BLACK => exact absurd ⟨hc, h3⟩ h2
        obtain ⟨wll, wla, kwl, nwl, wlr, rfl⟩ := Tree.node_of_red hlr
        simp only [Option.some.injEq, Prod.mk.injEq] at hd
        obtain ⟨rfl, rfl⟩ := hd
        simp only [Tree.ptr_node, Tree.col_node] at hw hcl
        have ha := setColor_focus Color.BLACK hWL
        have haW : Wf (t.setColor wla .BLACK) ((Path.inR s p kp np cp up).plug
          (.node (.node wll wla kwl nwl .BLACK wlr) wa kw nw cw wr)) := ha
        have hwa := haW.read
        have hb := setColor_focus Color.RED haW
        have hc := rotate_right_focus hb
        have hcP : Wf (rotate_right ((t.setColor wla .BLACK).setColor wa .RED) wa)
          (up.plug (.node s p kp np cp (.node wll wla kwl nw .BLACK
            (.node wlr wa kw (wlr.sz + wr.sz + 1) .RED wr)))) := hc
        have hpc := hcP.read
        have hd' := setColor_focus cp hc
        have hdP : Wf ((rotate_right ((t.setColor wla .BLACK).setColor wa .RED) wa).setColor
          wla cp) (up.plug (.node s p kp np cp (.node wll wla kwl nw cp
            (.node wlr wa kw (wlr.sz + wr.sz + 1) .RED wr)))) := hd'
        have he := setColor_focus Color.BLACK hdP
        have heW : Wf (((rotate_right ((t.setColor wla .BLACK).setColor wa .RED) wa).setColor
          wla cp).setColor p .BLACK) ((Path.inR s p kp np .BLACK up).plug
            (.node wll wla kwl nw cp (.node wlr wa kw (wlr.sz + wr.sz + 1) .RED wr))) := he
        have hwe := heW.read
        have heA : Wf (((rotate_right ((t.setColor wla .BLACK).setColor wa .RED) wa).setColor
          wla cp).setColor p .BLACK) ((Path.inR wll wla kwl nw cp
            (Path.inR s p kp np .BLACK up)).plug
              (.node wlr wa kw (wlr.sz + wr.sz + 1) .RED wr)) := he
        have hf := setColor_focus Color.BLACK heA
        have hfP : Wf ((((rotate_right ((t.setColor wla .BLACK).setColor wa .RED) wa).setColor
          wla cp).setColor p .BLACK).setColor wa .BLACK)
          (up.plug (.node s p kp np .BLACK (.node wll wla kwl nw cp
            (.node wlr wa kw (wlr.sz + wr.sz + 1) .BLACK wr)))) := hf
        have hg := rotate_left_focus hfP
        simp only [Tree.ptr_node, Path.par_inR] at hwa hpc hwe
        have hwla0 := hWL.ptr_ne_nil
        refine ⟨_, hg, ?_, ?_, by simp, ?_⟩
        · simp [rotate_left_next, rotate_right_next, setColor]
        · simp [fixup_cases_L, hw, hcl, hcr, h3, hwa, hpc, hwe]
        · rw [(rotate_left_focus_nil hfP).2, setColor_mem_nil _ _ hw0, setColor_mem_nil _ _ hp0,
            setColor_mem_nil _ _ hwla0, (rotate_right_focus_nil hb).2,
            setColor_mem_nil _ _ hw0, setColor_mem_nil _ _ hwla0]
      · rw [if_neg h3] at hd
        simp only [Option.some.injEq, Prod.mk.injEq] at hd
        obtain ⟨rfl, rfl⟩ := hd
        obtain ⟨wrl, wra, kwr, nwr, wrr, rfl⟩ := Tree.node_of_red
          (by cases hc : wr.col with
            | RED => rfl
            | BLACK => exact absurd hc h3)
        simp only [Tree.ptr_node, Tree.col_node] at hw hcr
        have hwra0 := hWR.ptr_ne_nil
        have hd' := setColor_focus cp hW
        have hdP : Wf (t.setColor wa cp) (up.plug (.node s p kp np cp
          (.node wl wa kw nw cp (.node wrl wra kwr nwr .RED wrr)))) := hd'
        have hpd := hdP.read
        have he := setColor_focus Color.BLACK hdP
        have heW : Wf ((t.setColor wa cp).setColor p .BLACK) ((Path.inR s p kp np .BLACK up).plug
          (.node wl wa kw nw cp (.node wrl wra kwr nwr .RED wrr))) := he
        have hwe := heW.read
        have heA : Wf ((t.setColor wa cp).setColor p .BLACK) ((Path.inR wl wa kw nw cp
          (Path.inR s p kp np .BLACK up)).plug (.node wrl wra kwr nwr .RED wrr)) := he
        have hf := setColor_focus Color.BLACK heA
        have hfP : Wf (((t.setColor wa cp).setColor p .BLACK).setColor wra .BLACK)
          (up.plug (.node s p kp np .BLACK (.node wl wa kw nw cp
            (.node wrl wra kwr nwr .BLACK wrr)))) := hf
        have hg := rotate_left_focus hfP
        simp only [Tree.ptr_node, Path.par_inR] at hpd hwe
        refine ⟨_, hg, ?_, ?_, by simp, ?_⟩
        · simp [rotate_left_next, setColor]
        · simp [fixup_cases_L, hw, hp, hcl, hcr, h2, h3, hpd, hwe]
        · rw [(rotate_left_focus_nil hfP).2, setColor_mem_nil _ _ hwra0,
            setColor_mem_nil _ _ hp0, setColor_mem_nil _ _ hw0]

theorem fixup_cases_R_refines (rest : Order_tree → Nat → Option Order_tree)
    {t : Order_tree} {up : Path} {s w sub : Tree} {p : Nat} {kp : Int} {np : Nat} {cp : Color}
    {b : Bool} (h : Wf t ((Path.inR w p kp np cp up).plug s))
    (hd : del_sib_R s p kp np cp w = some (sub, b)) :
    ∃ t1, Wf t1 (up.plug sub) ∧ t1.next = t.next
      ∧ fixup_cases_R rest t p w.ptr = rest t1 (if b then p else t1.root)
      ∧ (b = true → sub.ptr = p) ∧ t1.mem nil = t.mem nil := by
  cases w with
  | leaf => simp [del_sib_R] at hd
  | node wl wa kw nw cw wr =>
    have hP : Wf t (up.plug (.node (.node wl wa kw nw cw wr) p kp np cp s)) := h
    have hW : Wf t ((Path.inL p kp np cp s up).plug (.node wl wa kw nw cw wr)) := h
    have hWL : Wf t ((Path.inL wa kw nw cw wr (Path.inL p kp np cp s up)).plug wl) := h
    have hWR : Wf t ((Path.inR wl wa kw nw cw (Path.inL p kp np cp s up)).plug wr) := h
    have hp := hP.read
    have hw := hW.read
    have hp0 := hP.ptr_ne_nil
    have hw0 := hW.ptr_ne_nil
    have hcl := hWL.color_ptr
    have hcr := hWR.color_ptr
    simp only [Tree.ptr_node, Path.par_inL] at hp hw
    simp only [del_sib_R] at hd
    by_cases h2 : wr.col = Color.BLACK ∧ wl.col = Color.BLACK
    · rw [if_pos h2] at hd
      simp only [Option.some.injEq, Prod.mk.injEq] at hd
      obtain ⟨rfl, rfl⟩ := hd
      refine ⟨t.setColor wa Color.RED, setColor_focus Color.RED hW, rfl, ?_, fun _ => rfl,
        setColor_mem_nil _ _ hw0⟩
      simp [fixup_cases_R, hw, hcl, hcr, h2]
    · rw [if_neg h2] at hd
      by_cases h3 : wl.col = Color.BLACK
      · rw [if_pos h3] at hd
        have hlr : wr.col = Color.RED := by
          cases hc : wr.col with
          | RED => rfl
          | BLACK => exact absurd ⟨hc, h3⟩ h2
        obtain ⟨wrl, wra, kwr, nwr, wrr, rfl⟩ := Tree.node_of_red hlr
        simp only [Option.some.injEq, Prod.mk.injEq] at hd
        obtain ⟨rfl, rfl⟩ := hd
        simp only [Tree.ptr_node, Tree.col_node] at hw hcr
        have ha := setColor_focus Color.BLACK hWR
        have haW : Wf (t.setColor wra .BLACK) ((Path.inL p kp np cp s up).plug
          (.node wl wa kw nw cw (.node wrl wra kwr nwr .BLACK wrr))) := ha
        have hwa := haW.read
        have hb := setColor_focus Color.RED haW
        have hc := rotate_left_focus hb
        have hcP : Wf (rotate_left ((t.setColor wra .BLACK).setColor wa .RED) wa)
          (up.plug (.node (.node (.node wl wa kw (wl.sz + wrl.sz + 1) .RED wrl) wra kwr nw .BLACK
            wrr) p kp np cp s)) := hc
        have hpc := hcP.read
        have hd' := setColor_focus cp hc
        have hdP : Wf ((rotate_left ((t.setColor wra .BLACK).setColor wa .RED) wa).setColor
          wra cp) (up.plug (.node (.node (.node wl wa kw (wl.sz + wrl.sz + 1) .RED wrl) wra kwr
            nw cp wrr) p kp np cp s)) := hd'
        have he := setColor_focus Color.BLACK hdP
        have heW : Wf (((rotate_left ((t.setColor wra .BLACK).setColor wa .RED) wa).setColor
          wra cp).setColor p .BLACK) ((Path.inL p kp np .BLACK s up).plug
            (.node (.node wl wa kw (wl.sz + wrl.sz + 1) .RED wrl) wra kwr nw cp wrr)) := he
        have hwe := heW.read
        have heA : Wf (((rotate_left ((t.setColor wra .BLACK).setColor wa .RED) wa).setColor
          wra cp).setColor p .BLACK) ((Path.inL wra kwr nw cp wrr
            (Path.inL p kp np .BLACK s up)).plug
              (.node wl wa kw (wl.sz + wrl.sz + 1) .RED wrl)) := he
        have hf := setColor_focus Color.BLACK heA
        have hfP : Wf ((((rotate_left ((t.setColor wra .BLACK).setColor wa .RED) wa).setColor
          wra cp).setColor p .BLACK).setColor wa .BLACK)
          (up.plug (.node (.node (.node wl wa kw (wl.sz + wrl.sz + 1) .BLACK wrl) wra kwr nw cp
            wrr) p kp np .BLACK s)) := hf
        have hg := rotate_right_focus hfP
        simp only [Tree.ptr_node, Path.par_inL] at hwa hpc hwe
        have hwra0 := hWR.ptr_ne_nil
        refine ⟨_, hg, ?_, ?_, by simp, ?_⟩
        · simp [rotate_left_next, rotate_right_next, setColor]
        · simp [fixup_cases_R, hw, hcl, hcr, h3, hwa, hpc, hwe]
        · rw [(rotate_right_focus_nil hfP).2, setColor_mem_nil _ _ hw0, setColor_mem_nil _ _ hp0,
            setColor_mem_nil _ _ hwra0, (rotate_left_focus_nil hb).2,
            setColor_mem_nil _ _ hw0, setColor_mem_nil _ _ hwra0]
      · rw [if_neg h3] at hd
        simp only [Option.some.injEq, Prod.mk.injEq] at hd
        obtain ⟨rfl, rfl⟩ := hd
        obtain ⟨wll, wla, kwl, nwl, wlr, rfl⟩ := Tree.node_of_red
          (by cases hc : wl.col with
            | RED => rfl
            | BLACK => exact absurd hc h3)
        simp only [Tree.ptr_node, Tree.col_node] at hw hcl
        have hwla0 := hWL.ptr_ne_nil
        have hd' := setColor_focus cp hW
        have hdP : Wf (t.setColor wa cp) (up.plug (.node
          (.node (.node wll wla kwl nwl .RED wlr) wa kw nw cp wr) p kp np cp s)) := hd'
        have hpd := hdP.read
        have he := setColor_focus Color.BLACK hdP
        have heW : Wf ((t.setColor wa cp).setColor p .BLACK) ((Path.inL p kp np .BLACK s up).plug
          (.node (.node wll wla kwl nwl .RED wlr) wa kw nw cp wr)) := he
        have hwe := heW.read
        have heA : Wf ((t.setColor wa cp).setColor p .BLACK) ((Path.inL wa kw nw cp wr
          (Path.inL p kp np .BLACK s up)).plug (.node wll wla kwl nwl .RED wlr)) := he
        have hf := setColor_focus Color.BLACK heA
        have hfP : Wf (((t.setColor wa cp).setColor p .BLACK).setColor wla .BLACK)
          (up.plug (.node (.node (.node wll wla kwl nwl .BLACK wlr) wa kw nw cp wr)
            p kp np .BLACK s)) := hf
        have hg := rotate_right_focus hfP
        simp only [Tree.ptr_node, Path.par_inL] at hpd hwe
        refine ⟨_, hg, ?_, ?_, by simp, ?_⟩
        · simp [rotate_right_next, setColor]
        · simp [fixup_cases_R, hw, hp, hcl, hcr, h2, h3, hpd, hwe]
        · rw [(rotate_right_focus_nil hfP).2, setColor_mem_nil _ _ hwla0,
            setColor_mem_nil _ _ hp0, setColor_mem_nil _ _ hw0]

theorem Wf.root_ne_ptr {t : Order_tree} {c : Path} {s : Tree} (h : Wf t (c.plug s))
    (hc : c ≠ Path.top) : s.ptr ≠ t.root := by
  cases s with
  | leaf =>
    obtain ⟨hp, hr, hnd, hroot⟩ := h.split
    have := hp.ne_nil_path _ (c.rootPtr_mem 0 hc)
    rw [hroot]
    exact Ne.symm this
  | node l a k n col r => exact h.root_ne_focus hc

theorem rb_delete_fixup_root (fuel : Nat) (t : Order_tree) :
    rb_delete_fixup (fuel + 1) t t.root = some (t.setColor t.root Color.BLACK) := by
  rw [rb_delete_fixup_succ]
  simp

theorem rb_delete_fixup_red (fuel : Nat) (t : Order_tree) {x : Nat}
    (h : (t.mem x).color = Color.RED) :
    rb_delete_fixup (fuel + 1) t x = some (t.setColor x Color.BLACK) := by
  rw [rb_delete_fixup_succ]
  simp [h]

theorem del_sib_L_true {s w sub : Tree} {p : Nat} {kp : Int} {np : Nat} {cp : Color}
    (h : del_sib_L s p kp np cp w = some (sub, true)) :
    ∃ w2, sub = Tree.node s p kp np cp w2 := by
  cases w with
  | leaf => simp [del_sib_L] at h
  | node wl wa kw nw cw wr =>
    simp only [del_sib_L] at h
    split_ifs at h
    · simp only [Option.some.injEq, Prod.mk.injEq] at h
      exact ⟨_, h.1.symm⟩
    · cases wl <;> simp at h
    · simp at h

theorem del_sib_R_true {s w sub : Tree} {p : Nat} {kp : Int} {np : Nat} {cp : Color}
    (h : del_sib_R s p kp np cp w = some (sub, true)) :
    ∃ w2, sub = Tree.node w2 p kp np cp s := by
  cases w with
  | leaf => simp [del_sib_R] at h
  | node wl wa kw nw cw wr =>
    simp only [del_sib_R] at h
    split_ifs at h
    · simp only [Option.some.injEq, Prod.mk.injEq] at h
      exact ⟨_, h.1.symm⟩
    · cases wr <;> simp at h
    · simp at h

theorem rb_delete_fixup_refines (fuel : Nat) : ∀ (t : Order_tree) (c : Path) (s s' : Tree),
    Wf t (c.plug s) → (t.mem s.ptr).parent = c.par → del_fix c s = some s' → c.depth < fuel →
    ∃ t2, rb_delete_fixup fuel t s.ptr = some t2 ∧ Wf t2 s' ∧ t2.next = t.next := by
  induction fuel with
  | zero => intro t c s s' _ _ _ hd; omega
  | succ fuel ih =>
    intro t c s s' h hpar hdf hd
    have hcol := h.color_ptr
    cases c with
    | top =>
      simp only [del_fix, Option.some.injEq] at hdf
      subst hdf
      have hr : t.root = s.ptr := h.root
      refine ⟨_, ?_, h.blacken_root, rfl⟩
      rw [← hr, rb_delete_fixup_root]
    | inL p kp np cp w up =>
      by_cases hs : s.col = Color.RED
      · simp only [del_fix, if_pos hs, Option.some.injEq] at hdf
        subst hdf
        obtain ⟨l, a, k, n, r, rfl⟩ := Tree.node_of_red hs
        exact ⟨_, rb_delete_fixup_red _ _ (by rw [hcol]; rfl), setColor_focus Color.BLACK h, rfl⟩
      · have hne := h.root_ne_ptr (by simp)
        have hsb := Tree.col_ne_red hs
        have hP : Wf t (up.plug (.node s p kp np cp w)) := h
        have hW : Wf t ((Path.inR s p kp np cp up).plug w) := h
        have hp := hP.read
        have hwc := hW.color_ptr
        have hl : (t.mem p).left = s.ptr := by rw [hp]
        have hr : (t.mem p).right = w.ptr := by rw [hp]
        simp only [Path.depth] at hd
        obtain ⟨f, rfl⟩ : ∃ f, fuel = f + 1 := ⟨fuel - 1, by omega⟩
        simp only [Path.par_inL] at hpar
        rw [rb_delete_fixup_succ, if_pos ⟨hne, by rw [hcol, hsb]⟩, hpar, hl, if_pos rfl, hr, hwc]
        by_cases hw : w.col = Color.RED
        · obtain ⟨wl, wa, kw, nw, wr, rfl⟩ := Tree.node_of_red hw
          rw [if_pos hw]
          have a1 := setColor_focus Color.BLACK hW
          have a1P : Wf (t.setColor wa .BLACK)
            (up.plug (.node s p kp np cp (.node wl wa kw nw .BLACK wr))) := a1
          have a2 := setColor_focus Color.RED a1P
          have a3 := rotate_left_focus a2
          have a3v : Wf (rotate_left ((t.setColor wa .BLACK).setColor p .RED) p)
            ((Path.inL p kp (s.sz + wl.sz + 1) .RED wl (Path.inL wa kw np .BLACK wr up)).plug s) :=
            a3
          have a3P : Wf (rotate_left ((t.setColor wa .BLACK).setColor p .RED) p)
            ((Path.inL wa kw np .BLACK wr up).plug (.node s p kp (s.sz + wl.sz + 1) .RED wl)) :=
            a3
          have hp3 := a3P.read
          have hr3 : ((rotate_left ((t.setColor wa .BLACK).setColor p .RED) p).mem p).right
            = wl.ptr := by rw [hp3]
          simp only [Tree.ptr_node]
          rw [hr3]
          simp only [del_fix, if_neg hs] at hdf
          cases hds : del_sib_L s p kp (s.sz + wl.sz + 1) Color.RED wl with
          | none => rw [hds] at hdf; simp at hdf
          | some sb =>
            obtain ⟨sub, b⟩ := sb
            obtain ⟨t1, w1, n1, e1, hb1, _⟩ :=
              fixup_cases_L_refines (rb_delete_fixup (f + 1)) a3v hds
            rw [e1]
            rw [hds] at hdf
            cases b with
            | true =>
              simp only [Option.some.injEq] at hdf
              subst hdf
              obtain ⟨w2, rfl⟩ := del_sib_L_true hds
              have hc1 := w1.color_ptr
              simp only [if_true]
              refine ⟨_, rb_delete_fixup_red _ _ hc1, setColor_focus Color.BLACK w1, ?_⟩
              rw [show (t1.setColor p Color.BLACK).next = t1.next from rfl, n1]
              simp [rotate_left_next, setColor]
            | false =>
              simp only [Option.some.injEq] at hdf
              subst hdf
              simp only [Bool.false_eq_true, if_false]
              refine ⟨_, rb_delete_fixup_root _ _, w1.blacken_root, ?_⟩
              rw [show (t1.setColor t1.root Color.BLACK).next = t1.next from rfl, n1]
              simp [rotate_left_next, setColor]
        · rw [if_neg hw]
          have hdf2 : (match del_sib_L s p kp np cp w with
              | none => none
              | some (sub, true) => del_fix up sub
              | some (sub, false) => some (up.plug sub).blacken) = some s' := by
            cases w with
            | leaf => simpa only [del_fix, if_neg hs] using hdf
            | node wl wa kw nw cw wr =>
              cases cw with
              | RED => exact absurd rfl hw
              | BLACK => simpa only [del_fix, if_neg hs] using hdf
          cases hds : del_sib_L s p kp np cp w with
          | none => rw [hds] at hdf2; simp at hdf2
          | some sb =>
            obtain ⟨sub, b⟩ := sb
            obtain ⟨t1, w1, n1, e1, hb1, _⟩ :=
              fixup_cases_L_refines (rb_delete_fixup (f + 1)) h hds
            rw [e1]
            rw [hds] at hdf2
            cases b with
            | true =>
              simp only at hdf2
              obtain ⟨w2, rfl⟩ := del_sib_L_true hds
              simp only [if_true]
              obtain ⟨t2, e2, w2', n2⟩ := ih t1 up _ s' w1 (by simp only [Tree.ptr_node]; rw [w1.read]) hdf2 (by omega)
              exact ⟨t2, e2, w2', by rw [n2, n1]⟩
            | false =>
              simp only [Option.some.injEq] at hdf2
              subst hdf2
              simp only [Bool.false_eq_true, if_false]
              refine ⟨_, rb_delete_fixup_root _ _, w1.blacken_root, ?_⟩
              rw [show (t1.setColor t1.root Color.BLACK).next = t1.next from rfl, n1]
    | inR w p kp np cp up =>
      by_cases hs : s.col = Color.RED
      · simp only [del_fix, if_pos hs, Option.some.injEq] at hdf
        subst hdf
        obtain ⟨l, a, k, n, r, rfl⟩ := Tree.node_of_red hs
        exact ⟨_, rb_delete_fixup_red _ _ (by rw [hcol]; rfl), setColor_focus Color.BLACK h, rfl⟩
      · cases w with
        | leaf => simp [del_fix, if_neg hs, del_sib_R] at hdf
        | node wl wa kw nw cw wr =>
        have hne := h.root_ne_ptr (by simp)
        have hsb := Tree.col_ne_red hs
        have hP : Wf t (up.plug (.node (.node wl wa kw nw cw wr) p kp np cp s)) := h
        have hW : Wf t ((Path.inL p kp np cp s up).plug (.node wl wa kw nw cw wr)) := h
        have hp := hP.read
        have hwc := hW.color_ptr
        have hne2 : ¬ s.ptr = wa := hP.right_ne
        have hl : (t.mem p).left = wa := by rw [hp]; rfl
        simp only [Path.depth] at hd
        obtain ⟨f, rfl⟩ : ∃ f, fuel = f + 1 := ⟨fuel - 1, by omega⟩
        simp only [Path.par_inR] at hpar
        simp only [Tree.ptr_node, Tree.col_node] at hwc
        rw [rb_delete_fixup_succ, if_pos ⟨hne, by rw [hcol, hsb]⟩, hpar, hl, if_neg hne2, hwc]
        cases cw with
        | RED =>
          rw [if_pos rfl]
          have a1 := setColor_focus Color.BLACK hW
          have a1P : Wf (t.setColor wa .BLACK)
            (up.plug (.node (.node wl wa kw nw .BLACK wr) p kp np cp s)) := a1
          have a2 := setColor_focus Color.RED a1P
          have a3 := rotate_right_focus a2
          have a3v : Wf (rotate_right ((t.setColor wa .BLACK).setColor p .RED) p)
            ((Path.inR wr p kp (wr.sz + s.sz + 1) .RED (Path.inR wl wa kw np .BLACK up)).plug s) :=
            a3
          have a3P : Wf (rotate_right ((t.setColor wa .BLACK).setColor p .RED) p)
            ((Path.inR wl wa kw np .BLACK up).plug (.node wr p kp (wr.sz + s.sz + 1) .RED s)) :=
            a3
          have hp3 := a3P.read
          have hr3 : ((rotate_right ((t.setColor wa .BLACK).setColor p .RED) p).mem p).left
            = wr.ptr := by rw [hp3]
          rw [hr3]
          simp only [del_fix, if_neg hs] at hdf
          cases hds : del_sib_R s p kp (wr.sz + s.sz + 1) Color.RED wr with
          | none => rw [hds] at hdf; simp at hdf
          | some sb =>
            obtain ⟨sub, b⟩ := sb
            obtain ⟨t1, w1, n1, e1, hb1, _⟩ :=
              fixup_cases_R_refines (rb_delete_fixup (f + 1)) a3v hds
            rw [e1]
            rw [hds] at hdf
            cases b with
            | true =>
              simp only [Option.some.injEq] at hdf
              subst hdf
              obtain ⟨w2, rfl⟩ := del_sib_R_true hds
              have hc1 := w1.color_ptr
              simp only [if_true]
              refine ⟨_, rb_delete_fixup_red _ _ hc1, setColor_focus Color.BLACK w1, ?_⟩
              rw [show (t1.setColor p Color.BLACK).next = t1.next from rfl, n1]
              simp [rotate_right_next, setColor]
            | false =>
              simp only [Option.some.injEq] at hdf
              subst hdf
              simp only [Bool.false_eq_true, if_false]
              refine ⟨_, rb_delete_fixup_root _ _, w1.blacken_root, ?_⟩
              rw [show (t1.setColor t1.root Color.BLACK).next = t1.next from rfl, n1]
              simp [rotate_right_next, setColor]
        | BLACK =>
          rw [if_neg (by simp)]
          simp only [del_fix, if_neg hs] at hdf
          cases hds : del_sib_R s p kp np cp (.node wl wa kw nw .BLACK wr) with
          | none => rw [hds] at hdf; simp at hdf
          | some sb =>
            obtain ⟨sub, b⟩ := sb
            obtain ⟨t1, w1, n1, e1, hb1, _⟩ :=
              fixup_cases_R_refines (rb_delete_fixup (f + 1)) h hds
            simp only [Tree.ptr_node] at e1
            rw [e1]
            rw [hds] at hdf
            cases b with
            | true =>
              simp only at hdf
              obtain ⟨w2, rfl⟩ := del_sib_R_true hds
              simp only [if_true]
              obtain ⟨t2, e2, w2', n2⟩ :=
                ih t1 up _ s' w1 (by simp only [Tree.ptr_node]; rw [w1.read]) hdf (by omega)
              exact ⟨t2, e2, w2', by rw [n2, n1]⟩
            | false =>
              simp only [Option.some.injEq] at hdf
              subst hdf
              simp only [Bool.false_eq_true, if_false]
              refine ⟨_, rb_delete_fixup_root _ _, w1.blacken_root, ?_⟩
              rw [show (t1.setColor t1.root Color.BLACK).next = t1.next from rfl, n1]

theorem Tree.blacken_balanced {s : Tree} (h : s.Balanced) : s.blacken.Balanced := by
  cases s with
  | leaf => trivial
  | node l a k n c r => exact h

theorem Tree.blacken_bh_red {s : Tree} (h : s.col = Color.RED) : s.blacken.bh = s.bh + 1 := by
  cases s with
  | leaf => exact absurd h (by simp)
  | node l a k n c r =>
    simp only [Tree.col_node] at h
    subst h
    simp [Tree.blacken, Tree.bh]

theorem Tree.blacken_of_black {s : Tree} (h : s.col = Color.BLACK) : s.blacken = s := by
  cases s with
  | leaf => rfl
  | node l a k n c r =>
    simp only [Tree.col_node] at h
    subst h
    rfl

theorem Path.balanced_plug (c : Path) : ∀ s : Tree,
    (c.plug s).Balanced ↔ s.Balanced ∧ c.Balanced s.bh := by
  induction c with
  | top => intro s; simp [Path.plug, Path.Balanced]
  | inL a k n col r up ih =>
    intro s
    rw [Path.plug, ih]
    simp only [Tree.Balanced, Tree.bh, Path.Balanced]
    constructor
    · rintro ⟨⟨h1, h2, h3⟩, h4⟩
      exact ⟨h2, h1.symm, h3, h4⟩
    · rintro ⟨h2, h1, h3, h4⟩
      exact ⟨⟨h1.symm, h2, h3⟩, h4⟩
  | inR l a k n col up ih =>
    intro s
    rw [Path.plug, ih]
    simp only [Tree.Balanced, Tree.bh, Path.Balanced]
    constructor
    · rintro ⟨⟨h1, h2, h3⟩, h4⟩
      rw [h1] at h4
      exact ⟨h3, h1, h2, h4⟩
    · rintro ⟨h2, h1, h3, h4⟩
      rw [← h1] at h4
      exact ⟨⟨h1, h3, h2⟩, h4⟩

theorem Path.plug_col_black (c : Path) : ∀ s : Tree, c.RootBlack →
    (c = Path.top → s.col = Color.BLACK) → (c.plug s).col = Color.BLACK := by
  induction c with
  | top => intro s _ h; exact h rfl
  | inL a k n col r up ih =>
    intro s h _
    rw [Path.plug]
    apply ih _ h.up_inL
    rintro rfl
    exact h
  | inR l a k n col up ih =>
    intro s h _
    rw [Path.plug]
    apply ih _ h.up_inR
    rintro rfl
    exact h

theorem Path.rootBlack_of_plug (c : Path) : ∀ s : Tree, (c.plug s).col = Color.BLACK →
    c.RootBlack := by
  induction c with
  | top => intro s _; trivial
  | inL a k n col r up ih =>
    intro s h
    rw [Path.plug] at h
    have := ih _ h
    cases up with
    | top => exact h
    | inL _ _ _ _ _ _ => exact this
    | inR _ _ _ _ _ _ => exact this
  | inR l a k n col up ih =>
    intro s h
    rw [Path.plug] at h
    have := ih _ h
    cases up with
    | top => exact h
    | inL _ _ _ _ _ _ => exact this
    | inR _ _ _ _ _ _ => exact this

theorem Tree.node_of_bh {s : Tree} {n : Nat} (h : s.bh = n + 1) :
    ∃ l a k m c r, s = Tree.node l a k m c r := by
  cases s with
  | leaf => simp [Tree.bh] at h
  | node l a k m c r => exact ⟨l, a, k, m, c, r, rfl⟩

theorem del_sib_L_inv {s w : Tree} (p : Nat) (kp : Int) (np : Nat) (cp : Color)
    (hs : s.NoRedRed) (hsb : s.Balanced) (hw : w.NoRedRed) (hwb : w.Balanced)
    (hwc : w.col = Color.BLACK) (hbh : w.bh = s.bh + 1) :
    ∃ sub b, del_sib_L s p kp np cp w = some (sub, b) ∧ sub.Balanced ∧ sub.col = cp
      ∧ sub.blacken.NoRedRed
      ∧ (b = true → sub.bh = s.bh + (if cp = Color.BLACK then 1 else 0))
      ∧ (b = false → sub.NoRedRed
          ∧ sub.bh = s.bh + 1 + (if cp = Color.BLACK then 1 else 0)) := by
  obtain ⟨wl, wa, kw, nw, cw, wr, rfl⟩ := Tree.node_of_bh hbh
  simp only [Tree.col_node] at hwc
  subst hwc
  simp only [Tree.bh, if_true, Nat.add_right_cancel_iff] at hbh
  obtain ⟨hw1, hwl, hwr⟩ := hw
  obtain ⟨hb1, hbl, hbr⟩ := hwb
  simp only [del_sib_L]
  by_cases h2 : wl.col = Color.BLACK ∧ wr.col = Color.BLACK
  · rw [if_pos h2]
    refine ⟨_, _, rfl, ?_, rfl, ?_, ?_, ?_⟩
    · simp only [Tree.Balanced, Tree.bh, reduceCtorEq, if_false, Nat.add_zero]
      exact ⟨by omega, hsb, hb1, hbl, hbr⟩
    · simp [Tree.blacken, Tree.NoRedRed, hs, hwl, hwr, h2]
    · intro _; simp [Tree.bh]
    · intro h; cases h
  · rw [if_neg h2]
    by_cases h3 : wr.col = Color.BLACK
    · rw [if_pos h3]
      have hlr : wl.col = Color.RED := by
        cases hc : wl.col with
        | RED => rfl
        | BLACK => exact absurd ⟨hc, h3⟩ h2
      obtain ⟨wll, wla, kwl, nwl, wlr, rfl⟩ := Tree.node_of_red hlr
      simp only [Tree.NoRedRed, Tree.Balanced, Tree.bh] at hwl hbl hbh hb1
      simp only [if_false, reduceCtorEq, Nat.add_zero, true_implies, forall_const] at hwl hbh hb1
      refine ⟨_, _, rfl, ?_, rfl, ?_, ?_, ?_⟩
      · simp only [Tree.Balanced, Tree.bh]
        simp only [if_true]
        refine ⟨by omega, ⟨by omega, hsb, hbl.2.1⟩, by omega, hbl.2.2, hbr⟩
      · simp [Tree.blacken, Tree.NoRedRed, hs, hwl, hwr]
      · intro h; cases h
      · intro _
        refine ⟨?_, by simp [Tree.bh]⟩
        simp [Tree.NoRedRed, hs, hwl, hwr]
    · rw [if_neg h3]
      have hrr : wr.col = Color.RED := by
        cases hc : wr.col with
        | RED => rfl
        | BLACK => exact absurd hc h3
      refine ⟨_, _, rfl, ?_, rfl, ?_, ?_, ?_⟩
      · simp only [Tree.Balanced, Tree.bh, if_true]
        refine ⟨?_, ⟨by omega, hsb, hbl⟩, Tree.blacken_balanced hbr⟩
        rw [Tree.blacken_bh_red hrr]; omega
      · show (Tree.node (Tree.node s p kp (s.sz + wl.sz + 1) Color.BLACK wl) wa kw np
          Color.BLACK wr.blacken).NoRedRed
        simp [Tree.NoRedRed, hs, hwl, Tree.blacken_noRedRed hwr]
      · intro h; cases h
      · intro _
        refine ⟨?_, by simp [Tree.bh]⟩
        simp [Tree.NoRedRed, hs, hwl, Tree.blacken_noRedRed hwr, Tree.blacken_col]

theorem del_sib_R_inv {s w : Tree} (p : Nat) (kp : Int) (np : Nat) (cp : Color)
    (hs : s.NoRedRed) (hsb : s.Balanced) (hw : w.NoRedRed) (hwb : w.Balanced)
    (hwc : w.col = Color.BLACK) (hbh : w.bh = s.bh + 1) :
    ∃ sub b, del_sib_R s p kp np cp w = some (sub, b) ∧ sub.Balanced ∧ sub.col = cp
      ∧ sub.blacken.NoRedRed
      ∧ (b = true → sub.bh = s.bh + (if cp = Color.BLACK then 1 else 0))
      ∧ (b = false → sub.NoRedRed
          ∧ sub.bh = s.bh + 1 + (if cp = Color.BLACK then 1 else 0)) := by
  obtain ⟨wl, wa, kw, nw, cw, wr, rfl⟩ := Tree.node_of_bh hbh
  simp only [Tree.col_node] at hwc
  subst hwc
  simp only [Tree.bh, if_true, Nat.add_right_cancel_iff] at hbh
  obtain ⟨hw1, hwl, hwr⟩ := hw
  obtain ⟨hb1, hbl, hbr⟩ := hwb
  simp only [del_sib_R]
  by_cases h2 : wr.col = Color.BLACK ∧ wl.col = Color.BLACK
  · rw [if_pos h2]
    refine ⟨_, _, rfl, ?_, rfl, ?_, ?_, ?_⟩
    · simp only [Tree.Balanced, Tree.bh, reduceCtorEq, if_false, Nat.add_zero]
      exact ⟨by omega, ⟨hb1, hbl, hbr⟩, hsb⟩
    · simp [Tree.blacken, Tree.NoRedRed, hs, hwl, hwr, h2]
    · intro _; simp [Tree.bh, hbh]
    · intro h; cases h
  · rw [if_neg h2]
    by_cases h3 : wl.col = Color.BLACK
    · rw [if_pos h3]
      have hlr : wr.col = Color.RED := by
        cases hc : wr.col with
        | RED => rfl
        | BLACK => exact absurd ⟨hc, h3⟩ h2
      obtain ⟨wrl, wra, kwr, nwr, wrr, rfl⟩ := Tree.node_of_red hlr
      simp only [Tree.NoRedRed, Tree.Balanced, Tree.bh] at hwr hbr hbh hb1
      simp only [if_false, reduceCtorEq, Nat.add_zero, true_implies, forall_const] at hwr hbh hb1
      refine ⟨_, _, rfl, ?_, rfl, ?_, ?_, ?_⟩
      · simp only [Tree.Balanced, Tree.bh]
        simp only [if_true]
        refine ⟨by omega, ⟨by omega, hbl, hbr.2.1⟩, by omega, hbr.2.2, hsb⟩
      · simp [Tree.blacken, Tree.NoRedRed, hs, hwl, hwr]
      · intro h; cases h
      · intro _
        refine ⟨?_, by simp [Tree.bh, hbh]⟩
        simp [Tree.NoRedRed, hs, hwl, hwr]
    · rw [if_neg h3]
      have hrr : wl.col = Color.RED := by
        cases hc : wl.col with
        | RED => rfl
        | BLACK => exact absurd hc h3
      refine ⟨_, _, rfl, ?_, rfl, ?_, ?_, ?_⟩
      · simp only [Tree.Balanced, Tree.bh, if_true]
        refine ⟨?_, Tree.blacken_balanced hbl, by omega, hbr, hsb⟩
        rw [Tree.blacken_bh_red hrr]; omega
      · show (Tree.node wl.blacken wa kw np Color.BLACK
          (Tree.node wr p kp (wr.sz + s.sz + 1) Color.BLACK s)).NoRedRed
        simp [Tree.NoRedRed, hs, hwr, Tree.blacken_noRedRed hwl]
      · intro h; cases h
      · intro _
        refine ⟨?_, ?_⟩
        · simp [Tree.NoRedRed, hs, hwr, Tree.blacken_noRedRed hwl]
        · simp only [Tree.bh]
          rw [Tree.blacken_bh_red hrr, hbh]

theorem del_fix_inv (c : Path) : ∀ s : Tree, s.blacken.NoRedRed → s.Balanced → c.NoRedRed →
    c.Balanced (s.bh + 1) → c.RootBlack →
    ∃ s', del_fix c s = some s' ∧ s'.col = Color.BLACK ∧ s'.NoRedRed ∧ s'.Balanced := by
  induction c with
  | top =>
    intro s h1 h2 _ _ _
    exact ⟨_, rfl, Tree.blacken_col _, h1, Tree.blacken_balanced h2⟩
  | inL p kp np cp w up ih =>
    intro s h1 h2 h3 h4 h5
    by_cases hs : s.col = Color.RED
    · refine ⟨_, by simp only [del_fix, if_pos hs]; rfl, ?_, ?_, ?_⟩
      · exact Path.plug_col_black _ _ h5 (by simp)
      · exact (Path.noRedRed_plug _ _).2 ⟨h1, h3, fun _ => Tree.blacken_col _⟩
      · refine (Path.balanced_plug _ _).2 ⟨Tree.blacken_balanced h2, ?_⟩
        rw [Tree.blacken_bh_red hs]; exact h4
    · have hsb := Tree.col_ne_red hs
      rw [Tree.blacken_of_black hsb] at h1
      obtain ⟨h41, h42, h43⟩ := h4
      obtain ⟨h31, h32, h33⟩ := h3
      obtain ⟨wl, wa, kw, nw, cw, wr, rfl⟩ := Tree.node_of_bh h41
      cases cw with
      | RED =>
        have hcp : cp = Color.BLACK := by
          cases cp with
          | BLACK => rfl
          | RED => exact absurd (h31 rfl).1 (by simp)
        subst hcp
        obtain ⟨hw1, hwl, hwr⟩ := h32
        obtain ⟨hb1, hbl, hbr⟩ := h42
        simp only [Tree.bh, reduceCtorEq, if_false, Nat.add_zero] at h41
        simp only [if_true] at h43
        obtain ⟨sub, b, e, s1, s2, s3, s4, s5⟩ :=
          del_sib_L_inv p kp (s.sz + wl.sz + 1) Color.RED h1 h2 hwl hbl (hw1 rfl).1 h41
        simp only [reduceCtorEq, if_false, Nat.add_zero] at s4 s5
        have hpb : (Path.inL wa kw np Color.BLACK wr up).Balanced (s.bh + 1) :=
          ⟨by omega, hbr, by simpa using h43⟩
        have hpn : (Path.inL wa kw np Color.BLACK wr up).NoRedRed :=
          ⟨by simp, hwr, h33⟩
        have hpr := h5.up_inL.inL_black wa kw np wr
        cases b with
        | true =>
          refine ⟨_, by simp only [del_fix, if_neg hs, e]; rfl, ?_, ?_, ?_⟩
          · exact Path.plug_col_black _ _ hpr (by simp)
          · exact (Path.noRedRed_plug _ _).2 ⟨s3, hpn, fun _ => Tree.blacken_col _⟩
          · refine (Path.balanced_plug _ _).2 ⟨Tree.blacken_balanced s1, ?_⟩
            rw [Tree.blacken_bh_red s2, s4 rfl]; exact hpb
        | false =>
          refine ⟨_, by simp only [del_fix, if_neg hs, e]; rfl, Tree.blacken_col _, ?_, ?_⟩
          · apply Tree.blacken_noRedRed
            exact (Path.noRedRed_plug _ _).2 ⟨(s5 rfl).1, hpn, by simp⟩
          · apply Tree.blacken_balanced
            refine (Path.balanced_plug _ _).2 ⟨s1, ?_⟩
            rw [(s5 rfl).2]; exact hpb
      | BLACK =>
        obtain ⟨sub, b, e, s1, s2, s3, s4, s5⟩ :=
          del_sib_L_inv p kp np cp h1 h2 h32 h42 rfl h41
        cases b with
        | true =>
          have h43' : up.Balanced (sub.bh + 1) := by
            rw [s4 rfl]
            have : s.bh + (if cp = Color.BLACK then 1 else 0) + 1
              = s.bh + 1 + (if cp = Color.BLACK then 1 else 0) := by omega
            rw [this]; exact h43
          obtain ⟨s', e', r1, r2, r3⟩ := ih sub s3 s1 h33 h43' h5.up_inL
          exact ⟨s', by simp only [del_fix, if_neg hs, e, e'], r1, r2, r3⟩
        | false =>
          refine ⟨_, by simp only [del_fix, if_neg hs, e]; rfl, Tree.blacken_col _, ?_, ?_⟩
          · apply Tree.blacken_noRedRed
            refine (Path.noRedRed_plug _ _).2 ⟨(s5 rfl).1, h33, ?_⟩
            intro hu
            rw [s2]
            cases cp with
            | BLACK => rfl
            | RED => rw [(h31 rfl).2] at hu; exact absurd hu (by simp)
          · apply Tree.blacken_balanced
            refine (Path.balanced_plug _ _).2 ⟨s1, ?_⟩
            rw [(s5 rfl).2]; exact h43
  | inR w p kp np cp up ih =>
    intro s h1 h2 h3 h4 h5
    by_cases hs : s.col = Color.RED
    · refine ⟨_, by simp only [del_fix, if_pos hs]; rfl, ?_, ?_, ?_⟩
      · exact Path.plug_col_black _ _ h5 (by simp)
      · exact (Path.noRedRed_plug _ _).2 ⟨h1, h3, fun _ => Tree.blacken_col _⟩
      · refine (Path.balanced_plug _ _).2 ⟨Tree.blacken_balanced h2, ?_⟩
        rw [Tree.blacken_bh_red hs]; exact h4
    · have hsb := Tree.col_ne_red hs
      rw [Tree.blacken_of_black hsb] at h1
      obtain ⟨h41, h42, h43⟩ := h4
      obtain ⟨h31, h32, h33⟩ := h3
      obtain ⟨wl, wa, kw, nw, cw, wr, rfl⟩ := Tree.node_of_bh h41
      cases cw with
      | RED =>
        have hcp : cp = Color.BLACK := by
          cases cp with
          | BLACK => rfl
          | RED => exact absurd (h31 rfl).1 (by simp)
        subst hcp
        obtain ⟨hw1, hwl, hwr⟩ := h32
        obtain ⟨hb1, hbl, hbr⟩ := h42
        simp only [Tree.bh, reduceCtorEq, if_false, Nat.add_zero] at h41
        simp only [if_true] at h43
        obtain ⟨sub, b, e, s1, s2, s3, s4, s5⟩ :=
          del_sib_R_inv p kp (wr.sz + s.sz + 1) Color.RED h1 h2 hwr hbr (hw1 rfl).2
            (by omega)
        simp only [reduceCtorEq, if_false, Nat.add_zero] at s4 s5
        have hpb : (Path.inR wl wa kw np Color.BLACK up).Balanced (s.bh + 1) :=
          ⟨by omega, hbl, by simpa using h43⟩
        have hpn : (Path.inR wl wa kw np Color.BLACK up).NoRedRed :=
          ⟨by simp, hwl, h33⟩
        have hpr := h5.up_inR.inR_black wl wa kw np
        cases b with
        | true =>
          refine ⟨_, by simp only [del_fix, if_neg hs, e]; rfl, ?_, ?_, ?_⟩
          · exact Path.plug_col_black _ _ hpr (by simp)
          · exact (Path.noRedRed_plug _ _).2 ⟨s3, hpn, fun _ => Tree.blacken_col _⟩
          · refine (Path.balanced_plug _ _).2 ⟨Tree.blacken_balanced s1, ?_⟩
            rw [Tree.blacken_bh_red s2, s4 rfl]; exact hpb
        | false =>
          refine ⟨_, by simp only [del_fix, if_neg hs, e]; rfl, Tree.blacken_col _, ?_, ?_⟩
          · apply Tree.blacken_noRedRed
            exact (Path.noRedRed_plug _ _).2 ⟨(s5 rfl).1, hpn, by simp⟩
          · apply Tree.blacken_balanced
            refine (Path.balanced_plug _ _).2 ⟨s1, ?_⟩
            rw [(s5 rfl).2]; exact hpb
      | BLACK =>
        obtain ⟨sub, b, e, s1, s2, s3, s4, s5⟩ :=
          del_sib_R_inv p kp np cp h1 h2 h32 h42 rfl h41
        cases b with
        | true =>
          have h43' : up.Balanced (sub.bh + 1) := by
            rw [s4 rfl]
            have : s.bh + (if cp = Color.BLACK then 1 else 0) + 1
              = s.bh + 1 + (if cp = Color.BLACK then 1 else 0) := by omega
            rw [this]; exact h43
          obtain ⟨s', e', r1, r2, r3⟩ := ih sub s3 s1 h33 h43' h5.up_inR
          exact ⟨s', by simp only [del_fix, if_neg hs, e, e'], r1, r2, r3⟩
        | false =>
          refine ⟨_, by simp only [del_fix, if_neg hs, e]; rfl, Tree.blacken_col _, ?_, ?_⟩
          · apply Tree.blacken_noRedRed
            refine (Path.noRedRed_plug _ _).2 ⟨(s5 rfl).1, h33, ?_⟩
            intro hu
            rw [s2]
            cases cp with
            | BLACK => rfl
            | RED => rw [(h31 rfl).2] at hu; exact absurd hu (by simp)
          · apply Tree.blacken_balanced
            refine (Path.balanced_plug _ _).2 ⟨s1, ?_⟩
            rw [(s5 rfl).2]; exact h43

@[simp] theorem Path.decr_parCol (c : Path) : c.decr.parCol = c.parCol := by
  cases c <;> rfl

theorem Path.decr_balanced (c : Path) : ∀ n, c.decr.Balanced n ↔ c.Balanced n := by
  induction c with
  | top => intro n; rfl
  | inL a k m col r up ih => intro n; simp only [Path.decr, Path.Balanced, ih]
  | inR l a k m col up ih => intro n; simp only [Path.decr, Path.Balanced, ih]

theorem Path.decr_noRedRed (c : Path) : c.decr.NoRedRed ↔ c.NoRedRed := by
  induction c with
  | top => rfl
  | inL a k m col r up ih => simp only [Path.decr, Path.NoRedRed, ih, Path.decr_parCol]
  | inR l a k m col up ih => simp only [Path.decr, Path.NoRedRed, ih, Path.decr_parCol]

theorem Path.decr_rootBlack (c : Path) : c.decr.RootBlack ↔ c.RootBlack := by
  induction c with
  | top => rfl
  | inL a k m col r up ih =>
    cases up with
    | top => rfl
    | inL _ _ _ _ _ _ => exact ih
    | inR _ _ _ _ _ _ => exact ih
  | inR l a k m col up ih =>
    cases up with
    | top => rfl
    | inL _ _ _ _ _ _ => exact ih
    | inR _ _ _ _ _ _ => exact ih

theorem Path.decr_eq_top {c : Path} (h : c.decr = Path.top) : c = Path.top := by
  cases c with
  | top => rfl
  | inL _ _ _ _ _ _ => simp [Path.decr] at h
  | inR _ _ _ _ _ _ => simp [Path.decr] at h

theorem Path.comp_ne_top (d : Path) (l : Tree) (a : Nat) (k : Int) (n : Nat) (col : Color)
    (c : Path) : d.comp (Path.inR l a k n col c) ≠ Path.top := by
  cases d <;> simp [Path.comp]

theorem min_path_plug : ∀ (r : Tree) (d : Path), (min_path r d).plug (min_node r) = d.plug r := by
  intro r
  induction r with
  | leaf => intro d; rfl
  | node l a k n c r ihl _ =>
    intro d
    cases l with
    | leaf => rfl
    | node ll la lk ln lc lr =>
      rw [min_path, min_node, ihl]
      rfl

theorem min_path_comp : ∀ (r : Tree) (d : Path), min_path r d = (min_path r Path.top).comp d := by
  intro r
  induction r with
  | leaf => intro d; rfl
  | node l a k n c r ihl _ =>
    intro d
    cases l with
    | leaf => rfl
    | node ll la lk ln lc lr =>
      rw [min_path, ihl, min_path, ihl (Path.inL a k n c r Path.top)]
      generalize min_path (Tree.node ll la lk ln lc lr) Path.top = e
      induction e with
      | top => rfl
      | inL _ _ _ _ _ _ ih => simp only [Path.comp, ih]
      | inR _ _ _ _ _ _ ih => simp only [Path.comp, ih]

theorem min_node_shape : ∀ (r : Tree), r ≠ Tree.leaf →
    ∃ y ky ny cy yr, min_node r = Tree.node Tree.leaf y ky ny cy yr := by
  intro r
  induction r with
  | leaf => intro h; exact absurd rfl h
  | node l a k n c r ihl _ =>
    intro _
    cases l with
    | leaf => exact ⟨a, k, n, c, r, rfl⟩
    | node ll la lk ln lc lr =>
      rw [min_node]
      exact ihl (by simp)

theorem del_at_inv (c : Path) (l : Tree) (z : Nat) (k : Int) (n : Nat) (col : Color) (r : Tree)
    (hcol : (c.plug (Tree.node l z k n col r)).col = Color.BLACK)
    (hnrr : (c.plug (Tree.node l z k n col r)).NoRedRed)
    (hbal : (c.plug (Tree.node l z k n col r)).Balanced) :
    ∃ s', del_at c l col r = some s' ∧ s'.col = Color.BLACK ∧ s'.NoRedRed ∧ s'.Balanced := by
  obtain ⟨⟨n1, n2, n3⟩, n4, n5⟩ := (Path.noRedRed_plug _ _).1 hnrr
  obtain ⟨⟨b1, b2, b3⟩, b4⟩ := (Path.balanced_plug _ _).1 hbal
  have hrb := Path.rootBlack_of_plug _ _ hcol
  have htop : c = Path.top → col = Color.BLACK := by
    rintro rfl; exact hcol
  simp only [Tree.bh] at b4
  simp only [Tree.col_node] at n5
  have d1 := c.decr_noRedRed.2 n4
  have d3 := c.decr_rootBlack.2 hrb
  cases l with
  | leaf =>
    simp only [Tree.bh] at b1 b4
    simp only [del_at]
    cases col with
    | BLACK =>
      simp only [if_true]
      apply del_fix_inv _ _ (Tree.blacken_noRedRed n3) b3 d1 _ d3
      rw [Path.decr_balanced, ← b1]
      simpa using b4
    | RED =>
      simp only [reduceCtorEq, if_false]
      refine ⟨_, rfl, ?_, ?_, ?_⟩
      · apply Path.plug_col_black _ _ d3
        intro h
        exact absurd (htop (Path.decr_eq_top h)) (by simp)
      · exact (Path.noRedRed_plug _ _).2 ⟨n3, d1, fun _ => (n1 rfl).2⟩
      · refine (Path.balanced_plug _ _).2 ⟨b3, ?_⟩
        rw [Path.decr_balanced, ← b1]
        simpa using b4
  | node ll la lk ln lc lr =>
    cases r with
    | leaf =>
      simp only [del_at]
      cases col with
      | BLACK =>
        simp only [if_true]
        apply del_fix_inv _ _ (Tree.blacken_noRedRed n2) b2 d1 _ d3
        rw [Path.decr_balanced]
        simpa using b4
      | RED =>
        simp only [reduceCtorEq, if_false]
        refine ⟨_, rfl, ?_, ?_, ?_⟩
        · apply Path.plug_col_black _ _ d3
          intro h
          exact absurd (htop (Path.decr_eq_top h)) (by simp)
        · exact (Path.noRedRed_plug _ _).2 ⟨n2, d1, fun _ => (n1 rfl).1⟩
        · refine (Path.balanced_plug _ _).2 ⟨b2, ?_⟩
          rw [Path.decr_balanced]
          simpa using b4
    | node rl ra rk rn rc rr =>
      obtain ⟨y, ky, ny, cy, yr, hy⟩ := min_node_shape (Tree.node rl ra rk rn rc rr) (by simp)
      have hpl := min_path_plug (Tree.node rl ra rk rn rc rr) Path.top
      rw [hy] at hpl
      simp only [del_at, hy]
      generalize min_path (Tree.node rl ra rk rn rc rr) Path.top = d at hpl ⊢
      generalize Tree.node rl ra rk rn rc rr = R at hpl n1 n3 b1 b3
      generalize hL : Tree.node ll la lk ln lc lr = L at n1 n2 b1 b2 b4 ⊢
      simp only [Path.plug] at hpl
      have e1 : (d.comp (Path.inR L y ky ny col c.decr)).plug (Tree.node Tree.leaf y ky ny cy yr)
          = c.decr.plug (Tree.node L y ky ny col R) := by
        rw [Path.comp_plug, hpl]; rfl
      have t1 : (c.decr.plug (Tree.node L y ky ny col R)).NoRedRed :=
        (Path.noRedRed_plug _ _).2 ⟨⟨n1, n2, n3⟩, d1, by simpa using n5⟩
      have t2 : (c.decr.plug (Tree.node L y ky ny col R)).Balanced :=
        (Path.balanced_plug _ _).2 ⟨⟨b1, b2, b3⟩, by
          rw [Path.decr_balanced]; simpa only [Tree.bh] using b4⟩
      have t3 : (c.decr.plug (Tree.node L y ky ny col R)).col = Color.BLACK := by
        apply Path.plug_col_black _ _ d3
        intro h
        exact htop (Path.decr_eq_top h)
      rw [← e1] at t1 t2 t3
      have hD := Path.comp_ne_top d L y ky ny col c.decr
      generalize d.comp (Path.inR L y ky ny col c.decr) = D at t1 t2 t3 hD ⊢
      obtain ⟨⟨m1, m2, m3⟩, m4, m5⟩ := (Path.noRedRed_plug _ _).1 t1
      obtain ⟨⟨c1, c2, c3⟩, c4⟩ := (Path.balanced_plug _ _).1 t2
      have hDr := Path.rootBlack_of_plug _ _ t3
      simp only [Tree.bh] at c1 c4
      cases cy with
      | BLACK =>
        simp only [if_true]
        apply del_fix_inv _ _ (Tree.blacken_noRedRed m3) c3 m4 _ hDr
        rw [← c1]
        simpa using c4
      | RED =>
        simp only [reduceCtorEq, if_false]
        refine ⟨_, rfl, ?_, ?_, ?_⟩
        · exact Path.plug_col_black _ _ hDr (fun h => absurd h hD)
        · exact (Path.noRedRed_plug _ _).2 ⟨m3, m4, fun _ => (m1 rfl).2⟩
        · refine (Path.balanced_plug _ _).2 ⟨c3, ?_⟩
          rw [← c1]
          simpa using c4

theorem relink_spec (t : Order_tree) (z y p a : Nat) (hp : (t.mem z).parent = p)
    (ha : (t.mem z).left = a) (hzp : z ≠ p) (hzy : z ≠ y) (hyp : y ≠ p ∨ p = nil)
    (hay : a ≠ y) (haz : a ≠ z) (hap : a ≠ p ∨ p = nil) :
    (rb_delete_relink t z y).mem y
        = { t.mem y with parent := p, left := a, color := (t.mem z).color } ∧
    (rb_delete_relink t z y).mem a = { t.mem a with parent := y } ∧
    (p ≠ nil → (rb_delete_relink t z y).mem p =
      if z = (t.mem p).left then { t.mem p with left := y } else { t.mem p with right := y }) ∧
    (∀ q, q ≠ y → q ≠ a → (q ≠ p ∨ p = nil) → (rb_delete_relink t z y).mem q = t.mem q) ∧
    (rb_delete_relink t z y).root = (if p = nil then y else t.root) ∧
    (rb_delete_relink t z y).next = t.next := by
  obtain ⟨s1, s2, s3, s4, s5⟩ := transplant_spec t z y p hp hzp hzy hyp
  have sz : (transplant t z y).mem z = t.mem z := s3 z hzy (by
    rcases hyp with h | h
    · exact Or.inl hzp
    · exact Or.inr h)
  have hya : y ≠ a := fun e => hay e.symm
  have hza : z ≠ a := fun e => haz e.symm
  have e1 : rb_delete_relink t z y
      = (((transplant t z y).setLeft y a).setParent a y).setColor y (t.mem z).color := by
    simp [rb_delete_relink, setLeft, setParent, setColor, upd, sz, ha, hzy, hay, hya, hza]
  rw [e1]
  refine ⟨?_, ?_, ?_, ?_, ?_, ?_⟩
  · simp [setLeft, setParent, setColor, upd, s1, hay, hya]
  · have sa : (transplant t z y).mem a = t.mem a := s3 a hay hap
    simp [setLeft, setParent, setColor, upd, sa, hay, hya]
  · intro hp0
    have hpy : p ≠ y := fun e => (hyp.resolve_right hp0) e.symm
    have hpa : p ≠ a := fun e => (hap.resolve_right hp0) e.symm
    simp [setLeft, setParent, setColor, upd, s2 hp0, hpy, hpa]
  · intro q hqy hqa hqp
    simp [setLeft, setParent, setColor, upd, s3 q hqy hqp, hqy, hqa]
  · simpa [setLeft, setParent, setColor] using s4
  · simpa [setLeft, setParent, setColor] using s5

theorem relink_focus {t : Order_tree} {c : Path} {l R : Tree} {z y : Nat} {k ky : Int}
    {n ny : Nat} {col cy : Color} {rz py ly : Nat}
    (hp : RepPath t.mem c z) (hz : t.mem z = ⟨k, c.par, l.ptr, rz, n, col⟩)
    (hl : Rep t.mem l z) (hl0 : l.ptr ≠ nil)
    (hy : t.mem y = ⟨ky, py, ly, R.ptr, ny, cy⟩) (hR : Rep t.mem R y)
    (hy0 : y ≠ nil) (hz0 : z ≠ nil)
    (hnd : (c.before ++ ((l.addrs ++ y :: R.addrs) ++ c.after)).Nodup)
    (hzn : z ∉ c.before ++ ((l.addrs ++ y :: R.addrs) ++ c.after))
    (hroot : t.root = c.rootPtr z)
    (hbd : ∀ a ∈ c.before ++ ((l.addrs ++ y :: R.addrs) ++ c.after), a < t.next)
    (hpos : 0 < t.next) (hnc : (t.mem nil).color = Color.BLACK) (hns : (t.mem nil).size = 0) :
    Wf (rb_delete_relink t z y) (c.plug (.node l y ky ny col R))
      ∧ (rb_delete_relink t z y).mem nil = t.mem nil
      ∧ (rb_delete_relink t z y).next = t.next := by
  have hc := fun q => List.nodup_iff_count_le_one.1 hnd q
  simp only [List.count_append, List.count_cons, beq_iff_eq] at hc
  have hcz : c.before.count z + (l.addrs.count z + R.addrs.count z + c.after.count z) = 0 := by
    have h1 : (c.before ++ ((l.addrs ++ y :: R.addrs) ++ c.after)).count z = 0 :=
      List.count_eq_zero.2 hzn
    simp only [List.count_append, List.count_cons, beq_iff_eq] at h1
    omega
  have hzy : z ≠ y := by
    intro e
    apply hzn
    simp [e]
  have hcy := hc y
  simp only [if_true] at hcy
  have hcp := c.par_cnt
  have hcl := l.ptr_cnt
  have hzp : z ≠ c.par := by
    intro e
    rcases hcp with h1 | h1
    · exact hz0 (e.trans h1)
    · rw [← e] at h1; omega
  have hyp : y ≠ c.par ∨ c.par = nil := by
    by_cases e : c.par = 0
    · exact Or.inr e
    · left
      intro e2
      rcases hcp with h1 | h1
      · exact e h1
      · rw [← e2] at h1; omega
  have hay : l.ptr ≠ y := by
    intro e
    rcases hcl with h1 | h1
    · exact hl0 h1
    · rw [e] at h1; omega
  have haz : l.ptr ≠ z := by
    intro e
    rcases hcl with h1 | h1
    · exact hl0 h1
    · rw [e] at h1; omega
  have hap : l.ptr ≠ c.par ∨ c.par = nil := by
    by_cases e : c.par = 0
    · exact Or.inr e
    · left
      intro e2
      rcases hcp with h1 | h1
      · exact e h1
      · rcases hcl with h3 | h3
        · exact hl0 h3
        · rw [e2] at h3
          have := hc c.par
          split_ifs at this <;> omega
  obtain ⟨s1, s2, s3, s4, s5, s6⟩ :=
    relink_spec t z y c.par l.ptr (by rw [hz]) (by rw [hz]) hzp hzy hyp hay haz hap
  have hnil : (rb_delete_relink t z y).mem nil = t.mem nil := by
    apply s4 0 (Ne.symm hy0) (Ne.symm hl0)
    by_cases e : c.par = 0
    · exact Or.inr e
    · exact Or.inl (Ne.symm e)
  have hndP : (c.before ++ c.after).Nodup := by
    apply List.nodup_iff_count_le_one.2
    intro q
    have := hc q
    rw [List.count_append]
    split_ifs at this <;> omega
  have hndl : l.addrs.Nodup := by
    apply List.nodup_iff_count_le_one.2
    intro q
    have := hc q
    split_ifs at this <;> omega
  have hP0 := hp.ne_nil_path
  have hother : ∀ q, (1 ≤ c.before.count q + (l.addrs.count q + R.addrs.count q + c.after.count q))
      → q ≠ l.ptr → q ≠ c.par → (rb_delete_relink t z y).mem q = t.mem q := by
    intro q hq hql hqp
    apply s4 q _ hql (Or.inl hqp)
    rintro rfl
    omega
  refine ⟨?_, hnil, s6⟩
  apply Wf.join
  · apply hp.reslot hndP hz0 (by omega) s3
    intro q hq hqp
    have h1 := cnt_mem_append hq
    apply hother q (by omega) _ hqp
    intro e
    rcases hcl with h3 | h3
    · exact hl0 h3
    · rw [← e] at h3
      have := hc q
      split_ifs at this <;> omega
  · refine ⟨hy0, ?_, ?_, ?_⟩
    · rw [s1, hy, hz]
    · apply hl.reparent hndl (fun _ => s2)
      intro q hq hql
      have h1 := cnt_mem hq
      apply hother q (by omega) hql
      intro e
      rcases hcp with h3 | h3
      · exact hl.ne_nil q hq (e.trans h3)
      · rw [← e] at h3
        have := hc q
        split_ifs at this <;> omega
    · apply hR.frame
      intro q hq
      have h1 := cnt_mem hq
      have := hc q
      apply hother q (by omega)
      · intro e
        rcases hcl with h3 | h3
        · exact hl0 h3
        · rw [← e] at h3
          split_ifs at this <;> omega
      · intro e
        rcases hcp with h3 | h3
        · exact hR.ne_nil q hq (e.trans h3)
        · rw [← e] at h3
          split_ifs at this <;> omega
  · simpa [Tree.addrs] using hnd
  · rw [s5, Tree.ptr_node, hp.rootPtr_eq y, hroot]
  · intro a ha
    rw [s6]
    apply hbd
    simpa [Tree.addrs] using ha
  · rw [s6]; exact hpos
  · rw [hnil]; exact hnc
  · rw [hnil]; exact hns

theorem setParent_nil_color (t : Order_tree) (a p : Nat) :
    ((t.setParent a p).mem nil).color = (t.mem nil).color
      ∧ ((t.setParent a p).mem nil).size = (t.mem nil).size := by
  by_cases h : a = 0
  · subst h; simp [setParent, upd]
  · simp [setParent, upd, Ne.symm h]

theorem tree_min_refines (fuel : Nat) : ∀ (t : Order_tree) (c : Path) (r : Tree),
    Wf t (c.plug r) → r ≠ Tree.leaf → r.height ≤ fuel →
    tree_min t fuel r.ptr = some (min_node r).ptr := by
  induction fuel with
  | zero =>
    intro t c r _ h0 hh
    cases r with
    | leaf => exact absurd rfl h0
    | node l a k n col rr => simp [Tree.height] at hh
  | succ fuel ih =>
    intro t c r h h0 hh
    cases r with
    | leaf => exact absurd rfl h0
    | node l a k n col rr =>
      have ha := h.read
      cases l with
      | leaf => simp [tree_min, ha, min_node]
      | node ll la lk ln lc lr =>
        have hL : Wf t ((Path.inL a k n col rr c).plug (.node ll la lk ln lc lr)) := h
        have hl0 := hL.ptr_ne_nil
        have hh2 : (Tree.node ll la lk ln lc lr).height ≤ fuel := by
          have h1 : (Tree.node (Tree.node ll la lk ln lc lr) a k n col rr).height
            = max (Tree.node ll la lk ln lc lr).height rr.height + 1 := rfl
          rw [h1] at hh
          omega
        have := ih t _ _ hL (by simp) hh2
        simp only [Tree.ptr_node] at this
        simp [tree_min, ha, hl0, min_node, this]

/-- The two-children case when the successor is the right child of the erased node. -/
theorem splice_child {t : Order_tree} {c : Path} {l yr : Tree} {z y : Nat} {k ky : Int}
    {n ny : Nat} {col cy : Color}
    (h : Wf t (c.plug (.node l z k n col (.node .leaf y ky ny cy yr)))) (hl0 : l.ptr ≠ nil) :
    Wf (rb_delete_splice t z y) (c.plug (.node l y ky ny col yr))
      ∧ ((rb_delete_splice t z y).mem yr.ptr).parent = y
      ∧ (rb_delete_splice t z y).next = t.next := by
  obtain ⟨hp, hr, hnd, hroot⟩ := h.split
  have hbd := h.bound_split
  obtain ⟨hz0, hz, hl, hy0, hy, -, hyr⟩ := hr
  simp only [Tree.ptr_node] at hp hroot hz hy
  have hc := fun q => List.nodup_iff_count_le_one.1 hnd q
  simp only [Tree.addrs, List.count_append, List.count_cons, List.count_nil, beq_iff_eq] at hc
  have hcz := hc z
  have hcy := hc y
  simp only [if_true] at hcz hcy
  have hzy : z ≠ y := by
    intro e
    have := hc z
    rw [e] at this
    simp only [if_true] at this
    omega
  have hcr := yr.ptr_cnt
  have e0 : rb_delete_splice t z y = rb_delete_relink (t.setParent yr.ptr y) z y := by
    simp [rb_delete_splice, hy]
  have hne : ∀ q, q ≠ nil → yr.addrs.count q = 0 → q ≠ yr.ptr := by
    intro q hq0 hq e
    rcases hcr with h1 | h1
    · exact hq0 (e.trans h1)
    · rw [← e] at h1; omega
  have hfr : ∀ q, q ≠ nil → yr.addrs.count q = 0 → (t.setParent yr.ptr y).mem q = t.mem q := by
    intro q hq0 hq
    simp [setParent, upd, hne q hq0 hq]
  have hzc : yr.addrs.count z = 0 := by
    split_ifs at hcz <;> omega
  have hyc : yr.addrs.count y = 0 := by
    split_ifs at hcy <;> omega
  have hP0 := hp.ne_nil_path
  have key := @relink_focus (t.setParent yr.ptr y) c l yr z y k ky n ny col cy y z 0
    (by
      apply hp.frame_path
      intro q hq
      have h1 := cnt_mem_append hq
      have := hc q
      apply hfr q (hP0 q hq)
      split_ifs at this <;> omega)
    (by rw [hfr z hz0 hzc, hz])
    (by
      apply hl.frame
      intro q hq
      have h1 := cnt_mem hq
      have := hc q
      apply hfr q (hl.ne_nil q hq)
      split_ifs at this <;> omega)
    hl0
    (by rw [hfr y hy0 hyc, hy]; rfl)
    (by
      have hndr : yr.addrs.Nodup := by
        apply List.nodup_iff_count_le_one.2
        intro q
        have := hc q
        split_ifs at this <;> omega
      apply hyr.reparent hndr
      · intro _
        simp [setParent, upd]
      · intro q _ hq
        simp [setParent, upd, hq])
    hy0 hz0
    (by
      apply List.nodup_iff_count_le_one.2
      intro q
      have := hc q
      simp only [List.count_append, List.count_cons, beq_iff_eq]
      split_ifs at this ⊢ <;> omega)
    (by
      intro hm
      have h1 := cnt_mem hm
      simp only [List.count_append, List.count_cons, beq_iff_eq] at h1
      split_ifs at h1 hcz <;> omega)
    (by simpa [setParent] using hroot)
    (by
      intro a ha
      show a < t.next
      apply hbd
      simp only [Tree.addrs, List.mem_append, List.mem_cons, List.not_mem_nil, false_or] at ha ⊢
      tauto)
    h.pos
    (by rw [(setParent_nil_color t yr.ptr y).1]; exact h.nil_color)
    (by rw [(setParent_nil_color t yr.ptr y).2]; exact h.nil_size)
  rw [e0]
  obtain ⟨k1, k2, k3⟩ := key
  refine ⟨k1, ?_, k3⟩
  cases yr with
  | leaf =>
    simp only [Tree.ptr_leaf] at k2 ⊢
    rw [k2]
    simp [setParent, upd]
  | node yl ya kya nya cya yrr =>
    have hV : Wf (rb_delete_relink (t.setParent ya y) z y)
      ((Path.inR l y ky ny col c).plug (.node yl ya kya nya cya yrr)) := k1
    simp only [Tree.ptr_node]
    rw [hV.read]
    rfl

theorem Path.comp_par {d : Path} (hd : d ≠ Path.top) (e : Path) : (d.comp e).par = d.par := by
  cases d with
  | top => exact absurd rfl hd
  | inL _ _ _ _ _ _ => rfl
  | inR _ _ _ _ _ _ => rfl

theorem Path.par_mem_of_ne_top {d : Path} (hd : d ≠ Path.top) : d.par ∈ d.before ++ d.after := by
  cases d with
  | top => exact absurd rfl hd
  | inL _ _ _ _ _ _ => simp [Path.before, Path.after]
  | inR _ _ _ _ _ _ => simp [Path.before, Path.after]

theorem Path.plug_ptr_mem {d : Path} (hd : d ≠ Path.top) (s : Tree) :
    (d.plug s).ptr ∈ d.before ++ d.after := by
  rw [Path.plug_ptr]
  exact d.rootPtr_mem _ hd

/-- The two-children case when the successor lies deeper in the right subtree. -/
theorem splice_deep {t : Order_tree} {c d : Path} {l yr : Tree} {z y : Nat} {k ky : Int}
    {n ny : Nat} {col cy : Color}
    (h : Wf t (c.plug (.node l z k n col (d.plug (.node .leaf y ky ny cy yr)))))
    (hd : d ≠ Path.top) (hl0 : l.ptr ≠ nil) :
    Wf (rb_delete_splice t z y) (c.plug (.node l y ky ny col (d.plug yr)))
      ∧ ((rb_delete_splice t z y).mem yr.ptr).parent = d.par
      ∧ (rb_delete_splice t z y).next = t.next := by
  have hV : Wf t ((d.comp (Path.inR l z k n col c)).plug (.node .leaf y ky ny cy yr)) := by
    rw [Path.comp_plug]; exact h
  have hy := hV.read
  rw [Path.comp_par hd] at hy
  have hy0 := hV.ptr_ne_nil
  obtain ⟨w1, p1, f1, n1⟩ := transplant_child hV yr (Or.inr rfl)
  rw [Path.comp_par hd] at p1
  rw [Path.comp_plug] at w1 f1
  have hW1 : Wf (transplant t y yr.ptr) (c.plug (.node l z k n col (d.plug yr))) := w1
  have hz1 := hW1.read
  obtain ⟨hp, hr, hnd, hroot⟩ := hW1.split
  have hbd := h.bound_split
  obtain ⟨hz0, -, hl, hR⟩ := hr
  simp only [Tree.ptr_node] at hp hroot
  have hnd0 := h.split.2.2.1
  have hc := fun q => List.nodup_iff_count_le_one.1 hnd0 q
  have hcnt : ∀ q, (d.plug (.node .leaf y ky ny cy yr)).addrs.count q
      = (d.plug yr).addrs.count q + (if y = q then 1 else 0) := by
    intro q
    simp only [Path.plug_addrs, Tree.addrs, List.count_append, List.count_cons, List.count_nil,
      beq_iff_eq]
    omega
  simp only [Tree.addrs, List.count_append, List.count_cons, beq_iff_eq, hcnt] at hc
  have hcz := hc z
  have hcy := hc y
  simp only [if_true] at hcz hcy
  have hzy : z ≠ y := by
    intro e
    have := hc z
    rw [e] at this
    simp only [if_true] at this
    omega
  have hRm : (d.plug yr).ptr ∈ (d.plug yr).addrs := by
    have := Path.plug_ptr_mem hd yr
    rw [Path.plug_addrs]
    simp only [List.mem_append] at this ⊢
    tauto
  have hR0 : (d.plug yr).ptr ≠ nil := hR.ne_nil _ hRm
  have hRc := cnt_mem hRm
  have hRy : y ≠ (d.plug yr).ptr := by
    intro e
    rw [← e] at hRc
    omega
  have hpz : ¬ (d.par = z) := by
    intro e
    have h1 : d.par ∈ (d.plug yr).addrs := by
      have := Path.par_mem_of_ne_top hd
      rw [Path.plug_addrs]
      simp only [List.mem_append] at this ⊢
      tauto
    have := cnt_mem h1
    rw [e] at this
    split_ifs at hcz <;> omega
  have hy1 : (transplant t y yr.ptr).mem y = t.mem y := by
    apply f1 y _ hy0
    intro hm
    have hm2 : y ∈ (c.plug (.node l z k n col (d.plug yr))).addrs := hm
    have h1 := cnt_mem hm2
    rw [Path.plug_addrs] at h1
    simp only [Tree.addrs, List.count_append, List.count_cons, beq_iff_eq] at h1
    split_ifs at h1 hcy <;> omega
  have e0 : rb_delete_splice t z y = rb_delete_relink
      (((transplant t y yr.ptr).setRight y (d.plug yr).ptr).setParent (d.plug yr).ptr y) z y := by
    simp [rb_delete_splice, hy, hpz, hz1, setRight, setParent, upd]
  have hfr : ∀ q, q ≠ y → q ≠ (d.plug yr).ptr →
      (((transplant t y yr.ptr).setRight y (d.plug yr).ptr).setParent (d.plug yr).ptr y).mem q
        = (transplant t y yr.ptr).mem q := by
    intro q h1 h2
    simp [setRight, setParent, upd, h1, h2]
  have hP0 := hp.ne_nil_path
  have key := @relink_focus
    (((transplant t y yr.ptr).setRight y (d.plug yr).ptr).setParent (d.plug yr).ptr y)
    c l (d.plug yr) z y k ky n ny col cy (d.plug yr).ptr d.par 0
    (by
      apply hp.frame_path
      intro q hq
      have h1 := cnt_mem_append hq
      have := hc q
      apply hfr q
      · rintro rfl
        split_ifs at this <;> omega
      · rintro rfl
        split_ifs at this <;> omega)
    (by
      have h1 : z ≠ (d.plug yr).ptr := by
        rintro e
        rw [← e] at hRc
        split_ifs at hcz <;> omega
      rw [hfr z hzy h1, hz1])
    (by
      apply hl.frame
      intro q hq
      have h1 := cnt_mem hq
      have := hc q
      apply hfr q
      · rintro rfl
        split_ifs at this <;> omega
      · rintro rfl
        split_ifs at this <;> omega)
    hl0
    (by
      simp [setRight, setParent, upd, hRy, Ne.symm hRy, hy1, hy])
    (by
      have hndr : (d.plug yr).addrs.Nodup := by
        apply List.nodup_iff_count_le_one.2
        intro q
        have := hc q
        split_ifs at this <;> omega
      apply hR.reparent hndr
      · intro _
        simp [setRight, setParent, upd, hRy, Ne.symm hRy]
      · intro q hq hq2
        have h1 := cnt_mem hq
        have := hc q
        apply hfr q _ hq2
        rintro rfl
        split_ifs at this <;> omega)
    hy0 hz0
    (by
      apply List.nodup_iff_count_le_one.2
      intro q
      have := hc q
      simp only [List.count_append, List.count_cons, beq_iff_eq]
      split_ifs at this ⊢ <;> omega)
    (by
      intro hm
      have h1 := cnt_mem hm
      simp only [List.count_append, List.count_cons, beq_iff_eq] at h1
      split_ifs at h1 hcz <;> omega)
    (by simpa [setRight, setParent] using hroot)
    (by
      intro a ha
      show a < (transplant t y yr.ptr).next
      rw [n1]
      apply hbd
      have h1 := cnt_mem ha
      apply List.count_pos_iff.1
      simp only [Tree.addrs, List.count_append, List.count_cons, beq_iff_eq, hcnt] at h1 ⊢
      split_ifs at h1 ⊢ <;> omega)
    hW1.pos
    (by rw [hfr 0 (Ne.symm hy0) (Ne.symm hR0)]; exact hW1.nil_color)
    (by rw [hfr 0 (Ne.symm hy0) (Ne.symm hR0)]; exact hW1.nil_size)
  rw [e0]
  obtain ⟨k1, k2, k3⟩ := key
  refine ⟨k1, ?_, ?_⟩
  · cases yr with
    | leaf =>
      have h1 := k2
      rw [hfr 0 (Ne.symm hy0) (Ne.symm hR0)] at h1
      have h2 : ((transplant t y Tree.leaf.ptr).mem nil).parent = d.par := p1
      rw [← h1] at h2
      exact h2
    | node yl ya kya nya cya yrr =>
      have hV2 : Wf (rb_delete_relink
          (((transplant t y ya).setRight y (d.plug (.node yl ya kya nya cya yrr)).ptr).setParent
            (d.plug (.node yl ya kya nya cya yrr)).ptr y) z y)
          ((d.comp (Path.inR l y ky ny col c)).plug (.node yl ya kya nya cya yrr)) := by
        rw [Path.comp_plug]; exact k1
      simp only [Tree.ptr_node]
      rw [hV2.read, Path.comp_par hd]
  · rw [k3]
    show (transplant t y yr.ptr).next = t.next
    exact n1

theorem rb_delete_left_nil (fuel : Nat) (t : Order_tree) (z : Nat) (h : (t.mem z).left = nil) :
    rb_delete fuel t z =
      match rb_delete_size_loop fuel (transplant t z (t.mem z).right)
          ((transplant t z (t.mem z).right).mem z).parent with
      | none => none
      | some t2 =>
        if (t.mem z).color = Color.BLACK then rb_delete_fixup fuel t2 (t.mem z).right
        else some t2 := by
  simp only [rb_delete, h, if_true]

theorem rb_delete_right_nil (fuel : Nat) (t : Order_tree) (z : Nat) (h : (t.mem z).left ≠ nil)
    (h2 : (t.mem z).right = nil) :
    rb_delete fuel t z =
      match rb_delete_size_loop fuel (transplant t z (t.mem z).left)
          ((transplant t z (t.mem z).left).mem z).parent with
      | none => none
      | some t2 =>
        if (t.mem z).color = Color.BLACK then rb_delete_fixup fuel t2 (t.mem z).left
        else some t2 := by
  simp only [rb_delete, h, h2, if_true, if_false]

theorem rb_delete_two (fuel : Nat) (t : Order_tree) (z y : Nat) (h : (t.mem z).left ≠ nil)
    (h2 : (t.mem z).right ≠ nil) (hm : tree_min t fuel (t.mem z).right = some y) :
    rb_delete fuel t z =
      match rb_delete_size_loop fuel (rb_delete_splice t z y)
          ((rb_delete_splice t z y).mem y).parent with
      | none => none
      | some t2 =>
        if (t.mem y).color = Color.BLACK then rb_delete_fixup fuel t2 (t.mem y).right
        else some t2 := by
  simp only [rb_delete, h, h2, if_false, hm]
  rfl

theorem Path.decr_depth (c : Path) : c.decr.depth = c.depth := by
  induction c with
  | top => rfl
  | inL a k n col r up ih => simp only [Path.decr, Path.depth, ih]
  | inR l a k n col up ih => simp only [Path.decr, Path.depth, ih]

/-- The size loop and the fixup that end `rb_delete`. -/
theorem delete_finish {t1 : Order_tree} {c D : Path} {S sx s' : Tree} {cm : Color}
    (h1 : Wf t1 (c.plug S)) (hD : D.plug sx = c.decr.plug S)
    (hpar : (t1.mem sx.ptr).parent = D.par)
    (hfix : (if cm = Color.BLACK then del_fix D sx else some (D.plug sx)) = some s') :
    ∃ t2, (match rb_delete_size_loop t1.next t1 c.par with
        | none => none
        | some t => if cm = Color.BLACK then rb_delete_fixup t1.next t sx.ptr else some t)
          = some t2 ∧ Wf t2 s' ∧ t2.next = t1.next := by
  obtain ⟨t2, e2, w2, n2, f2⟩ := size_loop_refines t1.next t1 c S h1 h1.depth_lt
  rw [← hD] at w2
  rw [e2]
  cases cm with
  | BLACK =>
    simp only [if_true] at hfix ⊢
    have hd := w2.depth_lt
    rw [n2] at hd
    obtain ⟨t3, e3, w3, n3⟩ :=
      rb_delete_fixup_refines t1.next t2 D sx s' w2 (by rw [f2, hpar]) hfix hd
    exact ⟨t3, e3, w3, by rw [n3, n2]⟩
  | RED =>
    simp only [reduceCtorEq, if_false, Option.some.injEq] at hfix ⊢
    subst hfix
    exact ⟨t2, rfl, w2, n2⟩

theorem Wf.height_focus_lt {t : Order_tree} {c : Path} {s : Tree} (h : Wf t (c.plug s)) :
    s.height < t.next := by
  have h1 := h.length_lt
  rw [Path.plug_addrs] at h1
  simp only [List.length_append] at h1
  have := s.height_le_length
  omega

theorem rb_delete_refines {t : Order_tree} {c : Path} {l r s' : Tree} {z : Nat} {k : Int}
    {n : Nat} {col : Color} (h : Wf t (c.plug (.node l z k n col r)))
    (hd : del_at c l col r = some s') :
    ∃ t2, rb_delete t.next t z = some t2 ∧ Wf t2 s' ∧ t2.next = t.next := by
  have hz := h.read
  have hz0 := h.ptr_ne_nil
  have hzl : (t.mem z).left = l.ptr := by rw [hz]
  have hzr : (t.mem z).right = r.ptr := by rw [hz]
  have hzc : (t.mem z).color = col := by rw [hz]
  have hnd := h.nodup
  rw [Path.plug_addrs] at hnd
  have hzn : ∀ s2, s2 = l ∨ s2 = r → z ∉ (c.plug s2).addrs := by
    intro s2 hs hm
    have hc := List.nodup_iff_count_le_one.1 hnd z
    have h1 := cnt_mem hm
    rw [Path.plug_addrs] at h1
    simp only [Tree.addrs, List.count_append, List.count_cons, beq_iff_eq, if_true] at hc h1
    rcases hs with rfl | rfl <;> omega
  cases l with
  | leaf =>
    obtain ⟨w1, p1, f1, n1⟩ := transplant_child h r (Or.inr rfl)
    have hz1 : ((transplant t z r.ptr).mem z).parent = c.par := by
      rw [f1 z (hzn r (Or.inr rfl)) hz0, hz]
    have hfix : (if col = Color.BLACK then del_fix c.decr r else some (c.decr.plug r))
        = some s' := by
      simpa only [del_at] using hd
    obtain ⟨t2, e2, w2, n2⟩ := delete_finish w1 rfl (by rw [p1, Path.decr_par]) hfix
    refine ⟨t2, ?_, w2, by rw [n2, n1]⟩
    rw [rb_delete_left_nil _ _ _ (by rw [hzl]; rfl), hzr, hzc, hz1]
    rw [n1] at e2
    exact e2
  | node ll la lk ln lc lr =>
    have hL : Wf t ((Path.inL z k n col r c).plug (.node ll la lk ln lc lr)) := h
    have hl0 : (t.mem z).left ≠ nil := by rw [hzl]; exact hL.ptr_ne_nil
    cases r with
    | leaf =>
      obtain ⟨w1, p1, f1, n1⟩ := transplant_child h (.node ll la lk ln lc lr) (Or.inl rfl)
      simp only [Tree.ptr_node] at w1 p1 f1 n1
      have hz1 : ((transplant t z la).mem z).parent = c.par := by
        rw [f1 z (hzn _ (Or.inl rfl)) hz0, hz]
      have hfix : (if col = Color.BLACK then del_fix c.decr (.node ll la lk ln lc lr)
          else some (c.decr.plug (.node ll la lk ln lc lr))) = some s' := by
        simpa only [del_at] using hd
      obtain ⟨t2, e2, w2, n2⟩ := delete_finish w1 rfl (by rw [Path.decr_par]; exact p1) hfix
      refine ⟨t2, ?_, w2, by rw [n2, n1]⟩
      rw [rb_delete_right_nil _ _ _ hl0 (by rw [hzr]; rfl), hzl, hzc]
      simp only [Tree.ptr_node] at e2 ⊢
      rw [hz1]
      rw [n1] at e2
      exact e2
    | node rl ra rk rn rc rr =>
      have hR : Wf t ((Path.inR (.node ll la lk ln lc lr) z k n col c).plug
        (.node rl ra rk rn rc rr)) := h
      have hr0 : (t.mem z).right ≠ nil := by rw [hzr]; exact hR.ptr_ne_nil
      have hmin := tree_min_refines t.next t _ _ hR (by simp) (le_of_lt hR.height_focus_lt)
      obtain ⟨y, ky, ny, cy, yr, hy⟩ := min_node_shape (Tree.node rl ra rk rn rc rr) (by simp)
      have hpl := min_path_plug (Tree.node rl ra rk rn rc rr) Path.top
      rw [hy] at hpl hmin
      simp only [del_at, hy] at hd
      simp only [Path.plug] at hpl
      simp only [Tree.ptr_node] at hmin
      have hzr2 : (t.mem z).right = ra := hzr
      rw [← hzr2] at hmin
      rw [rb_delete_two _ _ _ _ hl0 hr0 hmin]
      generalize min_path (Tree.node rl ra rk rn rc rr) Path.top = d at hpl hd
      have hLp : (Tree.node ll la lk ln lc lr).ptr ≠ nil := hL.ptr_ne_nil
      generalize hLe : Tree.node ll la lk ln lc lr = L at h hL hR hd hzl hnd hz hLp
      rw [← hpl] at h
      have hV : Wf t ((d.comp (Path.inR L z k n col c)).plug (.node .leaf y ky ny cy yr)) := by
        rw [Path.comp_plug]; exact h
      have hyr := hV.read
      have hyc : (t.mem y).color = cy := by rw [hyr]
      have hyrt : (t.mem y).right = yr.ptr := by rw [hyr]
      have hsp : Wf (rb_delete_splice t z y) (c.plug (.node L y ky ny col (d.plug yr)))
          ∧ ((rb_delete_splice t z y).mem yr.ptr).parent
              = (d.comp (Path.inR L y ky ny col c.decr)).par
          ∧ (rb_delete_splice t z y).next = t.next := by
        by_cases hdt : d = Path.top
        · subst hdt
          exact splice_child h hLp
        · obtain ⟨a1, a2, a3⟩ := splice_deep h hdt hLp
          exact ⟨a1, by rw [a2, Path.comp_par hdt], a3⟩
      obtain ⟨w1, p1, n1⟩ := hsp
      have hy1 : ((rb_delete_splice t z y).mem y).parent = c.par := by rw [w1.read]
      have hfix : (if cy = Color.BLACK then del_fix (d.comp (Path.inR L y ky ny col c.decr)) yr
          else some ((d.comp (Path.inR L y ky ny col c.decr)).plug yr)) = some s' := hd
      obtain ⟨t2, e2, w2, n2⟩ := delete_finish w1 (by rw [Path.comp_plug]; rfl) p1 hfix
      refine ⟨t2, ?_, w2, by rw [n2, n1]⟩
      rw [hyc, hyrt, hy1]
      rw [n1] at e2
      exact e2

theorem tree_find_refines (fuel : Nat) : ∀ (t : Order_tree) (c : Path) (s : Tree) (key : Int),
    Wf t (c.plug s) → s.height < fuel →
    ∃ a, tree_find t fuel s.ptr key = some a ∧ (a = nil ∨ a ∈ s.addrs) := by
  induction fuel with
  | zero => intro t c s key _ hd; omega
  | succ fuel ih =>
    intro t c s key h hd
    cases s with
    | leaf => exact ⟨nil, by simp [tree_find], Or.inl rfl⟩
    | node l a k n col r =>
      have hL : Wf t ((Path.inL a k n col r c).plug l) := h
      have hR : Wf t ((Path.inR l a k n col c).plug r) := h
      have ha := h.read
      have ha0 := h.ptr_ne_nil
      simp only [Tree.height] at hd
      by_cases hk : k = key
      · exact ⟨a, by simp [tree_find, ha, hk], Or.inr (by simp [Tree.addrs])⟩
      · by_cases hlt : key < k
        · obtain ⟨b, e, hb⟩ := ih t _ l key hL (by omega)
          refine ⟨b, by simp [tree_find, ha, ha0, hk, hlt, e], ?_⟩
          rcases hb with hb | hb
          · exact Or.inl hb
          · exact Or.inr (by simp [Tree.addrs, hb])
        · obtain ⟨b, e, hb⟩ := ih t _ r key hR (by omega)
          refine ⟨b, by simp [tree_find, ha, ha0, hk, hlt, e], ?_⟩
          rcases hb with hb | hb
          · exact Or.inl hb
          · exact Or.inr (by simp [Tree.addrs, hb])

theorem erase_refines {t : Order_tree} {s : Tree} (h : Wf t s) (hcol : s.col = Color.BLACK)
    (hn : s.NoRedRed) (hb : s.Balanced) (key : Int) :
    ∃ t2 s2, erase t key = some t2 ∧ Wf t2 s2 ∧ s2.col = Color.BLACK ∧ s2.NoRedRed
      ∧ s2.Balanced := by
  obtain ⟨a, e, ha⟩ := tree_find_refines t.next t Path.top s key h h.height_lt
  rw [← h.root] at e
  by_cases ha0 : a = nil
  · subst ha0
    exact ⟨t, s, by simp [erase, e], h, hcol, hn, hb⟩
  · have hm := ha.resolve_left ha0
    obtain ⟨c, l, k, n, col, r, rfl⟩ := Tree.exists_path hm
    obtain ⟨s', e1, c1, c2, c3⟩ := del_at_inv c l a k n col r hcol hn hb
    obtain ⟨t2, e2, w2, _⟩ := rb_delete_refines h e1
    exact ⟨t2, s', by simp [erase, e, ha0, e2], w2, c1, c2, c3⟩

theorem Wf.noRedRed_focus {t : Order_tree}
    (hrr : ∀ a, IsNode t a → (t.mem a).color = Color.RED →
      (t.mem (t.mem a).parent).color = Color.BLACK) (s : Tree) :
    ∀ c : Path, Wf t (c.plug s) → s.NoRedRed := by
  induction s with
  | leaf => intro _ _; trivial
  | node l a k n col r ihl ihr =>
    intro c h
    have hL : Wf t ((Path.inL a k n col r c).plug l) := h
    have hR : Wf t ((Path.inR l a k n col c).plug r) := h
    have ha := h.read
    refine ⟨?_, ihl _ hL, ihr _ hR⟩
    intro hc
    subst hc
    constructor
    · cases l with
      | leaf => rfl
      | node ll la lk ln lc lr =>
        cases lc with
        | BLACK => rfl
        | RED =>
          have h1 := hrr la (Wf.isNode_focus _ hL hL.ptr_ne_nil) (by rw [hL.read])
          rw [hL.read] at h1
          simp only [Path.par_inL, ha] at h1
          exact absurd h1 (by simp)
    · cases r with
      | leaf => rfl
      | node rl ra rk rn rc rr =>
        cases rc with
        | BLACK => rfl
        | RED =>
          have h1 := hrr ra (Wf.isNode_focus _ hR hR.ptr_ne_nil) (by rw [hR.read])
          rw [hR.read] at h1
          simp only [Path.par_inR, ha] at h1
          exact absurd h1 (by simp)

theorem black_counts_refines (fuel : Nat) : ∀ (t : Order_tree) (c : Path) (s : Tree),
    Wf t (c.plug s) → s.height < fuel → black_counts t fuel s.ptr = some s.bcounts := by
  induction fuel with
  | zero => intro t c s _ hd; omega
  | succ fuel ih =>
    intro t c s h hd
    cases s with
    | leaf => simp [black_counts, Tree.bcounts]
    | node l a k n col r =>
      have hL : Wf t ((Path.inL a k n col r c).plug l) := h
      have hR : Wf t ((Path.inR l a k n col c).plug r) := h
      simp only [Tree.height] at hd
      have e1 := ih t _ l hL (by omega)
      have e2 := ih t _ r hR (by omega)
      simp [black_counts, h.ptr_ne_nil, h.read, e1, e2, Tree.bcounts]

theorem Tree.bcounts_ne_nil (s : Tree) : s.bcounts ≠ [] := by
  induction s with
  | leaf => simp [Tree.bcounts]
  | node l a k n c r ihl ihr => simp [Tree.bcounts, ihl]

theorem Tree.bcounts_const (s : Tree) : ∀ n : Nat,
    (∀ x ∈ s.bcounts, x = n) ↔ s.Balanced ∧ s.bh = n := by
  induction s with
  | leaf => intro n; simp [Tree.bcounts, Tree.Balanced, Tree.bh]
  | node l a k m c r ihl ihr =>
    intro n
    simp only [Tree.bcounts, Tree.Balanced, Tree.bh, List.mem_map, List.mem_append,
      forall_exists_index, and_imp]
    constructor
    · intro hx
      obtain ⟨y, hy⟩ := List.exists_mem_of_ne_nil _ l.bcounts_ne_nil
      have hl : ∀ x ∈ l.bcounts, x = y := by
        intro x hm
        have h1 := hx _ x (Or.inl hm) rfl
        have h2 := hx _ y (Or.inl hy) rfl
        split_ifs at h1 h2 <;> omega
      have hr : ∀ x ∈ r.bcounts, x = y := by
        intro x hm
        have h1 := hx _ x (Or.inr hm) rfl
        have h2 := hx _ y (Or.inl hy) rfl
        split_ifs at h1 h2 <;> omega
      obtain ⟨b1, b2⟩ := (ihl y).1 hl
      obtain ⟨b3, b4⟩ := (ihr y).1 hr
      refine ⟨⟨by omega, b1, b3⟩, ?_⟩
      have h2 := hx _ y (Or.inl hy) rfl
      split_ifs at h2 ⊢ <;> omega
    · rintro ⟨⟨b0, b1, b3⟩, b4⟩ x y hm rfl
      have hl := (ihl l.bh).2 ⟨b1, rfl⟩
      have hr := (ihr r.bh).2 ⟨b3, rfl⟩
      rcases hm with hm | hm
      · have := hl y hm
        split_ifs at b4 ⊢ <;> omega
      · have := hr y hm
        split_ifs at b4 ⊢ <;> omega

theorem Wf_black_triple :
    Wf black_triple (Tree.node (Tree.node Tree.leaf 2 1 1 Color.BLACK Tree.leaf) 1 2 3
      Color.BLACK (Tree.node Tree.leaf 3 3 1 Color.BLACK Tree.leaf)) := by
  refine ⟨rfl, ?_, ?_, ?_, ?_, ?_, ?_⟩
  · exact ⟨by decide, by simp [black_triple, upd], ⟨by decide, by simp [black_triple, upd],
      trivial, trivial⟩, ⟨by decide, by simp [black_triple, upd], trivial, trivial⟩⟩
  · simp [Tree.addrs]
  · intro a ha
    simp [Tree.addrs] at ha
    rcases ha with rfl | rfl | rfl <;> decide
  · decide
  · rfl
  · rfl

/-- C8: in a well-formed tree whose root is BLACK, in which the parent of every RED node
is BLACK and in which all paths from the root down to the sentinel hold the same number of
BLACK nodes, `erase(k)` returns for every key `k` a well-formed tree with the same three
properties: the root (the sentinel when the tree is empty) is BLACK, the parent of every
RED node is BLACK, and all paths from the root down to the sentinel hold the same number
of BLACK nodes. Neither BST order, nor the size invariant, nor the presence of `k` in the
tree is needed for this. -/
theorem erase_keeps_red_black_colouring (t : Order_tree) (k : Int)
    (hw : WellFormed t) (hroot : (t.mem t.root).color = Color.BLACK)
    (hrr : ∀ a, IsNode t a → (t.mem a).color = Color.RED →
      (t.mem (t.mem a).parent).color = Color.BLACK)
    (hbh : ∃ L n, black_counts t t.next t.root = some L ∧ ∀ x ∈ L, x = n) :
    ∃ t2, erase t k = some t2 ∧ WellFormed t2
      ∧ (t2.mem t2.root).color = Color.BLACK
      ∧ (∀ a, IsNode t2 a → (t2.mem a).color = Color.RED →
          (t2.mem (t2.mem a).parent).color = Color.BLACK)
      ∧ ∃ L n, black_counts t2 t2.next t2.root = some L ∧ ∀ x ∈ L, x = n := by
  obtain ⟨s, w⟩ := hw
  have hcol : s.col = Color.BLACK := by
    rw [← w.rep.color_eq w.nil_color, ← w.root]; exact hroot
  have hn : s.NoRedRed := Wf.noRedRed_focus hrr s Path.top w
  have hb : s.Balanced := by
    obtain ⟨L, n, e, hL⟩ := hbh
    have h1 := black_counts_refines t.next t Path.top s w w.height_lt
    rw [← w.root, e] at h1
    simp only [Option.some.injEq] at h1
    subst h1
    exact ((s.bcounts_const n).1 hL).1
  obtain ⟨t2, s2, e, w2, c1, c2, c3⟩ := erase_refines w hcol hn hb k
  refine ⟨t2, e, ⟨s2, w2⟩, ?_, fun a ha hc => w2.red_parent_black c2 ha hc, ?_⟩
  · rw [w2.root, w2.rep.color_eq w2.nil_color, c1]
  · refine ⟨s2.bcounts, s2.bh, ?_, (s2.bcounts_const s2.bh).2 ⟨c3, rfl⟩⟩
    rw [w2.root]
    exact black_counts_refines t2.next t2 Path.top s2 w2 w2.height_lt

theorem erase_keeps_red_black_colouring_witness :
    WellFormed black_triple ∧ (black_triple.mem black_triple.root).color = Color.BLACK
      ∧ black_counts black_triple black_triple.next black_triple.root = some [2, 2, 2, 2]
      ∧ ∃ t2, erase black_triple 1 = some t2 ∧ WellFormed t2
        ∧ (t2.mem t2.root).color = Color.BLACK
        ∧ (∀ a, IsNode t2 a → (t2.mem a).color = Color.RED →
            (t2.mem (t2.mem a).parent).color = Color.BLACK)
        ∧ ∃ L n, black_counts t2 t2.next t2.root = some L ∧ ∀ x ∈ L, x = n :=
  ⟨⟨_, Wf_black_triple⟩, rfl, by decide,
    erase_keeps_red_black_colouring black_triple 1 ⟨_, Wf_black_triple⟩ rfl
      (fun _ ha hc => Wf_black_triple.red_parent_black (by simp [Tree.NoRedRed]) ha hc)
      ⟨[2, 2, 2, 2], 2, by decide, by decide⟩⟩

theorem tree_find_spec (fuel : Nat) : ∀ (t : Order_tree) (c : Path) (s : Tree) (key : Int),
    Wf t (c.plug s) → s.height < fuel →
    ∃ a, tree_find t fuel s.ptr key = some a
      ∧ (a = nil ∨ (a ∈ s.addrs ∧ (t.mem a).key = key))
      ∧ (key ∉ s.keys → a = nil)
      ∧ (s.keys.Sorted (· ≤ ·) → key ∈ s.keys → a ≠ nil) := by
  induction fuel with
  | zero => intro t c s key _ hd; omega
  | succ fuel ih =>
    intro t c s key h hd
    cases s with
    | leaf =>
      exact ⟨nil, by simp [tree_find], Or.inl rfl, fun _ => rfl, fun _ hm => by
        simp [Tree.keys] at hm⟩
    | node l a k n col r =>
      have hL : Wf t ((Path.inL a k n col r c).plug l) := h
      have hR : Wf t ((Path.inR l a k n col c).plug r) := h
      have ha := h.read
      have ha0 := h.ptr_ne_nil
      simp only [Tree.height] at hd
      by_cases hk : k = key
      · refine ⟨a, by simp [tree_find, ha, hk], Or.inr ⟨by simp [Tree.addrs], by rw [ha, hk]⟩,
          ?_, fun _ _ => ha0⟩
        intro hn
        exact absurd (by simp [Tree.keys, hk]) hn
      · by_cases hlt : key < k
        · obtain ⟨b, e, hb, hc, hd2⟩ := ih t _ l key hL (by omega)
          refine ⟨b, by simp [tree_find, ha, ha0, hk, hlt, e], ?_, ?_, ?_⟩
          · rcases hb with hb | hb
            · exact Or.inl hb
            · exact Or.inr ⟨by simp [Tree.addrs, hb.1], hb.2⟩
          · intro hn
            apply hc
            intro hm
            exact hn (by simp [Tree.keys, hm])
          · intro hs hm
            simp only [Tree.keys, List.Sorted, List.pairwise_append, List.pairwise_cons,
              List.mem_cons] at hs
            apply hd2 hs.1
            simp only [Tree.keys, List.mem_append, List.mem_cons] at hm
            rcases hm with hm | hm | hm
            · exact hm
            · exact absurd hm.symm hk
            · have := hs.2.1.1 key hm
              omega
        · obtain ⟨b, e, hb, hc, hd2⟩ := ih t _ r key hR (by omega)
          refine ⟨b, by simp [tree_find, ha, ha0, hk, hlt, e], ?_, ?_, ?_⟩
          · rcases hb with hb | hb
            · exact Or.inl hb
            · exact Or.inr ⟨by simp [Tree.addrs, hb.1], hb.2⟩
          · intro hn
            apply hc
            intro hm
            exact hn (by simp [Tree.keys, hm])
          · intro hs hm
            simp only [Tree.keys, List.Sorted, List.pairwise_append, List.pairwise_cons,
              List.mem_cons] at hs
            apply hd2 hs.2.1.2
            simp only [Tree.keys, List.mem_append, List.mem_cons] at hm
            rcases hm with hm | hm | hm
            · have := hs.2.2 key hm k (Or.inl rfl)
              omega
            · exact absurd hm.symm hk
            · exact hm

theorem Wf.key_mem_iff {t : Order_tree} {s : Tree} (h : Wf t s) (k : Int) :
    k ∈ s.keys ↔ ∃ b, IsNode t b ∧ (t.mem b).key = k := by
  rw [← h.rep.map_key]
  simp only [List.mem_map]
  constructor
  · rintro ⟨b, hb, e⟩
    exact ⟨b, h.mem_isNode hb, e⟩
  · rintro ⟨b, hb, e⟩
    exact ⟨b, h.isNode_mem hb, e⟩

theorem find_spec {t : Order_tree} {s : Tree} (h : Wf t s) (k : Int) :
    ∃ a, find t k = some a
      ∧ (a = nil ∨ (a ∈ s.addrs ∧ (t.mem a).key = k))
      ∧ (k ∉ s.keys → a = nil)
      ∧ (s.keys.Sorted (· ≤ ·) → k ∈ s.keys → a ≠ nil) := by
  have := tree_find_spec t.next t Path.top s k h h.height_lt
  rw [← h.root] at this
  exact this

theorem isNode_black_triple {a : Nat} (h : IsNode black_triple a) : a = 2 ∨ a = 1 ∨ a = 3 := by
  have := Wf_black_triple.isNode_mem h
  simpa [Tree.addrs] using this

/-- C14: in a well-formed tree whose in-order key sequence is non-decreasing, `find(k)`
returns (with the fuel `find` is given) the sentinel exactly when no node of the tree
holds `k`, and otherwise a node of the tree whose key is `k`. -/
theorem find_returns_holder_iff_present (t : Order_tree) (k : Int) (hw : WellFormed t)
    (hs : ∃ ns, inorder_walk t t.next t.root = some ns
      ∧ (ns.map (fun a => (t.mem a).key)).Sorted (· ≤ ·)) :
    ∃ a, find t k = some a
      ∧ (a = nil ↔ ∀ b, IsNode t b → (t.mem b).key ≠ k)
      ∧ (a ≠ nil → IsNode t a ∧ (t.mem a).key = k) := by
  obtain ⟨s, w⟩ := hw
  obtain ⟨ns, e, hsorted⟩ := hs
  obtain ⟨ns2, e2, hk⟩ := w.inorder_keys
  rw [e] at e2
  simp only [Option.some.injEq] at e2
  subst e2
  rw [hk] at hsorted
  obtain ⟨a, ea, h1, h2, h3⟩ := find_spec w k
  have hiff := w.key_mem_iff k
  refine ⟨a, ea, ⟨?_, ?_⟩, ?_⟩
  · intro ha b hb hkb
    exact h3 hsorted (hiff.2 ⟨b, hb, hkb⟩) ha
  · intro hall
    apply h2
    intro hm
    obtain ⟨b, hb, hkb⟩ := hiff.1 hm
    exact hall b hb hkb
  · intro ha
    rcases h1 with h1 | h1
    · exact absurd h1 ha
    · exact ⟨w.mem_isNode h1.1, h1.2⟩

theorem find_returns_holder_iff_present_witness :
    (∃ ns, inorder_walk black_triple black_triple.next black_triple.root = some ns
      ∧ (ns.map (fun a => (black_triple.mem a).key)).Sorted (· ≤ ·))
    ∧ ∃ a, find black_triple 3 = some a
      ∧ (a = nil ↔ ∀ b, IsNode black_triple b → (black_triple.mem b).key ≠ 3)
      ∧ (a ≠ nil → IsNode black_triple a ∧ (black_triple.mem a).key = 3) :=
  ⟨⟨[2, 1, 3], by decide, by decide⟩,
    find_returns_holder_iff_present black_triple 3 ⟨_, Wf_black_triple⟩
      ⟨[2, 1, 3], by decide, by decide⟩⟩

/-- C15: in a well-formed tree no node of which holds `k`, `erase(k)` returns (with the
fuel `erase` is given, so without an error) the very same state: the root, the
allocation counter and every record of the store, so every key, colour, size and link,
are as before. -/
theorem erase_absent_key_changes_nothing (t : Order_tree) (k : Int) (hw : WellFormed t)
    (hk : ∀ b, IsNode t b → (t.mem b).key ≠ k) : erase t k = some t := by
  obtain ⟨s, w⟩ := hw
  obtain ⟨a, ea, _, h2, _⟩ := find_spec w k
  have ha : a = nil := by
    apply h2
    intro hm
    obtain ⟨b, hb, hkb⟩ := (w.key_mem_iff k).1 hm
    exact hk b hb hkb
  subst ha
  simp only [find] at ea
  simp [erase, ea]

theorem erase_absent_key_changes_nothing_witness :
    (∀ b, IsNode black_triple b → (black_triple.mem b).key ≠ 5)
      ∧ erase black_triple 5 = some black_triple :=
  ⟨fun _ hb => by rcases isNode_black_triple hb with rfl | rfl | rfl <;> decide,
    erase_absent_key_changes_nothing black_triple 5 ⟨_, Wf_black_triple⟩
      (fun _ hb => by rcases isNode_black_triple hb with rfl | rfl | rfl <;> decide)⟩

theorem del_sib_L_keys {s w sub : Tree} {p : Nat} {kp : Int} {np : Nat} {cp : Color} {b : Bool}
    (h : del_sib_L s p kp np cp w = some (sub, b)) : sub.keys = s.keys ++ kp :: w.keys := by
  cases w with
  | leaf => simp [del_sib_L] at h
  | node wl wa kw nw cw wr =>
    simp only [del_sib_L] at h
    split_ifs at h
    · simp only [Option.some.injEq, Prod.mk.injEq] at h
      rw [← h.1]; simp [Tree.keys]
    · cases wl with
      | leaf => simp at h
      | node wll wla kwl nwl cwl wlr =>
        simp only [Option.some.injEq, Prod.mk.injEq] at h
        rw [← h.1]; simp [Tree.keys]
    · simp only [Option.some.injEq, Prod.mk.injEq] at h
      rw [← h.1]; simp [Tree.keys]

theorem del_sib_R_keys {s w sub : Tree} {p : Nat} {kp : Int} {np : Nat} {cp : Color} {b : Bool}
    (h : del_sib_R s p kp np cp w = some (sub, b)) : sub.keys = w.keys ++ kp :: s.keys := by
  cases w with
  | leaf => simp [del_sib_R] at h
  | node wl wa kw nw cw wr =>
    simp only [del_sib_R] at h
    split_ifs at h
    · simp only [Option.some.injEq, Prod.mk.injEq] at h
      rw [← h.1]; simp [Tree.keys]
    · cases wr with
      | leaf => simp at h
      | node wrl wra kwr nwr cwr wrr =>
        simp only [Option.some.injEq, Prod.mk.injEq] at h
        rw [← h.1]; simp [Tree.keys]
    · simp only [Option.some.injEq, Prod.mk.injEq] at h
      rw [← h.1]; simp [Tree.keys]

theorem del_fix_keys (c : Path) : ∀ (s s' : Tree), del_fix c s = some s' →
    s'.keys = (c.plug s).keys := by
  induction c with
  | top =>
    intro s s' h
    simp only [del_fix, Option.some.injEq] at h
    rw [← h]; simp [Path.plug]
  | inL p kp np cp w up ih =>
    intro s s' h
    by_cases hs : s.col = Color.RED
    · simp only [del_fix, if_pos hs, Option.some.injEq] at h
      rw [← h]; simp [Path.plug_keys]
    · cases w with
      | leaf => simp [del_fix, if_neg hs, del_sib_L] at h
      | node wl wa kw nw cw wr =>
        cases cw with
        | RED =>
          simp only [del_fix, if_neg hs] at h
          cases hds : del_sib_L s p kp (s.sz + wl.sz + 1) Color.RED wl with
          | none => rw [hds] at h; simp at h
          | some sb =>
            obtain ⟨sub, b⟩ := sb
            rw [hds] at h
            have hk := del_sib_L_keys hds
            cases b <;> simp only [Option.some.injEq] at h <;> rw [← h] <;>
              simp [Path.plug_keys, Path.keysBefore, Path.keysAfter, Tree.keys, hk]
        | BLACK =>
          simp only [del_fix, if_neg hs] at h
          cases hds : del_sib_L s p kp np cp (.node wl wa kw nw .BLACK wr) with
          | none => rw [hds] at h; simp at h
          | some sb =>
            obtain ⟨sub, b⟩ := sb
            rw [hds] at h
            have hk := del_sib_L_keys hds
            cases b with
            | true =>
              simp only at h
              rw [ih _ _ h]
              simp [Path.plug_keys, Path.keysBefore, Path.keysAfter, Tree.keys, hk]
            | false =>
              simp only [Option.some.injEq] at h
              rw [← h]
              simp [Path.plug_keys, Path.keysBefore, Path.keysAfter, Tree.keys, hk]
  | inR w p kp np cp up ih =>
    intro s s' h
    by_cases hs : s.col = Color.RED
    · simp only [del_fix, if_pos hs, Option.some.injEq] at h
      rw [← h]; simp [Path.plug_keys]
    · cases w with
      | leaf => simp [del_fix, if_neg hs, del_sib_R] at h
      | node wl wa kw nw cw wr =>
        cases cw with
        | RED =>
          simp only [del_fix, if_neg hs] at h
          cases hds : del_sib_R s p kp (wr.sz + s.sz + 1) Color.RED wr with
          | none => rw [hds] at h; simp at h
          | some sb =>
            obtain ⟨sub, b⟩ := sb
            rw [hds] at h
            have hk := del_sib_R_keys hds
            cases b <;> simp only [Option.some.injEq] at h <;> rw [← h] <;>
              simp [Path.plug_keys, Path.keysBefore, Path.keysAfter, Tree.keys, hk]
        | BLACK =>
          simp only [del_fix, if_neg hs] at h
          cases hds : del_sib_R s p kp np cp (.node wl wa kw nw .BLACK wr) with
          | none => rw [hds] at h; simp at h
          | some sb =>
            obtain ⟨sub, b⟩ := sb
            rw [hds] at h
            have hk := del_sib_R_keys hds
            cases b with
            | true =>
              simp only at h
              rw [ih _ _ h]
              simp [Path.plug_keys, Path.keysBefore, Path.keysAfter, Tree.keys, hk]
            | false =>
              simp only [Option.some.injEq] at h
              rw [← h]
              simp [Path.plug_keys, Path.keysBefore, Path.keysAfter, Tree.keys, hk]

@[simp] theorem Path.decr_keysBefore (c : Path) : c.decr.keysBefore = c.keysBefore := by
  induction c with
  | top => rfl
  | inL a k n col r up ih => simp only [Path.decr, Path.keysBefore, ih]
  | inR l a k n col up ih => simp only [Path.decr, Path.keysBefore, ih]

@[simp] theorem Path.decr_keysAfter (c : Path) : c.decr.keysAfter = c.keysAfter := by
  induction c with
  | top => rfl
  | inL a k n col r up ih => simp only [Path.decr, Path.keysAfter, ih]
  | inR l a k n col up ih => simp only [Path.decr, Path.keysAfter, ih]

theorem min_path_keysBefore : ∀ (r : Tree) (d : Path),
    (min_path r d).keysBefore = d.keysBefore := by
  intro r
  induction r with
  | leaf => intro d; rfl
  | node l a k n c r ihl _ =>
    intro d
    cases l with
    | leaf => rfl
    | node ll la lk ln lc lr =>
      rw [min_path, ihl]
      rfl

theorem del_at_keys (c : Path) (l : Tree) (col : Color) (r s' : Tree)
    (h : del_at c l col r = some s') :
    s'.keys = c.keysBefore ++ (l.keys ++ r.keys) ++ c.keysAfter := by
  have hfin : ∀ (D : Path) (sx : Tree) (cm : Color),
      (if cm = Color.BLACK then del_fix D sx else some (D.plug sx)) = some s' →
      s'.keys = (D.plug sx).keys := by
    intro D sx cm hh
    cases cm with
    | BLACK => exact del_fix_keys D sx s' (by simpa using hh)
    | RED =>
      simp only [reduceCtorEq, if_false, Option.some.injEq] at hh
      rw [← hh]
  cases l with
  | leaf =>
    simp only [del_at] at h
    rw [hfin _ _ _ h]
    simp [Path.plug_keys, Tree.keys]
  | node ll la lk ln lc lr =>
    cases r with
    | leaf =>
      simp only [del_at] at h
      rw [hfin _ _ _ h]
      simp [Path.plug_keys, Tree.keys]
    | node rl ra rk rn rc rr =>
      obtain ⟨y, ky, ny, cy, yr, hy⟩ := min_node_shape (Tree.node rl ra rk rn rc rr) (by simp)
      have hpl := min_path_plug (Tree.node rl ra rk rn rc rr) Path.top
      have hkb := min_path_keysBefore (Tree.node rl ra rk rn rc rr) Path.top
      rw [hy] at hpl
      simp only [del_at, hy] at h
      generalize min_path (Tree.node rl ra rk rn rc rr) Path.top = d at hpl hkb h
      simp only [Path.plug] at hpl
      rw [hfin _ _ _ h, Path.comp_plug, ← hpl]
      simp only [Path.plug, Path.plug_keys, Tree.keys, hkb, Path.keysBefore,
        Path.decr_keysBefore, Path.decr_keysAfter]
      simp

theorem erase_refines_keys {t : Order_tree} {s : Tree} (h : Wf t s)
    (hcol : s.col = Color.BLACK) (hn : s.NoRedRed) (hb : s.Balanced) (key : Int) :
    ∃ t2 s2, erase t key = some t2 ∧ Wf t2 s2 ∧ s2.col = Color.BLACK ∧ s2.NoRedRed
      ∧ s2.Balanced
      ∧ (key ∉ s.keys → t2 = t ∧ s2 = s)
      ∧ (s.keys.Sorted (· ≤ ·) → key ∈ s.keys →
          ∃ pre post, s.keys = pre ++ key :: post ∧ s2.keys = pre ++ post) := by
  obtain ⟨a, e, h1, h2, h3⟩ := find_spec h key
  simp only [find] at e
  by_cases ha0 : a = nil
  · subst ha0
    exact ⟨t, s, by simp [erase, e], h, hcol, hn, hb, fun _ => ⟨rfl, rfl⟩,
      fun hs hm => absurd rfl (h3 hs hm)⟩
  · obtain ⟨hm, hk⟩ := h1.resolve_left ha0
    obtain ⟨c, l, k, n, col, r, rfl⟩ := Tree.exists_path hm
    rw [h.read] at hk
    simp only at hk
    subst hk
    obtain ⟨s', e1, c1, c2, c3⟩ := del_at_inv c l a k n col r hcol hn hb
    obtain ⟨t2, e2, w2, _⟩ := rb_delete_refines h e1
    have hk2 := del_at_keys c l col r s' e1
    refine ⟨t2, s', by simp [erase, e, ha0, e2], w2, c1, c2, c3, ?_, ?_⟩
    · intro hnm
      exact absurd (h2 hnm) ha0
    · intro _ _
      refine ⟨c.keysBefore ++ l.keys, r.keys ++ c.keysAfter, ?_, ?_⟩
      · simp [Path.plug_keys, Tree.keys]
      · rw [hk2]; simp

theorem insertAll_exact (keys : List Int) : ∀ (t : Order_tree) (s : Tree), Wf t s →
    s.col = Color.BLACK →
    ∃ t2, insertAll t keys = some t2 ∧ Wf t2 (insList keys t.next s) := by
  induction keys with
  | nil => intro t s h _; exact ⟨t, rfl, h⟩
  | cons k ks ih =>
    intro t s h hb
    obtain ⟨t1, e1, w1, n1⟩ := insert_refines h hb k
    obtain ⟨t2, e2, w2⟩ := ih t1 _ w1 (ins_col _ _ _)
    rw [n1] at w2
    exact ⟨t2, by simp [insertAll, e1, e2], w2⟩

theorem Wf.rb_of_heap {t : Order_tree} {s : Tree} (w : Wf t s)
    (hroot : (t.mem t.root).color = Color.BLACK)
    (hrr : ∀ a, IsNode t a → (t.mem a).color = Color.RED →
      (t.mem (t.mem a).parent).color = Color.BLACK)
    (hbh : ∃ L n, black_counts t t.next t.root = some L ∧ ∀ x ∈ L, x = n) :
    s.col = Color.BLACK ∧ s.NoRedRed ∧ s.Balanced := by
  refine ⟨?_, Wf.noRedRed_focus hrr s Path.top w, ?_⟩
  · rw [← w.rep.color_eq w.nil_color, ← w.root]; exact hroot
  · obtain ⟨L, n, e, hL⟩ := hbh
    have h1 := black_counts_refines t.next t Path.top s w w.height_lt
    rw [← w.root, e] at h1
    simp only [Option.some.injEq] at h1
    subst h1
    exact ((s.bcounts_const n).1 hL).1

theorem Wf.sorted_of_heap {t : Order_tree} {s : Tree} (w : Wf t s)
    (hs : ∃ ns, inorder_walk t t.next t.root = some ns
      ∧ (ns.map (fun a => (t.mem a).key)).Sorted (· ≤ ·)) : s.keys.Sorted (· ≤ ·) := by
  obtain ⟨ns, e, hsorted⟩ := hs
  obtain ⟨ns2, e2, hk⟩ := w.inorder_keys
  rw [e] at e2
  simp only [Option.some.injEq] at e2
  subst e2
  rw [hk] at hsorted
  exact hsorted

theorem append_cons_of_all_eq {k : Int} (post : List Int) : ∀ l : List Int,
    (∀ x ∈ l, x = k) → l ++ k :: post = k :: (l ++ post) := by
  intro l
  induction l with
  | nil => intro _; rfl
  | cons x l ih =>
    intro h
    have hx : x = k := h x (by simp)
    subst hx
    rw [List.cons_append, ih (fun y hy => h y (by simp [hy]))]
    rfl

theorem sorted_erase_mid (k : Int) (post : List Int) : ∀ pre : List Int,
    (pre ++ k :: post).Sorted (· ≤ ·) → (pre ++ k :: post).erase k = pre ++ post := by
  intro pre
  induction pre with
  | nil => intro _; simp
  | cons x pre ih =>
    intro hs
    have hs2 : (pre ++ k :: post).Sorted (· ≤ ·) := by
      simp only [List.cons_append, List.Sorted, List.pairwise_cons] at hs
      exact hs.2
    by_cases hx : x = k
    · subst hx
      rw [List.cons_append, List.erase_cons_head]
      apply append_cons_of_all_eq
      intro y hy
      simp only [List.cons_append, List.Sorted, List.pairwise_cons, List.pairwise_append,
        List.mem_append, List.mem_cons] at hs
      have h1 := hs.1 y (Or.inl hy)
      have h2 := hs.2.2.2 y hy x (Or.inl rfl)
      omega
    · rw [List.cons_append, List.erase_cons_tail (by simpa using hx), ih hs2]
      rfl

set_option maxRecDepth 100000 in
theorem insList_one_to_seven : insList [1, 2, 3, 4, 5, 6, 7] 1 Tree.leaf =
    Tree.node (Tree.node Tree.leaf 1 1 1 Color.BLACK Tree.leaf) 2 2 7 Color.BLACK
      (Tree.node (Tree.node Tree.leaf 3 3 1 Color.BLACK Tree.leaf) 4 4 5 Color.RED
        (Tree.node (Tree.node Tree.leaf 5 5 1 Color.RED Tree.leaf) 6 6 3 Color.BLACK
          (Tree.node Tree.leaf 7 7 1 Color.RED Tree.leaf))) := by
  simp [insList, ins, descend, ins_fix, Tree.blacken, Path.plug]

/-- C11: in a well-formed tree with a BLACK root, no RED node with a RED parent, equal
black counts on all paths from the root to the sentinel and a non-decreasing in-order key
sequence, `erase(k)` for a key `k` that some node holds returns a tree whose in-order key
sequence is the one before with one occurrence of `k` taken out, `pre ++ k :: post`
becoming `pre ++ post`, and is still non-decreasing; and after inserting 1..7 into the
empty tree and erasing 4 the in-order keys are 1, 2, 3, 5, 6, 7. -/
theorem erase_removes_one_key_in_order :
    (∀ (t : Order_tree) (k : Int), WellFormed t →
      (t.mem t.root).color = Color.BLACK →
      (∀ a, IsNode t a → (t.mem a).color = Color.RED →
        (t.mem (t.mem a).parent).color = Color.BLACK) →
      (∃ L n, black_counts t t.next t.root = some L ∧ ∀ x ∈ L, x = n) →
      (∃ ns, inorder_walk t t.next t.root = some ns
        ∧ (ns.map (fun a => (t.mem a).key)).Sorted (· ≤ ·)) →
      (∃ b, IsNode t b ∧ (t.mem b).key = k) →
      ∃ t2 ns ns2 pre post, erase t k = some t2
        ∧ inorder_walk t t.next t.root = some ns
        ∧ inorder_walk t2 t2.next t2.root = some ns2
        ∧ ns.map (fun a => (t.mem a).key) = pre ++ k :: post
        ∧ ns2.map (fun a => (t2.mem a).key) = pre ++ post
        ∧ (ns2.map (fun a => (t2.mem a).key)).Sorted (· ≤ ·))
    ∧ (∀ init : Nat → Order_node, ∃ t t2 ns,
        insertAll (Order_tree.empty init) [1, 2, 3, 4, 5, 6, 7] = some t
        ∧ erase t 4 = some t2
        ∧ inorder_walk t2 t2.next t2.root = some ns
        ∧ ns.map (fun a => (t2.mem a).key) = [1, 2, 3, 5, 6, 7]) := by
  constructor
  · intro t k hw hroot hrr hbh hs hk
    obtain ⟨s, w⟩ := hw
    obtain ⟨c1, c2, c3⟩ := w.rb_of_heap hroot hrr hbh
    have hsorted := w.sorted_of_heap hs
    obtain ⟨t2, s2, e, w2, _, _, _, _, hkeys⟩ := erase_refines_keys w c1 c2 c3 k
    obtain ⟨pre, post, e1, e2⟩ := hkeys hsorted ((w.key_mem_iff k).2 hk)
    obtain ⟨ns, hn1, hn2⟩ := w.inorder_keys
    obtain ⟨ns2, hm1, hm2⟩ := w2.inorder_keys
    refine ⟨t2, ns, ns2, pre, post, e, hn1, hm1, hn2.trans e1, hm2.trans e2, ?_⟩
    rw [hm2, e2]
    rw [e1] at hsorted
    exact hsorted.sublist (List.Sublist.append (List.Sublist.refl pre)
      (List.sublist_cons_self k post))
  · intro init
    obtain ⟨t, e, w⟩ := insertAll_exact [1, 2, 3, 4, 5, 6, 7] _ _ (Wf_empty init) rfl
    rw [show (Order_tree.empty init).next = 1 from rfl, insList_one_to_seven] at w
    have hsorted : List.Sorted (· ≤ ·) ([1, 2, 3, 4, 5, 6, 7] : List Int) := by
      simp [List.Sorted]
    obtain ⟨t2, s2, e2, w2, _, _, _, _, hkeys⟩ := erase_refines_keys w rfl
      (by simp [Tree.NoRedRed]) (by simp [Tree.Balanced, Tree.bh]) 4
    obtain ⟨pre, post, e3, e4⟩ := hkeys (by simp [Tree.keys])
      (by simp [Tree.keys])
    obtain ⟨ns2, hm1, hm2⟩ := w2.inorder_keys
    refine ⟨t, t2, ns2, e, e2, hm1, ?_⟩
    rw [hm2, e4]
    have h5 : ([1, 2, 3, 4, 5, 6, 7] : List Int) = pre ++ 4 :: post := by
      rw [← e3]; simp [Tree.keys]
    rw [h5] at hsorted
    rw [← sorted_erase_mid 4 post pre hsorted, ← h5]
    decide

theorem erase_removes_one_key_in_order_witness :
    (∃ b, IsNode black_triple b ∧ (black_triple.mem b).key = 2)
    ∧ ∃ t2 ns ns2 pre post, erase black_triple 2 = some t2
        ∧ inorder_walk black_triple black_triple.next black_triple.root = some ns
        ∧ inorder_walk t2 t2.next t2.root = some ns2
        ∧ ns.map (fun a => (black_triple.mem a).key) = pre ++ 2 :: post
        ∧ ns2.map (fun a => (t2.mem a).key) = pre ++ post
        ∧ (ns2.map (fun a => (t2.mem a).key)).Sorted (· ≤ ·) :=
  ⟨⟨1, Wf_black_triple.mem_isNode (by simp [Tree.addrs]), rfl⟩,
    erase_removes_one_key_in_order.1 black_triple 2 ⟨_, Wf_black_triple⟩ rfl
      (fun _ ha hc => Wf_black_triple.red_parent_black (by simp [Tree.NoRedRed]) ha hc)
      ⟨[2, 2, 2, 2], 2, by decide, by decide⟩
      ⟨[2, 1, 3], by decide, by decide⟩
      ⟨1, Wf_black_triple.mem_isNode (by simp [Tree.addrs]), rfl⟩⟩

set_option maxRecDepth 100000 in
/-- C12 (the code breaks the claim): `os_select` has no test for the sentinel, so a rank
above the root's size walks past a leaf and reads the sentinel's `left` field, which
`Order_node()` never sets. With one node holding key 7 (size 1) and the address of that
node in the sentinel's unset pointer fields, `os_select(root, 2)` returns the stored
node, not the sentinel. -/
theorem select_past_leaf_reads_unset_sentinel_fields :
    ∃ t, insert (Order_tree.empty onesStore) 7 = some t
      ∧ size t = 1 ∧ IsNode t 1 ∧ (t.mem 1).key = 7
      ∧ os_select t 3 t.root 2 = some 1 := by
  have h : (insert (Order_tree.empty onesStore) 7).map
      (fun t => ([t.root, size t], (t.mem 1).key, os_select t 3 t.root 2))
      = some ([1, 1], 7, some 1) := by decide
  cases hX : insert (Order_tree.empty onesStore) 7 with
  | none => rw [hX] at h; simp at h
  | some t =>
    rw [hX] at h
    simp only [Option.map_some', Option.some.injEq, Prod.mk.injEq, List.cons.injEq, and_true]
      at h
    obtain ⟨⟨h1, h2⟩, h3, h4⟩ := h
    refine ⟨t, rfl, h2, ?_, h3, h4⟩
    have hr : IsNode t t.root := IsNode.root (by rw [h1]; decide)
    rw [h1] at hr
    exact hr

set_option maxRecDepth 100000 in
/-- C16 (the code breaks the claim): `postorder_walk` descends into both subtrees with
`inorder_walk`. After inserting 1, 2, 3, 4 the node at address 3 has the node at address
4 as its right child, and the walk from the root applies `op` to 3 before 4. -/
theorem postorder_walk_visits_node_before_its_child :
    ∃ t, insertAll (Order_tree.empty zeroStore) [1, 2, 3, 4] = some t
      ∧ (t.mem 3).right = 4
      ∧ postorder_walk t t.next t.root = some [1, 3, 4, 2] := by
  have h : (insertAll (Order_tree.empty zeroStore) [1, 2, 3, 4]).map
      (fun t => ((t.mem 3).right, postorder_walk t t.next t.root))
      = some (4, some [1, 3, 4, 2]) := by decide
  cases hX : insertAll (Order_tree.empty zeroStore) [1, 2, 3, 4] with
  | none => rw [hX] at h; simp at h
  | some t =>
    rw [hX] at h
    simp only [Option.map_some', Option.some.injEq, Prod.mk.injEq] at h
    exact ⟨t, rfl, h.1, h.2⟩

set_option maxRecDepth 100000 in
/-- C17 (the code breaks the claim): `preorder_walk` descends into both subtrees with
`inorder_walk`. After inserting 4, 3, 2, 1 the node at address 3 has the node at address
4 as its left child, and the walk from the root applies `op` to 4 before 3. -/
theorem preorder_walk_visits_child_before_its_node :
    ∃ t, insertAll (Order_tree.empty zeroStore) [4, 3, 2, 1] = some t
      ∧ (t.mem 3).left = 4
      ∧ preorder_walk t t.next t.root = some [2, 4, 3, 1] := by
  have h : (insertAll (Order_tree.empty zeroStore) [4, 3, 2, 1]).map
      (fun t => ((t.mem 3).left, preorder_walk t t.next t.root))
      = some (4, some [2, 4, 3, 1]) := by decide
  cases hX : insertAll (Order_tree.empty zeroStore) [4, 3, 2, 1] with
  | none => rw [hX] at h; simp at h
  | some t =>
    rw [hX] at h
    simp only [Option.map_some', Option.some.injEq, Prod.mk.injEq] at h
    exact ⟨t, rfl, h.1, h.2⟩

set_option maxRecDepth 100000 in
/-- C18 (the code breaks the claim): after inserting 4, 2, 6, 1, 3, 5, 7 and erasing 2
the root's size field is 6, yet `select(6)` walks past the node holding 7 and returns the
sentinel, and `rank` of that result is 3: the node that took the erased node's place kept
its old size field 1. -/
theorem select_in_range_after_erase_returns_sentinel :
    ∃ t, run (Order_tree.empty zeroStore)
        [Op.ins 4, Op.ins 2, Op.ins 6, Op.ins 1, Op.ins 3, Op.ins 5, Op.ins 7, Op.del 2] = some t
      ∧ size t = 6 ∧ select t 6 = some nil ∧ rank t nil = some 3 := by
  have h : (run (Order_tree.empty zeroStore)
      [Op.ins 4, Op.ins 2, Op.ins 6, Op.ins 1, Op.ins 3, Op.ins 5, Op.ins 7, Op.del 2]).map
      (fun t => (size t, select t 6, rank t nil)) = some (6, some nil, some 3) := by decide
  cases hX : run (Order_tree.empty zeroStore)
      [Op.ins 4, Op.ins 2, Op.ins 6, Op.ins 1, Op.ins 3, Op.ins 5, Op.ins 7, Op.del 2] with
  | none => rw [hX] at h; simp at h
  | some t =>
    rw [hX] at h
    simp only [Option.map_some', Option.some.injEq, Prod.mk.injEq] at h
    exact ⟨t, rfl, h.1, h.2.1, h.2.2⟩

set_option maxRecDepth 100000 in
/-- C13 (the claim as stated fails): after inserting the key 5 twice, `erase(5)` removes
one of the two nodes and `find(5)` returns the other one. -/
theorem find_after_erase_finds_duplicate :
    ∃ t t2 a, insertAll (Order_tree.empty zeroStore) [5, 5] = some t
      ∧ erase t 5 = some t2 ∧ find t2 5 = some a ∧ a ≠ nil ∧ (t2.mem a).key = 5 := by
  have h : ((insertAll (Order_tree.empty zeroStore) [5, 5]).bind fun t => erase t 5).map
      (fun t2 => (find t2 5, (t2.mem 2).key)) = some (some 2, 5) := by decide
  cases hX : insertAll (Order_tree.empty zeroStore) [5, 5] with
  | none => rw [hX] at h; simp at h
  | some t =>
    rw [hX] at h
    simp only [Option.some_bind] at h
    cases hY : erase t 5 with
    | none => rw [hY] at h; simp at h
    | some t2 =>
      rw [hY] at h
      simp only [Option.map_some', Option.some.injEq, Prod.mk.injEq] at h
      exact ⟨t, t2, 2, rfl, hY, h.1, by decide, h.2⟩

/-- C13 (amended): for a tree built by inserts into the empty tree, duplicate keys
allowed, in which all paths from the root to the sentinel hold the same number of BLACK
nodes, `find(k)` directly after `erase(k)` returns the sentinel exactly when `k` was
inserted at most once, and otherwise a node of the tree that holds `k`. -/
theorem find_after_erase_counts_duplicates (init : Nat → Order_node) (keys : List Int)
    (k : Int) :
    ∃ t, insertAll (Order_tree.empty init) keys = some t
      ∧ ((∃ L n, black_counts t t.next t.root = some L ∧ ∀ x ∈ L, x = n) →
        ∃ t2 a, erase t k = some t2 ∧ find t2 k = some a
          ∧ (a = nil ↔ keys.count k ≤ 1)
          ∧ (a ≠ nil → IsNode t2 a ∧ (t2.mem a).key = k)) := by
  obtain ⟨t, s, e, w, c1, _, c2, hsorted, hperm⟩ := insertAll_empty init keys
  refine ⟨t, e, ?_⟩
  intro hbh
  have c3 : s.Balanced := by
    obtain ⟨L, n, e1, hL⟩ := hbh
    have h1 := black_counts_refines t.next t Path.top s w w.height_lt
    rw [← w.root, e1] at h1
    simp only [Option.some.injEq] at h1
    subst h1
    exact ((s.bcounts_const n).1 hL).1
  obtain ⟨t2, s2, e2, w2, _, _, _, hno, hyes⟩ := erase_refines_keys w c1 c2 c3 k
  obtain ⟨a, ea, h1, h2, h3⟩ := find_spec w2 k
  have hcount : keys.count k = s.keys.count k := (hperm.count_eq k).symm
  have hres : s2.keys.Sorted (· ≤ ·) ∧ (k ∈ s2.keys ↔ ¬ keys.count k ≤ 1) := by
    by_cases hm : k ∈ s.keys
    · obtain ⟨pre, post, e3, e4⟩ := hyes hsorted hm
      constructor
      · rw [e4]
        rw [e3] at hsorted
        exact hsorted.sublist (List.Sublist.append (List.Sublist.refl pre)
          (List.sublist_cons_self k post))
      · rw [hcount, e3, e4, ← List.count_pos_iff]
        simp only [List.count_append, List.count_cons, beq_self_eq_true, if_true]
        omega
    · obtain ⟨-, rfl⟩ := hno hm
      refine ⟨hsorted, ?_⟩
      have : s2.keys.count k = 0 := List.count_eq_zero.2 hm
      rw [hcount, this]
      simp [hm]
  refine ⟨t2, a, e2, ea, ⟨?_, ?_⟩, ?_⟩
  · intro ha
    by_contra hc
    exact h3 hres.1 (hres.2.2 hc) ha
  · intro hle
    apply h2
    intro hm
    exact hres.2.1 hm hle
  · intro ha
    rcases h1 with h1 | h1
    · exact absurd h1 ha
    · exact ⟨w2.mem_isNode h1.1, h1.2⟩

set_option maxRecDepth 100000 in
theorem find_after_erase_counts_duplicates_witness :
    ∃ t, insertAll (Order_tree.empty zeroStore) [5, 5] = some t
      ∧ (∃ L n, black_counts t t.next t.root = some L ∧ ∀ x ∈ L, x = n)
      ∧ ∃ t2 a, erase t 5 = some t2 ∧ find t2 5 = some a
          ∧ (a = nil ↔ List.count (5 : Int) [5, 5] ≤ 1)
          ∧ (a ≠ nil → IsNode t2 a ∧ (t2.mem a).key = 5) := by
  obtain ⟨t, e, h⟩ := find_after_erase_counts_duplicates zeroStore [5, 5] 5
  have hb : (insertAll (Order_tree.empty zeroStore) [5, 5]).map
      (fun t => black_counts t t.next t.root) = some (some [1, 1, 1]) := by decide
  rw [e] at hb
  simp only [Option.map_some', Option.some.injEq] at hb
  have hbal : ∃ L n, black_counts t t.next t.root = some L ∧ ∀ x ∈ L, x = n :=
    ⟨[1, 1, 1], 1, hb, by decide⟩
  exact ⟨t, e, hbal, h hbal⟩

theorem setLeft_key_color (t : Order_tree) (a v q : Nat) :
    ((t.setLeft a v).mem q).key = (t.mem q).key
      ∧ ((t.setLeft a v).mem q).color = (t.mem q).color := by
  by_cases h : q = a
  · subst h; simp [setLeft, upd]
  · simp [setLeft, upd, h]

theorem setRight_key_color (t : Order_tree) (a v q : Nat) :
    ((t.setRight a v).mem q).key = (t.mem q).key
      ∧ ((t.setRight a v).mem q).color = (t.mem q).color := by
  by_cases h : q = a
  · subst h; simp [setRight, upd]
  · simp [setRight, upd, h]

theorem setParent_key_color (t : Order_tree) (a v q : Nat) :
    ((t.setParent a v).mem q).key = (t.mem q).key
      ∧ ((t.setParent a v).mem q).color = (t.mem q).color := by
  by_cases h : q = a
  · subst h; simp [setParent, upd]
  · simp [setParent, upd, h]

theorem setSize_key_color (t : Order_tree) (a v q : Nat) :
    ((t.setSize a v).mem q).key = (t.mem q).key
      ∧ ((t.setSize a v).mem q).color = (t.mem q).color := by
  by_cases h : q = a
  · subst h; simp [setSize, upd]
  · simp [setSize, upd, h]

theorem setRoot_mem (t : Order_tree) (p : Nat) : (t.setRoot p).mem = t.mem := rfl

theorem rotate_left_key_color (t : Order_tree) (x a : Nat) :
    ((rotate_left t x).mem a).key = (t.mem a).key
      ∧ ((rotate_left t x).mem a).color = (t.mem a).color := by
  simp only [rotate_left, (setLeft_key_color _ _ _ _).1, (setLeft_key_color _ _ _ _).2,
    (setRight_key_color _ _ _ _).1, (setRight_key_color _ _ _ _).2,
    (setParent_key_color _ _ _ _).1, (setParent_key_color _ _ _ _).2,
    (setSize_key_color _ _ _ _).1, (setSize_key_color _ _ _ _).2, setRoot_mem,
    apply_ite Order_tree.mem, ite_apply, apply_ite Order_node.key, apply_ite Order_node.color,
    ite_self, and_self]

theorem rotate_right_key_color (t : Order_tree) (x a : Nat) :
    ((rotate_right t x).mem a).key = (t.mem a).key
      ∧ ((rotate_right t x).mem a).color = (t.mem a).color := by
  simp only [rotate_right, (setLeft_key_color _ _ _ _).1, (setLeft_key_color _ _ _ _).2,
    (setRight_key_color _ _ _ _).1, (setRight_key_color _ _ _ _).2,
    (setParent_key_color _ _ _ _).1, (setParent_key_color _ _ _ _).2,
    (setSize_key_color _ _ _ _).1, (setSize_key_color _ _ _ _).2, setRoot_mem,
    apply_ite Order_tree.mem, ite_apply, apply_ite Order_node.key, apply_ite Order_node.color,
    ite_self, and_self]

theorem rotate_left_result {t : Order_tree} {x : Nat} (hw : WellFormed t)
    (hsz : SizeInvariant t) (hx : IsNode t x) (hr : (t.mem x).right ≠ nil) :
    Rotated t x (t.mem x).right (rotate_left t x) := by
  obtain ⟨s, w⟩ := hw
  have hz := w.sizeOK_of_inv hsz
  obtain ⟨c, A, kx, sx, cx, R, rfl⟩ := Tree.exists_path (w.isNode_mem hx)
  have hxr := w.read
  rw [hxr] at hr ⊢
  simp only at hr ⊢
  cases R with
  | leaf => exact absurd rfl hr
  | node B y ky sy cy C =>
    simp only [Tree.ptr_node]
    have w2 := rotate_left_focus w
    have hX : Wf (rotate_left t x) ((Path.inL y ky sx cy C c).plug
      (.node A x kx (A.sz + B.sz + 1) cx B)) := w2
    obtain ⟨⟨z1, z2, z3, z4, z5⟩, z6⟩ := (Path.sizeOK_plug _ _).1 hz
    have hz2 : (c.plug (.node (.node A x kx (A.sz + B.sz + 1) cx B) y ky sx cy C)).SizeOK := by
      refine (Path.sizeOK_plug _ _).2 ⟨⟨?_, ⟨rfl, z2, z4⟩, z5⟩, z6⟩
      simp only [Tree.sz_node] at z1 z3 ⊢
      omega
    refine ⟨⟨_, w2⟩, ⟨_, w.inorder_walk_eq, ?_⟩, fun a => (rotate_left_key_color t x a).1,
      fun a => (rotate_left_key_color t x a).2, fun a ha => w2.size_at hz2 ha, ?_, ?_, ?_, ?_⟩
    · rw [w2.inorder_walk_eq]
      simp [Path.plug_addrs, Tree.addrs]
    · intro hroot
      cases c with
      | top => exact w2.root
      | inL p kp np cp r up => exact absurd hroot (w.root_ne_focus (by simp))
      | inR l p kp np cp up => exact absurd hroot (w.root_ne_focus (by simp))
    · intro hroot
      cases c with
      | top => exact absurd w.root.symm hroot
      | inL p kp np cp r up =>
        have hP : Wf t (up.plug (.node (.node A x kx sx cx (.node B y ky sy cy C)) p kp np cp r)) :=
          w
        have hP2 : Wf (rotate_left t x) (up.plug (.node
          (.node (.node A x kx (A.sz + B.sz + 1) cx B) y ky sx cy C) p kp np cp r)) := w2
        have hpar : (t.mem x).parent = p := by rw [hxr]; rfl
        rw [hpar]
        refine ⟨?_, ?_, ?_⟩
        · rw [w2.root, w.root, Path.plug_ptr, Path.plug_ptr]; rfl
        · intro _; rw [hP2.read]; rfl
        · intro e
          rw [hP.read] at e
          exact absurd e.symm hP.right_ne
      | inR l p kp np cp up =>
        have hP : Wf t (up.plug (.node l p kp np cp (.node A x kx sx cx (.node B y ky sy cy C)))) :=
          w
        have hP2 : Wf (rotate_left t x) (up.plug (.node l p kp np cp
          (.node (.node A x kx (A.sz + B.sz + 1) cx B) y ky sx cy C))) := w2
        have hpar : (t.mem x).parent = p := by rw [hxr]; rfl
        rw [hpar]
        refine ⟨?_, ?_, ?_⟩
        · rw [w2.root, w.root, Path.plug_ptr, Path.plug_ptr]; rfl
        · intro e
          rw [hP.read] at e
          exact absurd e.symm hP.left_ne
        · intro _; rw [hP2.read]; rfl
    · rw [w2.read, hxr]
    · rw [hX.read]; rfl

theorem rotate_right_result {t : Order_tree} {x : Nat} (hw : WellFormed t)
    (hsz : SizeInvariant t) (hx : IsNode t x) (hr : (t.mem x).left ≠ nil) :
    Rotated t x (t.mem x).left (rotate_right t x) := by
  obtain ⟨s, w⟩ := hw
  have hz := w.sizeOK_of_inv hsz
  obtain ⟨c, L, kx, sx, cx, C, rfl⟩ := Tree.exists_path (w.isNode_mem hx)
  have hxr := w.read
  rw [hxr] at hr ⊢
  simp only at hr ⊢
  cases L with
  | leaf => exact absurd rfl hr
  | node A y ky sy cy B =>
    simp only [Tree.ptr_node]
    have w2 := rotate_right_focus w
    have hX : Wf (rotate_right t x) ((Path.inR A y ky sx cy c).plug
      (.node B x kx (B.sz + C.sz + 1) cx C)) := w2
    obtain ⟨⟨z1, ⟨z2, z3, z4⟩, z5⟩, z6⟩ := (Path.sizeOK_plug _ _).1 hz
    have hz2 : (c.plug (.node A y ky sx cy (.node B x kx (B.sz + C.sz + 1) cx C))).SizeOK := by
      refine (Path.sizeOK_plug _ _).2 ⟨⟨?_, z3, ⟨rfl, z4, z5⟩⟩, z6⟩
      simp only [Tree.sz_node] at z1 z2 ⊢
      omega
    refine ⟨⟨_, w2⟩, ⟨_, w.inorder_walk_eq, ?_⟩, fun a => (rotate_right_key_color t x a).1,
      fun a => (rotate_right_key_color t x a).2, fun a ha => w2.size_at hz2 ha, ?_, ?_, ?_, ?_⟩
    · rw [w2.inorder_walk_eq]
      simp [Path.plug_addrs, Tree.addrs]
    · intro hroot
      cases c with
      | top => exact w2.root
      | inL p kp np cp r up => exact absurd hroot (w.root_ne_focus (by simp))
      | inR l p kp np cp up => exact absurd hroot (w.root_ne_focus (by simp))
    · intro hroot
      cases c with
      | top => exact absurd w.root.symm hroot
      | inL p kp np cp r up =>
        have hP : Wf t (up.plug (.node (.node (.node A y ky sy cy B) x kx sx cx C) p kp np cp r)) :=
          w
        have hP2 : Wf (rotate_right t x) (up.plug (.node
          (.node A y ky sx cy (.node B x kx (B.sz + C.sz + 1) cx C)) p kp np cp r)) := w2
        have hpar : (t.mem x).parent = p := by rw [hxr]; rfl
        rw [hpar]
        refine ⟨?_, ?_, ?_⟩
        · rw [w2.root, w.root, Path.plug_ptr, Path.plug_ptr]; rfl
        · intro _; rw [hP2.read]; rfl
        · intro e
          rw [hP.read] at e
          exact absurd e.symm hP.right_ne
      | inR l p kp np cp up =>
        have hP : Wf t (up.plug (.node l p kp np cp (.node (.node A y ky sy cy B) x kx sx cx C))) :=
          w
        have hP2 : Wf (rotate_right t x) (up.plug (.node l p kp np cp
          (.node A y ky sx cy (.node B x kx (B.sz + C.sz + 1) cx C)))) := w2
        have hpar : (t.mem x).parent = p := by rw [hxr]; rfl
        rw [hpar]
        refine ⟨?_, ?_, ?_⟩
        · rw [w2.root, w.root, Path.plug_ptr, Path.plug_ptr]; rfl
        · intro e
          rw [hP.read] at e
          exact absurd e.symm hP.left_ne
        · intro _; rw [hP2.read]; rfl
    · rw [w2.read, hxr]
    · rw [hX.read]; rfl

theorem sizeInvariant_black_triple : SizeInvariant black_triple :=
  fun _ ha => Wf_black_triple.size_at (by simp [Tree.SizeOK]) ha

/-- C20: in a well-formed tree that satisfies the size invariant, `rotate_left(x)` at a
node `x` of the tree whose right child `y` is not the sentinel yields a well-formed tree
in which the in-order walk meets the same nodes in the same order, every record keeps
its key and colour, the size invariant holds at every node, and `y` stands where `x`
stood (as root, or in the same child slot of `x`'s old parent) with `x` as its child;
and the same holds for `rotate_right(x)` with the left child of `x`. -/
theorem rotations_keep_order_colours_and_sizes :
    (∀ (t : Order_tree) (x : Nat), WellFormed t → SizeInvariant t → IsNode t x →
      (t.mem x).right ≠ nil → Rotated t x (t.mem x).right (rotate_left t x))
    ∧ (∀ (t : Order_tree) (x : Nat), WellFormed t → SizeInvariant t → IsNode t x →
      (t.mem x).left ≠ nil → Rotated t x (t.mem x).left (rotate_right t x)) :=
  ⟨fun _ _ hw hsz hx hr => rotate_left_result hw hsz hx hr,
    fun _ _ hw hsz hx hr => rotate_right_result hw hsz hx hr⟩

theorem rotations_keep_order_colours_and_sizes_witness :
    SizeInvariant black_triple ∧ IsNode black_triple 1 ∧ (black_triple.mem 1).right ≠ nil
      ∧ Rotated black_triple 1 3 (rotate_left black_triple 1)
      ∧ (black_triple.mem 1).left ≠ nil
      ∧ Rotated black_triple 1 2 (rotate_right black_triple 1) :=
  ⟨sizeInvariant_black_triple, Wf_black_triple.mem_isNode (by simp [Tree.addrs]), by decide,
    rotations_keep_order_colours_and_sizes.1 black_triple 1 ⟨_, Wf_black_triple⟩
      sizeInvariant_black_triple (Wf_black_triple.mem_isNode (by simp [Tree.addrs]))
      (by decide),
    by decide,
    rotations_keep_order_colours_and_sizes.2 black_triple 1 ⟨_, Wf_black_triple⟩
      sizeInvariant_black_triple (Wf_black_triple.mem_isNode (by simp [Tree.addrs]))
      (by decide)⟩

theorem VBP.at_set_same (m : VBP) (k : Nat) (v : Vertex_bfs_property) :
    (m.set k v).at k = v := by
  simp [VBP.at, VBP.set]

theorem VBP.at_set_ne (m : VBP) {k x : Nat} (v : Vertex_bfs_property) (h : x ≠ k) :
    (m.set k v).at x = m.at x := by
  simp [VBP.at, VBP.set, h]

theorem VBP.at_of_some {m : VBP} {k : Nat} {p : Vertex_bfs_property} (h : m k = some p) :
    m.at k = p := by
  simp [VBP.at, h]

theorem VBP.set_at_of_some {m : VBP} {k : Nat} {p : Vertex_bfs_property} (h : m k = some p) :
    m.set k (m.at k) = m := by
  funext x
  by_cases hx : x = k
  · subst hx; simp [VBP.set, VBP.at, h]
  · simp [VBP.set, hx]

theorem VBP.set_set (m : VBP) (k : Nat) (a b : Vertex_bfs_property) :
    (m.set k a).set k b = m.set k b := by
  funext x
  by_cases hx : x = k <;> simp [VBP.set, hx]

/-- The edge body when both keys are present. -/
theorem bfs_visit_eq {m : VBP} {u w : Nat} {pu pw : Vertex_bfs_property} (q : List Nat)
    (hu : m u = some pu) (hw : m w = some pw) :
    bfs_visit u (m, q) w =
      if pw.distance = unsigned_infinity then
        (m.set w { distance := ((m.at u).distance + 1) % 2 ^ 64, parent := u }, q ++ [w])
      else (m, q) := by
  have h1 : m.set w (m.at w) = m := VBP.set_at_of_some hw
  have h2 : m.set u (m.at u) = m := VBP.set_at_of_some hu
  unfold bfs_visit
  dsimp only
  rw [h1, h2, VBP.at_of_some hw]
  split_ifs with h
  · rw [VBP.set_set, VBP.at_set_same]
  · rfl

theorem countP_lt_of_imp {l : List Nat} {p p2 : Nat → Bool} (h : ∀ x ∈ l, p2 x = true → p x = true)
    {w : Nat} (hw : w ∈ l) (h1 : p w = true) (h2 : p2 w = false) :
    l.countP p2 < l.countP p := by
  induction l with
  | nil => simp at hw
  | cons a l ih =>
    have hmono : l.countP p2 ≤ l.countP p := by
      apply List.countP_mono_left
      intro x hx
      exact h x (by simp [hx])
    simp only [List.mem_cons] at hw
    by_cases ha : a = w
    · subst ha
      rw [List.countP_cons_of_pos _ _ h1, List.countP_cons_of_neg _ _ (by simp [h2])]
      omega
    · have hw2 : w ∈ l := by
        rcases hw with hw | hw
        · exact absurd hw.symm ha
        · exact hw
      have h3 := ih (fun x hx => h x (by simp [hx])) hw2
      rw [List.countP_cons, List.countP_cons]
      by_cases hp2 : p2 a = true
      · have hp := h a (by simp) hp2
        rw [if_pos hp2, if_pos hp]
        omega
      · rw [if_neg hp2]
        split_ifs <;> omega

theorem bfs_visit_inner {g : Graph} {s u w : Nat} {m : VBP} {q rest : List Nat}
    (h : BfsInner g s u m q (w :: rest))
    (hE : ∀ v ∈ g.vertices, ∀ x ∈ g.adjacent v, x ∈ g.vertices)
    (hN : g.vertices.length < unsigned_infinity) :
    BfsInner g s u (bfs_visit u (m, q) w).1 (bfs_visit u (m, q) w).2 rest
      ∧ undiscovered g (bfs_visit u (m, q) w).1 + (bfs_visit u (m, q) w).2.length
          ≤ undiscovered g m + q.length := by
  have hw : w ∈ g.adjacent u := h.sub w (by simp)
  have hwv : w ∈ g.vertices := hE u h.du.1 w hw
  obtain ⟨pu, hpu⟩ := h.core.dom u h.du.1
  obtain ⟨pw, hpw⟩ := h.core.dom w hwv
  have hatw : m.at w = pw := VBP.at_of_some hpw
  rw [bfs_visit_eq q hpu hpw]
  by_cases hinf : pw.distance = unsigned_infinity
  · rw [if_pos hinf]
    simp only
    have hInf : unsigned_infinity = 2 ^ 64 - 1 := rfl
    have hwU : (m.at w).distance = unsigned_infinity := by rw [hatw]; exact hinf
    have hold : ∀ x, Discovered g m x → x ≠ w := by
      rintro x hx rfl
      exact hx.2 hwU
    have huw : u ≠ w := hold u h.du
    have hUpos : 0 < undiscovered g m :=
      List.countP_pos_iff.2 ⟨w, hwv, by simpa using hwU⟩
    have hbu := h.core.bound u h.du
    have hmod : ((m.at u).distance + 1) % 2 ^ 64 = (m.at u).distance + 1 := by
      apply Nat.mod_eq_of_lt
      omega
    rw [hmod]
    generalize hm2 : m.set w { distance := (m.at u).distance + 1, parent := u } = m2
    have hat1 : m2.at w = { distance := (m.at u).distance + 1, parent := u } := by
      rw [← hm2]; exact VBP.at_set_same _ _ _
    have hat2 : ∀ x, x ≠ w → m2.at x = m.at x := by
      intro x hx; rw [← hm2]; exact VBP.at_set_ne _ _ hx
    have hsame : ∀ x, Discovered g m x → m2.at x = m.at x := fun x hx => hat2 x (hold x hx)
    have hmono : ∀ x, Discovered g m x → Discovered g m2 x := by
      intro x hx
      exact ⟨hx.1, by rw [hsame x hx]; exact hx.2⟩
    have hDw : Discovered g m2 w := by
      refine ⟨hwv, ?_⟩
      rw [hat1]
      simp only
      omega
    have hback : ∀ x, Discovered g m2 x → x ≠ w → Discovered g m x := by
      intro x hx hxw
      exact ⟨hx.1, by rw [← hat2 x hxw]; exact hx.2⟩
    have hU : undiscovered g m2 < undiscovered g m := by
      apply countP_lt_of_imp _ hwv (by simpa using hwU)
      · simp only [decide_eq_false_iff_not]
        exact hDw.2
      · intro x _ hx
        simp only [decide_eq_true_eq] at hx ⊢
        by_cases hxw : x = w
        · subst hxw; exact hwU
        · rw [← hat2 x hxw]; exact hx
    have hsw : s ≠ w := by
      intro e
      have := h.core.src
      rw [e, hatw] at this
      rw [this] at hinf
      simp only at hinf
      omega
    refine ⟨⟨⟨?_, ?_, ?_, ?_, ?_, ?_, ?_⟩, hmono u h.du, ?_, ?_, ?_, ?_, ?_, ?_, ?_⟩, ?_⟩
    · intro x hx
      by_cases hxw : x = w
      · exact ⟨{ distance := (m.at u).distance + 1, parent := u }, by
          rw [← hm2, hxw]; simp [VBP.set]⟩
      · obtain ⟨p, hp⟩ := h.core.dom x hx
        exact ⟨p, by rw [← hm2]; simp [VBP.set, hxw, hp]⟩
    · intro x hx
      have hxw : x ≠ w := fun e => hx (e ▸ hwv)
      rw [← hm2]
      simp [VBP.set, hxw, h.core.keys x hx]
    · rw [hat2 s hsw]; exact h.core.src
    · intro x hx
      by_cases hxw : x = w
      · subst hxw
        rw [hat1]
        exact Walk.snoc (h.core.sound u h.du) hw
      · rw [hat2 x hxw]
        exact h.core.sound x (hback x hx hxw)
    · intro x hx
      by_cases hxw : x = w
      · subst hxw
        rw [hat1]
        simp only
        omega
      · rw [hat2 x hxw]
        have := h.core.bound x (hback x hx hxw)
        omega
    · intro x hx hxs
      by_cases hxw : x = w
      · subst hxw
        rw [hat1]
        simp only
        exact ⟨hmono u h.du, hw, by rw [hat2 u huw]⟩
      · rw [hat2 x hxw]
        obtain ⟨p1, p2, p3⟩ := h.core.par x (hback x hx hxw) hxs
        exact ⟨hmono _ p1, p2, by rw [hsame _ p1]; exact p3⟩
    · intro x hx hxi
      have hxw : x ≠ w := by
        rintro rfl
        exact hDw.2 hxi
      rw [hat2 x hxw] at hxi ⊢
      exact h.core.fresh x hx hxi
    · intro v hv
      simp only [List.mem_append, List.mem_singleton] at hv
      rcases hv with hv | rfl
      · exact hmono v (h.qd v hv)
      · exact hDw
    · rw [List.pairwise_append]
      refine ⟨?_, List.pairwise_singleton _ _, ?_⟩
      · apply h.sorted.imp_of_mem
        intro a b ha hb hab
        rw [hsame a (h.qd a ha), hsame b (h.qd b hb)]
        exact hab
      · intro a ha b hb
        simp only [List.mem_singleton] at hb
        subst hb
        rw [hsame a (h.qd a ha), hat1]
        exact h.hi a (h.qd a ha)
    · intro v hv
      simp only [List.mem_append, List.mem_singleton] at hv
      rw [hat2 u huw]
      rcases hv with hv | rfl
      · rw [hsame v (h.qd v hv)]; exact h.lo v hv
      · rw [hat1]; simp only; omega
    · intro v hv
      rw [hat2 u huw]
      by_cases hvw : v = w
      · subst hvw; rw [hat1]
      · rw [hat2 v hvw]; exact h.hi v (hback v hv hvw)
    · intro v hv hvq hvu x hx
      simp only [List.mem_append, List.mem_singleton, not_or] at hvq
      have hv0 := hback v hv hvq.2
      obtain ⟨c1, c2⟩ := h.closed v hv0 hvq.1 hvu x hx
      exact ⟨hmono x c1, by rw [hsame x c1, hsame v hv0]; exact c2⟩
    · intro x hx
      rw [hat2 u huw]
      rcases h.cur x hx with hc | hc
      · simp only [List.mem_cons] at hc
        rcases hc with rfl | hc
        · exact Or.inr ⟨hDw, by rw [hat1]⟩
        · exact Or.inl hc
      · exact Or.inr ⟨hmono x hc.1, by rw [hsame x hc.1]; exact hc.2⟩
    · intro x hx
      exact h.sub x (by simp [hx])
    · simp only [List.length_append, List.length_singleton]
      omega
  · rw [if_neg hinf]
    have hDw : Discovered g m w := ⟨hwv, by rw [hatw]; exact hinf⟩
    refine ⟨⟨h.core, h.du, h.qd, h.sorted, h.lo, h.hi, h.closed, ?_, ?_⟩, le_refl _⟩
    · intro x hx
      rcases h.cur x hx with hc | hc
      · simp only [List.mem_cons] at hc
        rcases hc with rfl | hc
        · exact Or.inr ⟨hDw, h.hi x hDw⟩
        · exact Or.inl hc
      · exact Or.inr hc
    · intro x hx
      exact h.sub x (by simp [hx])

theorem bfs_fold_inner {g : Graph} {s u : Nat}
    (hE : ∀ v ∈ g.vertices, ∀ x ∈ g.adjacent v, x ∈ g.vertices)
    (hN : g.vertices.length < unsigned_infinity) :
    ∀ (rest : List Nat) (m : VBP) (q : List Nat), BfsInner g s u m q rest →
      BfsInner g s u (rest.foldl (bfs_visit u) (m, q)).1 (rest.foldl (bfs_visit u) (m, q)).2 []
        ∧ undiscovered g (rest.foldl (bfs_visit u) (m, q)).1
            + (rest.foldl (bfs_visit u) (m, q)).2.length ≤ undiscovered g m + q.length := by
  intro rest
  induction rest with
  | nil => intro m q h; exact ⟨h, le_refl _⟩
  | cons w rest ih =>
    intro m q h
    obtain ⟨h1, h2⟩ := bfs_visit_inner h hE hN
    obtain ⟨h3, h4⟩ := ih _ _ h1
    rw [List.foldl_cons]
    exact ⟨h3, le_trans h4 h2⟩

theorem BfsOuter.pop {g : Graph} {s u : Nat} {m : VBP} {q : List Nat}
    (h : BfsOuter g s m (u :: q)) : BfsInner g s u m q (g.adjacent u) := by
  have hs := List.pairwise_cons.1 h.sorted
  refine ⟨h.core, h.qd u (by simp), fun v hv => h.qd v (by simp [hv]), hs.2, hs.1,
    h.hi u (by simp), ?_, fun w hw => Or.inl hw, fun w hw => hw⟩
  intro v hv hvq hvu
  exact h.closed v hv (by simp [hvq, hvu])

theorem BfsInner.done {g : Graph} {s u : Nat} {m : VBP} {q : List Nat}
    (h : BfsInner g s u m q []) : BfsOuter g s m q := by
  refine ⟨h.core, h.qd, h.sorted, ?_, ?_⟩
  · intro u2 hu2 v hv
    cases q with
    | nil => simp at hu2
    | cons a q =>
      simp only [List.head?_cons, Option.mem_def, Option.some.injEq] at hu2
      subst hu2
      have := h.hi v hv
      have := h.lo a (by simp)
      omega
  · intro v hv hvq w hw
    by_cases hvu : v = u
    · subst hvu
      rcases h.cur w hw with hc | hc
      · simp at hc
      · exact hc
    · exact h.closed v hv hvq hvu w hw

theorem bfs_loop_inv {g : Graph} {s : Nat}
    (hE : ∀ v ∈ g.vertices, ∀ x ∈ g.adjacent v, x ∈ g.vertices)
    (hN : g.vertices.length < unsigned_infinity) :
    ∀ (n : Nat) (m : VBP) (q : List Nat), BfsOuter g s m q →
      undiscovered g m + q.length ≤ n →
      ∃ m2, BfsOuter g s m2 [] ∧ ∀ fuel, n ≤ fuel → bfs_loop g fuel m q = some m2 := by
  intro n
  induction n with
  | zero =>
    intro m q h hn
    have hq : q = [] := List.length_eq_zero.1 (by omega)
    subst hq
    exact ⟨m, h, fun fuel _ => by cases fuel <;> rfl⟩
  | succ n ih =>
    intro m q h hn
    cases q with
    | nil => exact ⟨m, h, fun fuel _ => by cases fuel <;> rfl⟩
    | cons u q =>
      obtain ⟨h1, h2⟩ := bfs_fold_inner hE hN _ _ _ h.pop
      simp only [List.length_cons] at hn
      obtain ⟨m2, h3, h4⟩ := ih _ _ h1.done (by omega)
      refine ⟨m2, h3, ?_⟩
      intro fuel hf
      obtain ⟨f, rfl⟩ : ∃ f, fuel = f + 1 := ⟨fuel - 1, by omega⟩
      rw [bfs_loop]
      exact h4 f (by omega)

theorem bfs_init_spec : ∀ (vs : List Nat) (m : VBP),
    (∀ v ∈ vs, bfs_init vs m v = some { distance := unsigned_infinity, parent := v })
      ∧ (∀ v, v ∉ vs → bfs_init vs m v = m v) := by
  intro vs
  induction vs with
  | nil => intro m; exact ⟨fun v hv => by simp at hv, fun v _ => rfl⟩
  | cons a vs ih =>
    intro m
    obtain ⟨h1, h2⟩ := ih (m.set a { distance := unsigned_infinity, parent := a })
    have e : bfs_init (a :: vs) m
        = bfs_init vs (m.set a { distance := unsigned_infinity, parent := a }) := rfl
    rw [e]
    constructor
    · intro v hv
      by_cases hvs : v ∈ vs
      · exact h1 v hvs
      · have hva : v = a := by simpa [hvs] using hv
        rw [h2 v hvs, hva]
        simp [VBP.set]
    · intro v hv
      simp only [List.mem_cons, not_or] at hv
      rw [h2 v hv.2]
      simp [VBP.set, hv.1]

theorem bfs_start {g : Graph} {s : Nat} (hs : s ∈ g.vertices) :
    ∃ m, (∀ fuel, bfs g s fuel = bfs_loop g fuel m [s]) ∧ BfsOuter g s m [s]
      ∧ undiscovered g m + 1 ≤ g.vertices.length := by
  obtain ⟨i1, i2⟩ := bfs_init_spec g.vertices (fun _ => none)
  generalize hmi : bfs_init g.vertices (fun _ => none) = mi at i1 i2
  have hInf : unsigned_infinity = 2 ^ 64 - 1 := rfl
  refine ⟨mi.set s { distance := 0, parent := s }, ?_, ?_, ?_⟩
  · intro fuel
    simp only [bfs, hmi]
    rw [VBP.set_set, VBP.at_set_same, VBP.at_of_some (i1 s hs)]
  · generalize hm : mi.set s { distance := 0, parent := s } = m
    have hat1 : m.at s = { distance := 0, parent := s } := by
      rw [← hm]; exact VBP.at_set_same _ _ _
    have hat2 : ∀ x ∈ g.vertices, x ≠ s →
        m.at x = { distance := unsigned_infinity, parent := x } := by
      intro x hx hxs
      rw [← hm, VBP.at_set_ne _ _ hxs]
      exact VBP.at_of_some (i1 x hx)
    have hD : ∀ v, Discovered g m v → v = s := by
      intro v hv
      by_contra hvs
      exact hv.2 (by rw [hat2 v hv.1 hvs])
    have hDs : Discovered g m s := ⟨hs, by rw [hat1]; simp only; omega⟩
    refine ⟨⟨?_, ?_, hat1, ?_, ?_, ?_, ?_⟩, ?_, List.pairwise_singleton _ _, ?_, ?_⟩
    · intro x hx
      by_cases hxs : x = s
      · exact ⟨{ distance := 0, parent := s }, by rw [← hm, hxs]; simp [VBP.set]⟩
      · exact ⟨_, by rw [← hm]; simp only [VBP.set, if_neg hxs]; exact i1 x hx⟩
    · intro x hx
      have hxs : x ≠ s := fun e => hx (e ▸ hs)
      rw [← hm]
      simp only [VBP.set, if_neg hxs]
      exact i2 x hx
    · intro v hv
      rw [hD v hv, hat1]
      exact Walk.nil
    · intro v hv
      rw [hD v hv, hat1]
      simp only [Nat.zero_add]
      have h1 : undiscovered g m < g.vertices.countP (fun _ => true) := by
        apply countP_lt_of_imp (fun _ _ _ => rfl) hs rfl
        simp only [decide_eq_false_iff_not]
        exact hDs.2
      rw [List.countP_true] at h1
      exact h1
    · intro v hv hvs
      exact absurd (hD v hv) hvs
    · intro v hv hvi
      have hvs : v ≠ s := by
        rintro rfl
        exact hDs.2 hvi
      rw [hat2 v hv hvs]
    · intro v hv
      simp only [List.mem_singleton] at hv
      rw [hv]; exact hDs
    · intro u hu v hv
      simp only [List.head?_cons, Option.mem_def, Option.some.injEq] at hu
      rw [hD v hv, ← hu]
      omega
    · intro v hv hvq
      simp only [List.mem_singleton] at hvq
      exact absurd (hD v hv) hvq
  · have h1 : undiscovered g (mi.set s { distance := 0, parent := s })
        < g.vertices.countP (fun _ => true) := by
      apply countP_lt_of_imp (fun _ _ _ => rfl) hs rfl
      simp only [decide_eq_false_iff_not, VBP.at_set_same]
      omega
    rw [List.countP_true] at h1
    omega

theorem BfsOuter.optimal {g : Graph} {s : Nat} {m : VBP} (h : BfsOuter g s m [])
    (hs : s ∈ g.vertices) {v n : Nat} (hw : Walk g s v n) :
    Discovered g m v ∧ (m.at v).distance ≤ n := by
  have hInf : unsigned_infinity = 2 ^ 64 - 1 := rfl
  induction hw with
  | nil =>
    refine ⟨⟨hs, ?_⟩, ?_⟩
    · rw [h.core.src]
      show (0 : Nat) ≠ unsigned_infinity
      omega
    · rw [h.core.src]
  | snoc _ he ih =>
    obtain ⟨c1, c2⟩ := h.closed _ ih.1 (by simp) _ he
    exact ⟨c1, by omega⟩

/-- C19: for a graph whose edge destinations are all vertices, with fewer vertices than
`unsigned_infinity`, and a source `s` among its vertices, `bfs(g, s)` returns a map (the
`while` loop ends within as many iterations as the graph has vertices) that holds `s`
with distance 0 and parent `s`, and for every vertex `v` a record such that: when `v` is
reachable from `s` its distance is the length of a path from `s` to `v` and no path from
`s` to `v` is shorter; when `v` is not reachable its distance is `unsigned_infinity`;
and when `v` is reachable and is not `s`, its parent holds a record, has an edge to `v`,
and `v`'s distance is the parent's distance plus one. -/
theorem bfs_computes_shortest_distances (g : Graph) (s : Nat) (hs : s ∈ g.vertices)
    (hE : ∀ v ∈ g.vertices, ∀ w ∈ g.adjacent v, w ∈ g.vertices)
    (hN : g.vertices.length < unsigned_infinity) :
    ∃ m, (∀ fuel, g.vertices.length ≤ fuel → bfs g s fuel = some m)
      ∧ m s = some { distance := 0, parent := s }
      ∧ ∀ v ∈ g.vertices, ∃ p, m v = some p
          ∧ ((∃ n, Walk g s v n) →
              Walk g s v p.distance ∧ ∀ n, Walk g s v n → p.distance ≤ n)
          ∧ ((¬ ∃ n, Walk g s v n) → p.distance = unsigned_infinity)
          ∧ ((∃ n, Walk g s v n) → v ≠ s →
              ∃ pp, m p.parent = some pp ∧ v ∈ g.adjacent p.parent
                ∧ p.distance = pp.distance + 1) := by
  obtain ⟨m0, e0, h0, n0⟩ := bfs_start hs
  obtain ⟨m, h, e⟩ := bfs_loop_inv hE hN g.vertices.length m0 [s] h0 (by simpa using n0)
  refine ⟨m, fun fuel hf => by rw [e0, e fuel hf], ?_, ?_⟩
  · obtain ⟨p, hp⟩ := h.core.dom s hs
    rw [hp, ← VBP.at_of_some hp, h.core.src]
  · intro v hv
    obtain ⟨p, hp⟩ := h.core.dom v hv
    have hat := VBP.at_of_some hp
    refine ⟨p, hp, ?_, ?_, ?_⟩
    · rintro ⟨n, hn⟩
      have hD := (h.optimal hs hn).1
      rw [← hat]
      exact ⟨h.core.sound v hD, fun k hk => (h.optimal hs hk).2⟩
    · intro hno
      by_contra hne
      rw [← hat] at hne
      exact hno ⟨_, h.core.sound v ⟨hv, hne⟩⟩
    · rintro ⟨n, hn⟩ hvs
      have hD := (h.optimal hs hn).1
      obtain ⟨p1, p2, p3⟩ := h.core.par v hD hvs
      obtain ⟨pp, hpp⟩ := h.core.dom _ p1.1
      rw [hat] at p2 p3 hpp
      exact ⟨pp, hpp, p2, by rw [p3, VBP.at_of_some hpp]⟩

theorem bfs_computes_shortest_distances_witness :
    (0 ∈ diamond.vertices)
      ∧ (∀ v ∈ diamond.vertices, ∀ w ∈ diamond.adjacent v, w ∈ diamond.vertices)
      ∧ diamond.vertices.length < unsigned_infinity
      ∧ ∃ m, (∀ fuel, diamond.vertices.length ≤ fuel → bfs diamond 0 fuel = some m)
        ∧ m 0 = some { distance := 0, parent := 0 }
        ∧ ∀ v ∈ diamond.vertices, ∃ p, m v = some p
            ∧ ((∃ n, Walk diamond 0 v n) →
                Walk diamond 0 v p.distance ∧ ∀ n, Walk diamond 0 v n → p.distance ≤ n)
            ∧ ((¬ ∃ n, Walk diamond 0 v n) → p.distance = unsigned_infinity)
            ∧ ((∃ n, Walk diamond 0 v n) → v ≠ 0 →
                ∃ pp, m p.parent = some pp ∧ v ∈ diamond.adjacent p.parent
                  ∧ p.distance = pp.distance + 1) :=
  ⟨by decide, by decide, by decide,
    bfs_computes_shortest_distances diamond 0 (by decide) (by decide) (by decide)⟩

end sal
